import Mathlib

/-!
# ORB_SLAM2 consolidation server (`src/Server.cc`)

A shallow embedding of the constructor's choice of the vocabulary loader, of the merge
pipeline and of the cross-sequence correlator of `Server.cc`, followed by theorems about
it.

Modelling conventions.

* A C++ pointer is an `Option Nat`: `none` is `nullptr`, `some a` is the address `a`.
  Objects owned by the client sessions live in a read-only `ClientHeap`; objects created by
  the server with `new` live in the server's own arenas (`Server.keyFrames`,
  `Server.mapPoints`), where `new` returns the next unused address.
* `std::map<K*, V*>` dictionaries are finite partial functions `Ptr → Option Ptr`
  (`none` means: no entry).  `operator[]` is `Dict.index`, which inserts a null entry
  for a key that is absent, exactly as `std::map::operator[]` does.
* `std::map<double, KeyFrame*>` is a list of entries kept sorted by key.  A double is the
  rational number it denotes; the order of doubles is the order of these numbers.  The
  difference of two time stamps is rounded to the nearest double, ties to even
  (`roundToDouble`), and the literal `0.1` is the double nearest to one tenth
  (`toleranceDouble`).  `+infinity` is `none` in an `Option ℚ`.
* Ids are unsigned 64-bit words and the offset is a 32-bit `int`: the arithmetic on them is
  taken modulo `2^64` and `2^32`.
* Dereferencing a null pointer and indexing a vector out of range are undefined behaviour
  in C++; the model reports them as a `Fault`.
* A `std::string` is the list of its characters; `size_type` is an unsigned 64-bit word, so
  a difference of sizes is taken modulo `2^64`.
-/

namespace ORB_SLAM2

/-- A pointer value: `none` is `nullptr`. -/
abbrev Ptr := Option Nat

/-- Line 12: `constexpr int SEQA = 0`. -/
def SEQA : Int := 0

/-- Line 13: `constexpr int SEQB = 1`. -/
def SEQB : Int := 1

/-- Undefined behaviour that the C++ code can run into. -/
inductive Fault where
  | nullDereference
  | outOfRange
  deriving DecidableEq, Repr

/-- The members of `KeyFrame` that `Server.cc` reads or writes. -/
structure KeyFrame where
  mnId : Nat
  mTimeStamp : ℚ
  sequence : Int
  detectedAprilTag : Bool
  aprilTagKeyFrame : Ptr
  mvpMapPoints : List Ptr
  mConnectedKeyFrameWeights : List (Ptr × Int)
  mvpOrderedConnectedKeyFrames : List Ptr
  mvOrderedWeights : List Int
  mpParent : Ptr
  mspChildrens : List Ptr
  mspLoopEdges : List Ptr
  deriving DecidableEq, Repr

/-- The members of `MapPoint` that `Server.cc` reads or writes.  Position and descriptor
are matrices that the server only copies. -/
structure MapPoint where
  mWorldPos : List ℚ
  mDescriptor : List Nat
  mpRefKF : Ptr
  mObservations : List (Ptr × Nat)
  deriving DecidableEq, Repr

instance : Inhabited KeyFrame :=
  ⟨⟨0, 0, 0, false, none, [], [], [], [], none, [], []⟩⟩

instance : Inhabited MapPoint :=
  ⟨⟨[], [], none, []⟩⟩

/-- The objects owned by the client sessions, addressed by pointer.  The server never
writes to them. -/
structure ClientHeap where
  keyFrame : Nat → KeyFrame
  mapPoint : Nat → MapPoint

/-- The two pointer sets of a `Map` (`std::set<KeyFrame*>`, `std::set<MapPoint*>`). -/
structure Map where
  mspKeyFrames : List Nat
  mspMapPoints : List Nat
  deriving DecidableEq, Repr

/-- A client session (`System`); the server only reads its map. -/
structure System where
  mpMap : Map
  deriving DecidableEq, Repr

/-- A pointer-keyed dictionary `std::map<T*, T*>`. -/
abbrev Dict := Ptr → Option Ptr

/-- The assignment `d[k] = v`. -/
def Dict.assign (d : Dict) (k v : Ptr) : Dict :=
  fun x => if x = k then some v else d x

/-- The expression `d[k]` (`std::map::operator[]`): the stored value, or, when `k` has no
entry, a freshly inserted null entry. -/
def Dict.index (d : Dict) (k : Ptr) : Ptr × Dict :=
  match d k with
  | some v => (v, d)
  | none => (none, d.assign k none)

/-- Insertion into a `std::set` of pointers. -/
def setInsert {α : Type} [DecidableEq α] (l : List α) (a : α) : List α :=
  if a ∈ l then l else l ++ [a]

/-- The assignment `m[k] = v` on a `std::map` stored as an association list. -/
def mapAssign {κ ν : Type} [DecidableEq κ] : List (κ × ν) → κ → ν → List (κ × ν)
  | [], k, v => [(k, v)]
  | (k0, v0) :: rest, k, v =>
    if k0 = k then (k, v) :: rest else (k0, v0) :: mapAssign rest k v

/-- The assignment `m[t] = v` on a `std::map<double, KeyFrame*>`, kept sorted by key. -/
def timeAssign : List (ℚ × Nat) → ℚ → Nat → List (ℚ × Nat)
  | [], t, v => [(t, v)]
  | (t0, v0) :: rest, t, v =>
    if t < t0 then (t, v) :: (t0, v0) :: rest
    else if t = t0 then (t, v) :: rest
    else (t0, v0) :: timeAssign rest t v

/-- An iterator returned by `std::map::lower_bound`: the first entry whose key is not less
than `t`, or `none` for `end()`. -/
def lower_bound (m : List (ℚ × Nat)) (t : ℚ) : Option (ℚ × Nat) :=
  m.find? (fun e => decide (t ≤ e.1))

/-- An iterator returned by `std::map::upper_bound`: the first entry whose key is greater
than `t`, or `none` for `end()`. -/
def upper_bound (m : List (ℚ × Nat)) (t : ℚ) : Option (ℚ × Nat) :=
  m.find? (fun e => decide (t < e.1))

/-- The call `v.resize(n)` on a vector of pointers. -/
def resize (v : List Ptr) (n : Nat) : List Ptr :=
  v.take n ++ List.replicate (n - v.length) none

/-- The state of the `Server` object together with the arenas of the objects it has
allocated. -/
structure Server where
  clients : List System
  keyFrameDictionary : Dict
  mapPointDictionary : Dict
  timeDictionaryA : List (ℚ × Nat)
  timeDictionaryB : List (ℚ × Nat)
  globalMap : Map
  keyFrames : Nat → KeyFrame
  nKeyFrames : Nat
  mapPoints : Nat → MapPoint
  nMapPoints : Nat

/-- The server as the constructor leaves it (lines 16-46): an empty global map, empty
dictionaries, nothing allocated. -/
def Server.init : Server :=
  { clients := []
    keyFrameDictionary := fun _ => none
    mapPointDictionary := fun _ => none
    timeDictionaryA := []
    timeDictionaryB := []
    globalMap := ⟨[], []⟩
    keyFrames := fun _ => default
    nKeyFrames := 0
    mapPoints := fun _ => default
    nMapPoints := 0 }

/-- Lines 269-274: `RegisterClient` appends the client to the registry. -/
def Server.RegisterClient (s : Server) (client : System) : Server :=
  { s with clients := s.clients ++ [client] }

/-- Update of the global key frame stored at address `g`. -/
def Server.modifyKeyFrame (s : Server) (g : Nat) (f : KeyFrame → KeyFrame) : Server :=
  { s with keyFrames := fun x => if x = g then f (s.keyFrames g) else s.keyFrames x }

/-- Update of the global map point stored at address `g`. -/
def Server.modifyMapPoint (s : Server) (g : Nat) (f : MapPoint → MapPoint) : Server :=
  { s with mapPoints := fun x => if x = g then f (s.mapPoints g) else s.mapPoints x }

/-- Modelled from the spec: the copying constructor `KeyFrame(keyframe, map, database)` is
declared outside `Server.cc`.  It duplicates the intrinsic data of the client-local key
frame (id, time stamp, marker flag) but not its connections or observations. -/
def KeyFrame.copyIntrinsic (k : KeyFrame) : KeyFrame :=
  { mnId := k.mnId
    mTimeStamp := k.mTimeStamp
    sequence := k.sequence
    detectedAprilTag := k.detectedAprilTag
    aprilTagKeyFrame := none
    mvpMapPoints := []
    mConnectedKeyFrameWeights := []
    mvpOrderedConnectedKeyFrames := []
    mvOrderedWeights := []
    mpParent := none
    mspChildrens := []
    mspLoopEdges := [] }

/-- Modelled from the spec: `Map::AddKeyFrame` is defined outside `Server.cc`; it adds the
key frame to the pointer set of the map. -/
def Map.AddKeyFrame (m : Map) (kf : Nat) : Map :=
  { m with mspKeyFrames := setInsert m.mspKeyFrames kf }

/-- Modelled from the spec: `Map::AddMapPoint` is defined outside `Server.cc`; it adds the
map point to the pointer set of the map. -/
def Map.AddMapPoint (m : Map) (mp : Nat) : Map :=
  { m with mspMapPoints := setInsert m.mspMapPoints mp }

/-- Modelled from the spec: `Map::GetAllKeyFrames` is defined outside `Server.cc`; it
returns the key frames of the map. -/
def Map.GetAllKeyFrames (m : Map) : List Nat := m.mspKeyFrames

/-- Modelled from the spec: `Map::GetAllMapPoints` is defined outside `Server.cc`; it
returns the map points of the map. -/
def Map.GetAllMapPoints (m : Map) : List Nat := m.mspMapPoints

/-- Modelled from the spec: `KeyFrame::GetMapPointMatches` is defined outside `Server.cc`;
it returns the positional list of observed map points. -/
def KeyFrame.GetMapPointMatches (k : KeyFrame) : List Ptr := k.mvpMapPoints

/-- Modelled from the spec: `KeyFrame::AddMapPoint(pMP, idx)` is defined outside
`Server.cc`; it attaches the map point to the key frame at slot `idx`. -/
def KeyFrame.AddMapPoint (k : KeyFrame) (pMP : Ptr) (idx : Nat) : KeyFrame :=
  { k with mvpMapPoints := k.mvpMapPoints.set idx pMP }

/-- Modelled from the spec: `MapPoint::AddObservation(pKF, idx)` is defined outside
`Server.cc`; it adds one observation (key frame, slot) to the map point.  The observations
are kept in the order in which they were added. -/
def MapPoint.AddObservation (p : MapPoint) (pKF : Ptr) (idx : Nat) : MapPoint :=
  { p with mObservations := p.mObservations ++ [(pKF, idx)] }

/-- Modelled from the spec: `KeyFrame::ChangeParent(pKF)` is defined outside `Server.cc`;
it re-parents the key frame under `pKF`. -/
def KeyFrame.ChangeParent (k : KeyFrame) (pKF : Ptr) : KeyFrame :=
  { k with mpParent := pKF }

/-- Line 97: the conversion of a `size_t` value to `int` in `int offset = ...size()`; `int`
has 32 bits and the value is reduced modulo `2^32` into the range from `-2^31` to
`2^31 - 1`. -/
def toInt (n : Nat) : Int :=
  ((n : Int) + ((2 ^ 31 : Nat) : Int)) % ((2 ^ 32 : Nat) : Int) - ((2 ^ 31 : Nat) : Int)

/-- Line 136: `newKeyFrame->mnId += offset`.  The id is an unsigned 64-bit word (`mnId` is
declared outside `Server.cc`, as `long unsigned int`); the `int` offset is converted to
that type and the sum is taken modulo `2^64`. -/
def addOffset (mnId : Nat) (offset : Int) : Nat :=
  (((mnId : Int) + offset) % ((2 ^ 64 : Nat) : Int)).toNat

/-- Lines 134-148: `InsertNewKeyFrame(keyframe, offset, sequence)`. -/
def Server.InsertNewKeyFrame (h : ClientHeap) (s : Server) (keyframe : Nat) (offset : Int)
    (sequence : Int) : Server :=
  let newKeyFrame := s.nKeyFrames
  let obj0 := (h.keyFrame keyframe).copyIntrinsic
  let obj := { obj0 with mnId := addOffset obj0.mnId offset, sequence := sequence }
  let s1 : Server :=
    { s with
      keyFrames := fun x => if x = newKeyFrame then obj else s.keyFrames x
      nKeyFrames := s.nKeyFrames + 1 }
  let s2 : Server :=
    if sequence = SEQA then
      { s1 with timeDictionaryA := timeAssign s1.timeDictionaryA obj.mTimeStamp newKeyFrame }
    else
      { s1 with timeDictionaryB := timeAssign s1.timeDictionaryB obj.mTimeStamp newKeyFrame }
  let s3 : Server := { s2 with globalMap := s2.globalMap.AddKeyFrame newKeyFrame }
  { s3 with
    keyFrameDictionary := s3.keyFrameDictionary.assign (some keyframe) (some newKeyFrame) }

/-- Line 173: `globalKeyFrame->mvpMapPoints[i] = mapPointDictionary[point]`. -/
def Server.storeTranslatedPoint (s : Server) (globalKeyFrame : Nat) (i : Nat) (point : Ptr) :
    Server :=
  let r := s.mapPointDictionary.index point
  let s1 : Server := { s with mapPointDictionary := r.2 }
  s1.modifyKeyFrame globalKeyFrame
    (fun k => { k with mvpMapPoints := k.mvpMapPoints.set i r.1 })

/-- Lines 156-174: the body of the loop of `CopyKeyFrameMappoints` for the slot `i` that
holds `point`. -/
def Server.copyMapPoint (h : ClientHeap) (globalKeyFrame : Nat) (s : Server) (i : Nat)
    (point : Ptr) : Except Fault Server :=
  match s.mapPointDictionary point with
  | none =>
    match point with
    | none => .error .nullDereference
    | some p =>
      let newMapPoint := s.nMapPoints
      let obj : MapPoint :=
        { mWorldPos := (h.mapPoint p).mWorldPos
          mDescriptor := (h.mapPoint p).mDescriptor
          mpRefKF := some globalKeyFrame
          mObservations := [] }
      let s1 : Server :=
        { s with
          mapPoints := fun x => if x = newMapPoint then obj else s.mapPoints x
          nMapPoints := s.nMapPoints + 1 }
      let s2 := s1.modifyMapPoint newMapPoint
        (fun m => m.AddObservation (some globalKeyFrame) i)
      let s3 := s2.modifyKeyFrame globalKeyFrame (fun k => k.AddMapPoint (some newMapPoint) i)
      let s4 : Server := { s3 with globalMap := s3.globalMap.AddMapPoint newMapPoint }
      let s5 : Server :=
        { s4 with mapPointDictionary := s4.mapPointDictionary.assign point (some newMapPoint) }
      .ok (s5.storeTranslatedPoint globalKeyFrame i point)
  | some globalPoint =>
    let s1 : Server :=
      match globalPoint with
      | some gp => s.modifyMapPoint gp (fun m => m.AddObservation (some globalKeyFrame) i)
      | none => s
    let s2 := s1.modifyKeyFrame globalKeyFrame (fun k => k.AddMapPoint globalPoint i)
    .ok (s2.storeTranslatedPoint globalKeyFrame i point)

/-- Lines 154-175: the loop over `keyframe->mvpMapPoints` with the running index `i`. -/
def Server.copyMapPoints (h : ClientHeap) (globalKeyFrame : Nat) :
    List Ptr → Nat → Server → Except Fault Server
  | [], _, s => .ok s
  | point :: rest, i, s =>
    match s.copyMapPoint h globalKeyFrame i point with
    | .ok s1 => Server.copyMapPoints h globalKeyFrame rest (i + 1) s1
    | .error e => .error e

/-- Lines 150-176: `CopyKeyFrameMappoints(keyframe)`. -/
def Server.CopyKeyFrameMappoints (h : ClientHeap) (s : Server) (keyframe : Nat) :
    Except Fault Server :=
  let r := s.keyFrameDictionary.index (some keyframe)
  let s1 : Server := { s with keyFrameDictionary := r.2 }
  match r.1 with
  | none => .error .nullDereference
  | some globalKeyFrame =>
    let s2 := s1.modifyKeyFrame globalKeyFrame
      (fun k =>
        { k with
          mvpMapPoints := resize k.mvpMapPoints (h.keyFrame keyframe).GetMapPointMatches.length })
    s2.copyMapPoints h globalKeyFrame (h.keyFrame keyframe).mvpMapPoints 0

/-- Lines 183-189: one covisibility edge is translated and stored.  The loops of
`CopyKeyFrameConnections` touch only the key-frame dictionary and the global key frame,
which are threaded as a pair. -/
def copyConnection (acc : Dict × KeyFrame) (kfWeightPair : Ptr × Int) : Dict × KeyFrame :=
  let connKF := kfWeightPair.1
  let r := acc.1.index connKF
  let weight := kfWeightPair.2
  (r.2, { acc.2 with
    mConnectedKeyFrameWeights := mapAssign acc.2.mConnectedKeyFrameWeights r.1 weight })

/-- Lines 192-195: one ordered connection is translated and appended. -/
def copyOrderedConnection (acc : Dict × KeyFrame) (orderedConnection : Ptr) : Dict × KeyFrame :=
  let r := acc.1.index orderedConnection
  (r.2, { acc.2 with
    mvpOrderedConnectedKeyFrames := acc.2.mvpOrderedConnectedKeyFrames ++ [r.1] })

/-- Lines 198-200: one ordered weight is appended. -/
def copyOrderedWeight (acc : Dict × KeyFrame) (weight : Int) : Dict × KeyFrame :=
  (acc.1, { acc.2 with mvOrderedWeights := acc.2.mvOrderedWeights ++ [weight] })

/-- Lines 203-206: the parent link, when the source has one. -/
def copyParent (acc : Dict × KeyFrame) (mpParent : Ptr) : Dict × KeyFrame :=
  match mpParent with
  | none => acc
  | some p =>
    let r := acc.1.index (some p)
    (r.2, acc.2.ChangeParent r.1)

/-- Lines 208-211: one child reference is translated and inserted. -/
def copyChild (acc : Dict × KeyFrame) (child : Ptr) : Dict × KeyFrame :=
  let r := acc.1.index child
  (r.2, { acc.2 with mspChildrens := setInsert acc.2.mspChildrens r.1 })

/-- Lines 214-217: one loop edge is translated and inserted. -/
def copyLoopEdge (acc : Dict × KeyFrame) (loopClosure : Ptr) : Dict × KeyFrame :=
  let r := acc.1.index loopClosure
  (r.2, { acc.2 with mspLoopEdges := setInsert acc.2.mspLoopEdges r.1 })

/-- Lines 182-217: the dictionary and the global key frame after the six steps of
`CopyKeyFrameConnections` for the source key frame `src`. -/
def copyConnections (src : KeyFrame) (acc : Dict × KeyFrame) : Dict × KeyFrame :=
  let a1 := src.mConnectedKeyFrameWeights.foldl copyConnection acc
  let a2 := src.mvpOrderedConnectedKeyFrames.foldl copyOrderedConnection a1
  let a3 := src.mvOrderedWeights.foldl copyOrderedWeight a2
  let a4 := copyParent a3 src.mpParent
  let a5 := src.mspChildrens.foldl copyChild a4
  src.mspLoopEdges.foldl copyLoopEdge a5

/-- Lines 178-218: `CopyKeyFrameConnections(keyframe)`. -/
def Server.CopyKeyFrameConnections (h : ClientHeap) (s : Server) (keyframe : Nat) :
    Except Fault Server :=
  let r := s.keyFrameDictionary.index (some keyframe)
  match r.1 with
  | none => .error .nullDereference
  | some globalKeyFrame =>
    let a := copyConnections (h.keyFrame keyframe) (r.2, s.keyFrames globalKeyFrame)
    .ok { s with
      keyFrameDictionary := a.1
      keyFrames := fun x => if x = globalKeyFrame then a.2 else s.keyFrames x }

/-- The comparison `a <= b` of two doubles that are finite or `+infinity` (`none`). -/
def leInf : Option ℚ → Option ℚ → Bool
  | _, none => true
  | none, some _ => false
  | some a, some b => decide (a ≤ b)

/-- The comparison `a < b` of two doubles that are finite or `+infinity` (`none`). -/
def ltInf : Option ℚ → Option ℚ → Bool
  | none, _ => false
  | some _, none => true
  | some a, some b => decide (a < b)

/-- The number of binary digits of `n` minus one, computed with `fuel` halvings. -/
def log2Fuel : Nat → Nat → Nat
  | 0, _ => 0
  | fuel + 1, n => if n < 2 then 0 else log2Fuel fuel (n / 2) + 1

/-- The largest `k` with `2^k <= n`, for a positive `n`. -/
def floorLog2 (n : Nat) : Nat := log2Fuel n n

/-- The power `2^e` of an integer exponent as a rational number. -/
def pow2 (e : Int) : ℚ :=
  if 0 ≤ e then ((2 ^ e.toNat : Nat) : ℚ) else 1 / ((2 ^ (-e).toNat : Nat) : ℚ)

/-- The largest `e` with `2^e <= x`, for a positive rational `x`. -/
def ilog2 (x : ℚ) : Int :=
  if pow2 ((floorLog2 x.num.natAbs : Int) - (floorLog2 x.den : Int)) ≤ x then
    (floorLog2 x.num.natAbs : Int) - (floorLog2 x.den : Int)
  else (floorLog2 x.num.natAbs : Int) - (floorLog2 x.den : Int) - 1

/-- Rounding to the nearest integer, ties to the even one. -/
def roundHalfEven (q : ℚ) : Int :=
  if q - ⌊q⌋ < 1 / 2 then ⌊q⌋
  else if 1 / 2 < q - ⌊q⌋ then ⌊q⌋ + 1
  else if ⌊q⌋ % 2 = 0 then ⌊q⌋ else ⌊q⌋ + 1

/-- The spacing of the doubles around a non-negative `x`: `2^(e - 52)` where `2^e` is the
largest power of two that is not above `x`, and `2^(-1074)` in the subnormal range. -/
def ulp (x : ℚ) : ℚ := pow2 (max (ilog2 x) (-1022) - 52)

/-- Rounding of a non-negative number to the nearest multiple of the spacing. -/
def roundNonneg (x : ℚ) : ℚ := (roundHalfEven (x / ulp x) : ℚ) * ulp x

/-- Rounding to the nearest double (ties to even), before the test for overflow. -/
def roundToDouble (x : ℚ) : ℚ := if 0 ≤ x then roundNonneg x else -roundNonneg (-x)

/-- The least magnitude that a double cannot hold: `2^1024`. -/
def doubleOverflow : ℚ := (((2 ^ 128 : Nat) ^ 8 : Nat) : ℚ)

/-- The expression `std::abs(a - b)` on doubles: the difference is rounded to the nearest
double; a result whose magnitude reaches `2^1024` is an infinity, and its absolute value
is `+infinity` (`none`). -/
def absDifference (a b : ℚ) : Option ℚ :=
  if |roundToDouble (a - b)| < doubleOverflow then some |roundToDouble (a - b)| else none

/-- Lines 244-249: `std::abs(it->second->mTimeStamp - timestamp)` when `it` is not `end()`,
and `+infinity` otherwise. -/
def Server.timeDiff (s : Server) (it : Option (ℚ × Nat)) (timestamp : ℚ) : Option ℚ :=
  match it with
  | some e => absDifference (s.keyFrames e.2).mTimeStamp timestamp
  | none => none

/-- Lines 232-258: the iterator `closest_it` and the value `closestDiff` computed for a
key frame with the given time stamp and sequence tag. -/
def Server.closest (s : Server) (timestamp : ℚ) (sequence : Int) :
    Option (ℚ × Nat) × Option ℚ :=
  let other := if sequence = SEQA then s.timeDictionaryB else s.timeDictionaryA
  let lower_it := lower_bound other timestamp
  let upper_it := upper_bound other timestamp
  let lowerTimeDiff := s.timeDiff lower_it timestamp
  let upperTimeDiff := s.timeDiff upper_it timestamp
  if leInf lowerTimeDiff upperTimeDiff then (lower_it, lowerTimeDiff)
  else if ltInf upperTimeDiff lowerTimeDiff then (upper_it, upperTimeDiff)
  else (none, none)

/-- The decimal number 0.1 that the literal of line 261 is written as. -/
def tolerance : ℚ := 1 / 10

/-- Line 261: the value of the literal `0.1`, the double nearest to one tenth. -/
def toleranceDouble : ℚ := 3602879701896397 / 36028797018963968

/-- Lines 222-265: the body of the loop of `FindAprilTagConnections` for one global key
frame. -/
def Server.correlate (s : Server) (keyframe : Nat) : Server :=
  let k := s.keyFrames keyframe
  if k.detectedAprilTag then
    let c := s.closest k.mTimeStamp k.sequence
    if ltInf c.2 (some toleranceDouble) then
      match c.1 with
      | some e => s.modifyKeyFrame keyframe (fun k => { k with aprilTagKeyFrame := some e.2 })
      | none => s
    else s
  else s

/-- Lines 220-267: `FindAprilTagConnections()`. -/
def Server.FindAprilTagConnections (s : Server) : Server :=
  s.globalMap.GetAllKeyFrames.foldl Server.correlate s

/-- A loop `for (x : xs) f(x)` whose body may run into undefined behaviour. -/
def forEach {α : Type} (f : Server → α → Except Fault Server) :
    List α → Server → Except Fault Server
  | [], s => .ok s
  | x :: xs, s =>
    match f s x with
    | .ok s1 => forEach f xs s1
    | .error e => .error e

/-- Lines 82-95 and 98-111: the three passes over the key frames of one sequence. -/
def Server.insertSequence (h : ClientHeap) (s : Server) (keyframes : List Nat) (offset : Int)
    (sequence : Int) : Except Fault Server :=
  let s1 := keyframes.foldl (fun t k => t.InsertNewKeyFrame h k offset sequence) s
  match forEach (Server.CopyKeyFrameMappoints h) keyframes s1 with
  | .ok s2 => forEach (Server.CopyKeyFrameConnections h) keyframes s2
  | .error e => .error e

/-- Lines 63-64: the two dictionaries are seeded with the null entry. -/
def Server.seed (s : Server) : Server :=
  { s with
    keyFrameDictionary := s.keyFrameDictionary.assign none none
    mapPointDictionary := s.mapPointDictionary.assign none none }

/-- Lines 82-111: sequence A is inserted with offset 0, then sequence B with the number of
key frames that the global map holds at that moment. -/
def Server.merge (h : ClientHeap) (s : Server) (keyframesSeqA keyframesSeqB : List Nat) :
    Except Fault Server :=
  match s.insertSequence h keyframesSeqA 0 SEQA with
  | .ok s1 =>
    let offset := toInt s1.globalMap.GetAllKeyFrames.length
    s1.insertSequence h keyframesSeqB offset SEQB
  | .error e => .error e

/-- Lines 58-115: `Run()` up to and including the correlation pass.  The threads, the
console gates and the calls into the loop closer that follow do not touch the state
modelled here. -/
def Server.Run (h : ClientHeap) (s : Server) : Except Fault Server :=
  let s0 := s.seed
  match s0.clients[0]?, s0.clients[1]? with
  | some c0, some c1 =>
    match s0.merge h c0.mpMap.GetAllKeyFrames c1.mpMap.GetAllKeyFrames with
    | .ok s1 => .ok s1.FindAprilTagConnections
    | .error e => .error e
  | _, _ => .error .outOfRange

/-- The three operations of the merge pipeline, with their arguments. -/
inductive Op where
  | insertNewKeyFrame (keyframe : Nat) (offset : Int) (sequence : Int)
  | copyKeyFrameMappoints (keyframe : Nat)
  | copyKeyFrameConnections (keyframe : Nat)
  deriving DecidableEq, Repr

/-- One operation of the merge pipeline applied to the server. -/
def Server.step (h : ClientHeap) (s : Server) : Op → Except Fault Server
  | .insertNewKeyFrame keyframe offset sequence =>
    .ok (s.InsertNewKeyFrame h keyframe offset sequence)
  | .copyKeyFrameMappoints keyframe => s.CopyKeyFrameMappoints h keyframe
  | .copyKeyFrameConnections keyframe => s.CopyKeyFrameConnections h keyframe

/-- A sequence of merge operations applied to the server, in order. -/
def Server.exec (h : ClientHeap) (s : Server) (ops : List Op) : Except Fault Server :=
  forEach (Server.step h) ops s

/-- The value `std::string::npos`: the largest value of the 64-bit `size_type`. -/
def npos : Nat := 2 ^ 64 - 1

/-- The comparison that `std::string::find` makes at one position: the characters of `str`
are the first characters of `s`. -/
def startsWith : List Char → List Char → Bool
  | _, [] => true
  | [], _ :: _ => false
  | a :: s, b :: str => a == b && startsWith s str

/-- The call `s.find(str, pos)` of the standard library on strings given by their
characters: the lowest position `xpos` with `pos <= xpos` and `xpos + str.size() <= s.size()`
at which `str` occurs in `s`, and `npos` when there is none. -/
def find (s str : List Char) (pos : Nat) : Nat :=
  match (List.range (s.length + 1)).find?
      (fun xpos =>
        decide (pos ≤ xpos) && decide (xpos + str.length ≤ s.length) &&
          startsWith (s.drop xpos) str) with
  | some xpos => xpos
  | none => npos

/-- Line 25: `const std::string txt_suffix(".txt")`. -/
def txt_suffix : List Char := ['.', 't', 'x', 't']

/-- The two loaders of the vocabulary between which the constructor chooses. -/
inductive VocabularyLoader where
  | loadFromTextFile
  | loadFromBinaryFile
  deriving DecidableEq, Repr

/-- Lines 25-30: the loader that the constructor calls for the vocabulary file
`strVocFile`.  The start position `strVocFile.size() - txt_suffix.size()` is computed in
the unsigned 64-bit `size_type`. -/
def Server.vocabularyLoader (strVocFile : List Char) : VocabularyLoader :=
  if find strVocFile txt_suffix
      ((strVocFile.length + 2 ^ 64 - txt_suffix.length) % 2 ^ 64) ≠ npos then
    .loadFromTextFile
  else .loadFromBinaryFile

/-! ## Auxiliary definitions used to state and prove the properties -/

/-- The candidate that the body of `FindAprilTagConnections` accepts for the key frame at
address `g`: the key frame of `closest_it` when the key frame carries the marker flag,
`closestDiff < 0.1` and `closest_it` is not `end()`. -/
def Server.accepted (s : Server) (g : Nat) : Option Nat :=
  if (s.keyFrames g).detectedAprilTag then
    if ltInf (s.closest (s.keyFrames g).mTimeStamp (s.keyFrames g).sequence).2
        (some toleranceDouble)
    then (s.closest (s.keyFrames g).mTimeStamp (s.keyFrames g).sequence).1.map Prod.snd
    else none
  else none

/-- A key frame with its correlated-key-frame field blanked out. -/
def KeyFrame.withoutCorrelation (k : KeyFrame) : KeyFrame :=
  { k with aprilTagKeyFrame := none }

/-- Two server states that differ at most in the correlated-key-frame fields of their
global key frames. -/
def Server.SameUpToCorrelation (s t : Server) : Prop :=
  t.clients = s.clients ∧ t.keyFrameDictionary = s.keyFrameDictionary ∧
  t.mapPointDictionary = s.mapPointDictionary ∧ t.timeDictionaryA = s.timeDictionaryA ∧
  t.timeDictionaryB = s.timeDictionaryB ∧ t.globalMap = s.globalMap ∧
  t.nKeyFrames = s.nKeyFrames ∧ t.mapPoints = s.mapPoints ∧ t.nMapPoints = s.nMapPoints ∧
  ∀ g, (t.keyFrames g).withoutCorrelation = (s.keyFrames g).withoutCorrelation

/-- The pointer that the expression `d[k]` evaluates to. -/
def Dict.translate (d : Dict) (k : Ptr) : Ptr := (d.index k).1

/-- What `operator[]` lookups can do to a dictionary: every entry is kept as it is, and a
new entry is a null entry. -/
def Dict.NullExtends (d d' : Dict) : Prop :=
  ∀ k, d' k = d k ∨ (d k = none ∧ d' k = some none)

/-- The dictionary after the lookups `d[k]` for the keys `k` of a list, in order. -/
def Dict.afterLookups (d : Dict) (l : List Ptr) : Dict :=
  l.foldl (fun e k => (e.index k).2) d

/-- The keys that `CopyKeyFrameConnections` looks up for a source key frame, in order. -/
def KeyFrame.lookupKeys (src : KeyFrame) : List Ptr :=
  src.mConnectedKeyFrameWeights.map Prod.fst ++ src.mvpOrderedConnectedKeyFrames ++
    (match src.mpParent with
      | none => []
      | some p => [some p]) ++
    src.mspChildrens ++ src.mspLoopEdges

/-- The arena of global map points after `globalPoint`, when it is not null, has received
the observation `(pKF, i)` (lines 167-169). -/
def observeAt (mapPoints : Nat → MapPoint) (globalPoint pKF : Ptr) (i : Nat) : Nat → MapPoint :=
  match globalPoint with
  | some gp => fun x => if x = gp then (mapPoints gp).AddObservation pKF i else mapPoints x
  | none => mapPoints

/-- The observations of the global map point that the translator holds for the client-local
map point `p`; empty when `p` has no global map point. -/
def Server.observationsOf (s : Server) (p : Nat) : List (Ptr × Nat) :=
  match s.mapPointDictionary (some p) with
  | some (some a) => (s.mapPoints a).mObservations
  | _ => []

/-- The slot indices at which `target` occurs in a list of slots whose first index is `i`. -/
def slotsOf (target : Ptr) : List Ptr → Nat → List Nat
  | [], _ => []
  | x :: xs, i => if x = target then i :: slotsOf target xs (i + 1) else slotsOf target xs (i + 1)

/-- The invariant of the map-point translator and of the arena of global map points: the
null entry is seeded, every non-null key is mapped to an allocated global map point, no
two keys share a global map point, and the global map holds exactly the allocated map
points. -/
def Server.MapPointsWF (s : Server) : Prop :=
  s.mapPointDictionary none = some none ∧
  (∀ p v, s.mapPointDictionary (some p) = some v → ∃ a, v = some a ∧ a < s.nMapPoints) ∧
  (∀ p q a, s.mapPointDictionary (some p) = some (some a) →
    s.mapPointDictionary (some q) = some (some a) → p = q) ∧
  s.globalMap.mspMapPoints = List.range s.nMapPoints

/-- Every allocated global map point is the image of a client-local map point. -/
def Server.MapPointsCovered (s : Server) : Prop :=
  ∀ a, a < s.nMapPoints → ∃ q, s.mapPointDictionary (some q) = some (some a)

/-- What one pass of the loop body of `CopyKeyFrameMappoints` (slot `i`, holding `point`)
does to the server. -/
structure SlotStep (g i : Nat) (point : Ptr) (s s' : Server) : Prop where
  clients : s'.clients = s.clients
  keyFrameDictionary : s'.keyFrameDictionary = s.keyFrameDictionary
  timeDictionaryA : s'.timeDictionaryA = s.timeDictionaryA
  timeDictionaryB : s'.timeDictionaryB = s.timeDictionaryB
  nKeyFrames : s'.nKeyFrames = s.nKeyFrames
  mspKeyFrames : s'.globalMap.mspKeyFrames = s.globalMap.mspKeyFrames
  keyFrames : ∀ x, s'.keyFrames x =
    if x = g then
      { s.keyFrames g with
        mvpMapPoints :=
          (s.keyFrames g).mvpMapPoints.set i (s'.mapPointDictionary.translate point) }
    else s.keyFrames x
  entry : s'.mapPointDictionary point = some (s'.mapPointDictionary.translate point)
  mono : ∀ k v, s.mapPointDictionary k = some v → s'.mapPointDictionary k = some v
  fresh : ∀ k, s.mapPointDictionary k = none → s'.mapPointDictionary k ≠ none →
    k = point ∧ ∃ a, s'.mapPointDictionary k = some (some a) ∧ s.nMapPoints ≤ a ∧
      a < s'.nMapPoints
  nMapPoints_le : s.nMapPoints ≤ s'.nMapPoints
  null : point = none → s'.mapPointDictionary = s.mapPointDictionary ∧
    s'.mapPoints = s.mapPoints ∧ s'.nMapPoints = s.nMapPoints ∧ s'.globalMap = s.globalMap
  wf : s.MapPointsWF → s'.MapPointsWF
  covered : s.MapPointsCovered → s'.MapPointsCovered
  observations : s.MapPointsWF → ∀ p, s'.observationsOf p =
    s.observationsOf p ++ (if point = some p then [(some g, i)] else [])

/-- The vector `v` after the assignments `v[i] = x0`, `v[i+1] = x1`, ... for the elements of
a list of values. -/
def overwrite (v : List Ptr) : Nat → List Ptr → List Ptr
  | _, [] => v
  | i, x :: xs => overwrite (v.set i x) (i + 1) xs

/-- What the loop of `CopyKeyFrameMappoints` over the slots `points`, the first of which
has index `i`, does to the server. -/
structure SlotsLoop (g i : Nat) (points : List Ptr) (s s' : Server) : Prop where
  clients : s'.clients = s.clients
  keyFrameDictionary : s'.keyFrameDictionary = s.keyFrameDictionary
  timeDictionaryA : s'.timeDictionaryA = s.timeDictionaryA
  timeDictionaryB : s'.timeDictionaryB = s.timeDictionaryB
  nKeyFrames : s'.nKeyFrames = s.nKeyFrames
  mspKeyFrames : s'.globalMap.mspKeyFrames = s.globalMap.mspKeyFrames
  keyFrames : ∀ x, s'.keyFrames x =
    if x = g then
      { s.keyFrames g with
        mvpMapPoints :=
          overwrite (s.keyFrames g).mvpMapPoints i
            (points.map s'.mapPointDictionary.translate) }
    else s.keyFrames x
  entry : ∀ x ∈ points, s'.mapPointDictionary x = some (s'.mapPointDictionary.translate x)
  mono : ∀ k v, s.mapPointDictionary k = some v → s'.mapPointDictionary k = some v
  fresh : ∀ k, s.mapPointDictionary k = none → s'.mapPointDictionary k ≠ none →
    k ∈ points ∧ ∃ a, s'.mapPointDictionary k = some (some a) ∧ s.nMapPoints ≤ a ∧
      a < s'.nMapPoints
  nMapPoints_le : s.nMapPoints ≤ s'.nMapPoints
  null : (∀ x ∈ points, x = none) → s'.mapPointDictionary = s.mapPointDictionary ∧
    s'.mapPoints = s.mapPoints ∧ s'.nMapPoints = s.nMapPoints ∧ s'.globalMap = s.globalMap
  wf : s.MapPointsWF → s'.MapPointsWF
  covered : s.MapPointsCovered → s'.MapPointsCovered
  observations : s.MapPointsWF → ∀ p, s'.observationsOf p =
    s.observationsOf p ++ (slotsOf (some p) points i).map (fun j => (some g, j))

/-- The intrinsic data of a key frame, which the second and third pass never change,
together with its correlated-key-frame field. -/
def KeyFrame.core (k : KeyFrame) : Nat × ℚ × Int × Bool × Ptr :=
  (k.mnId, k.mTimeStamp, k.sequence, k.detectedAprilTag, k.aprilTagKeyFrame)

/-- What `CopyKeyFrameMappoints` does to the server for a key frame that is registered with
the global key frame `g` and whose slots are `points`. -/
structure PointPass (g : Nat) (points : List Ptr) (s s' : Server) : Prop where
  clients : s'.clients = s.clients
  keyFrameDictionary : s'.keyFrameDictionary = s.keyFrameDictionary
  timeDictionaryA : s'.timeDictionaryA = s.timeDictionaryA
  timeDictionaryB : s'.timeDictionaryB = s.timeDictionaryB
  nKeyFrames : s'.nKeyFrames = s.nKeyFrames
  mspKeyFrames : s'.globalMap.mspKeyFrames = s.globalMap.mspKeyFrames
  keyFrames : ∀ x, s'.keyFrames x =
    if x = g then
      { s.keyFrames g with mvpMapPoints := points.map s'.mapPointDictionary.translate }
    else s.keyFrames x
  entry : ∀ x ∈ points, s'.mapPointDictionary x = some (s'.mapPointDictionary.translate x)
  mono : ∀ k v, s.mapPointDictionary k = some v → s'.mapPointDictionary k = some v
  fresh : ∀ k, s.mapPointDictionary k = none → s'.mapPointDictionary k ≠ none →
    k ∈ points ∧ ∃ a, s'.mapPointDictionary k = some (some a) ∧ s.nMapPoints ≤ a ∧
      a < s'.nMapPoints
  nMapPoints_le : s.nMapPoints ≤ s'.nMapPoints
  null : (∀ x ∈ points, x = none) → s'.mapPointDictionary = s.mapPointDictionary ∧
    s'.mapPoints = s.mapPoints ∧ s'.nMapPoints = s.nMapPoints ∧ s'.globalMap = s.globalMap
  wf : s.MapPointsWF → s'.MapPointsWF
  covered : s.MapPointsCovered → s'.MapPointsCovered
  observations : s.MapPointsWF → ∀ p, s'.observationsOf p =
    s.observationsOf p ++ (slotsOf (some p) points 0).map (fun j => (some g, j))

/-- The invariant of the key-frame translator and of the arena of global key frames: the
null entry is seeded, every non-null image is an allocated global key frame, no two keys
share a non-null image, and the global map holds exactly the allocated key frames. -/
def Server.KeyFramesWF (s : Server) : Prop :=
  s.keyFrameDictionary none = some none ∧
  (∀ k a, s.keyFrameDictionary (some k) = some (some a) → a < s.nKeyFrames) ∧
  (∀ k1 k2 a, s.keyFrameDictionary (some k1) = some (some a) →
    s.keyFrameDictionary (some k2) = some (some a) → k1 = k2) ∧
  s.globalMap.mspKeyFrames = List.range s.nKeyFrames

/-- The invariant of the merge: both translators and both arenas are well formed. -/
def Server.WellFormed (s : Server) : Prop :=
  s.KeyFramesWF ∧ s.MapPointsWF

/-- What the second and third pass leave alone: the client registry, the time indices,
the set of global key frames, the intrinsic data of every global key frame; and what they
only extend: the key-frame translator (by null entries), the map-point translator and the
arena of global map points. -/
def Server.LinkFrame (s t : Server) : Prop :=
  t.clients = s.clients ∧ t.timeDictionaryA = s.timeDictionaryA ∧
  t.timeDictionaryB = s.timeDictionaryB ∧ t.nKeyFrames = s.nKeyFrames ∧
  t.globalMap.mspKeyFrames = s.globalMap.mspKeyFrames ∧
  s.keyFrameDictionary.NullExtends t.keyFrameDictionary ∧
  (∀ k v, s.mapPointDictionary k = some v → t.mapPointDictionary k = some v) ∧
  s.nMapPoints ≤ t.nMapPoints ∧
  ∀ x, (t.keyFrames x).core = (s.keyFrames x).core

/-- The server with the given client registry, as the constructor and `RegisterClient`
leave it. -/
def Server.withClients (clients : List System) : Server :=
  { Server.init with clients := clients }

/-- The operations that `Run` performs for one sequence (lines 82-95 and 98-111): the first
pass over all key frames, then the second, then the third. -/
def sequenceOps (keyframes : List Nat) (offset : Int) (sequence : Int) : List Op :=
  keyframes.map (fun k => Op.insertNewKeyFrame k offset sequence) ++
    keyframes.map Op.copyKeyFrameMappoints ++ keyframes.map Op.copyKeyFrameConnections

/-- The map-point translator is injective on non-null keys, with non-null images. -/
def Server.MapPointTranslatorInjective (s : Server) : Prop :=
  ∀ (p q : Nat) (gp gq : Ptr), p ≠ q → s.mapPointDictionary (some p) = some gp →
    s.mapPointDictionary (some q) = some gq → gp ≠ none ∧ gq ≠ none ∧ gp ≠ gq

/-! ## Outcomes of runs and concrete scenarios -/

/-- The state in which a run ended, and the initial state when it ended in a fault. -/
def stateOf (r : Except Fault Server) : Server :=
  match r with
  | .ok s => s
  | .error _ => Server.init

/-- The correlated-key-frame field of the global key frame at address `g` in the outcome of
a run; `none` when the run ended in a fault. -/
def correlatedOf (r : Except Fault Server) (g : Nat) : Option Ptr :=
  match r with
  | .ok s => some (s.keyFrames g).aprilTagKeyFrame
  | .error _ => none

/-- The translation of a client-local key frame in the outcome of a run; `none` when the
run ended in a fault or the key frame has no entry. -/
def translatedOf (r : Except Fault Server) (k : Nat) : Option Ptr :=
  match r with
  | .ok s => s.keyFrameDictionary (some k)
  | .error _ => none

/-- The covisibility edges of the global key frame at address `g` in the outcome of a run;
`none` when the run ended in a fault. -/
def connectionsOf (r : Except Fault Server) (g : Nat) : Option (List (Ptr × Int)) :=
  match r with
  | .ok s => some (s.keyFrames g).mConnectedKeyFrameWeights
  | .error _ => none

/-- The id of the global key frame at address `g` in the outcome of a run; `none` when the
run ended in a fault. -/
def idOf (r : Except Fault Server) (g : Nat) : Option Nat :=
  match r with
  | .ok s => some (s.keyFrames g).mnId
  | .error _ => none

/-- The key frames of the global map in the outcome of a run; `none` when the run ended in
a fault. -/
def globalKeyFramesOf (r : Except Fault Server) : Option (List Nat) :=
  match r with
  | .ok s => some s.globalMap.GetAllKeyFrames
  | .error _ => none

/-- A client-local key frame that has only an id, a time stamp and a marker flag. -/
def bareKeyFrame (id : Nat) (t : ℚ) (tag : Bool) : KeyFrame :=
  { (default : KeyFrame) with mnId := id, mTimeStamp := t, detectedAprilTag := tag }

/-- Second correlator scenario of the specification: the key frame at address 1 (sequence
A, marker detected) has time stamp 1.00; the key frames at addresses 2 and 3 (sequence B)
have time stamps 0.95 and 1.08. -/
def scenarioNearHeap : ClientHeap :=
  { keyFrame := fun a =>
      if a = 1 then bareKeyFrame 0 1 true
      else if a = 2 then bareKeyFrame 0 (95 / 100) false
      else bareKeyFrame 1 (108 / 100) false
    mapPoint := fun _ => default }

/-- First correlator scenario of the specification: the key frame at address 1 (sequence
A, marker detected) has time stamp 1.00; the key frames at addresses 2 and 3 (sequence B)
have time stamps 0.80 and 1.15. -/
def scenarioFarHeap : ClientHeap :=
  { keyFrame := fun a =>
      if a = 1 then bareKeyFrame 0 1 true
      else if a = 2 then bareKeyFrame 0 (80 / 100) false
      else bareKeyFrame 1 (115 / 100) false
    mapPoint := fun _ => default }

/-- A server with two registered clients: the first owns the key frame at address 1, the
second the key frames at addresses 2 and 3. -/
def scenarioServer : Server :=
  (Server.init.RegisterClient ⟨⟨[1], []⟩⟩).RegisterClient ⟨⟨[2, 3], []⟩⟩

/-- The server of the first correlator scenario after the merge, before the correlation
pass. -/
def scenarioFarMerged : Server :=
  stateOf (scenarioServer.seed.merge scenarioFarHeap [1] [2, 3])

/-- A client heap for the id scenario: sequence A owns the key frames at addresses 1 and 2,
with ids 0 and 2 (the key frame with id 1 has been culled); sequence B owns the key frame
at address 3, with id 0. -/
def gapIdHeap : ClientHeap :=
  { keyFrame := fun a =>
      if a = 1 then bareKeyFrame 0 0 false
      else if a = 2 then bareKeyFrame 2 1 false
      else bareKeyFrame 0 2 false
    mapPoint := fun _ => default }

/-- A server with two registered clients: the first owns the key frames at addresses 1 and
2, the second the key frame at address 3. -/
def gapIdServer : Server :=
  (Server.init.RegisterClient ⟨⟨[1, 2], []⟩⟩).RegisterClient ⟨⟨[3], []⟩⟩

/-- A client heap for the rejected-lookup scenario: the key frame at address 1 has one
covisibility edge, of weight 5, to the key frame at address 9, which is also its only
ordered connection; every other key frame is bare. -/
def danglingEdgeHeap : ClientHeap :=
  { keyFrame := fun a =>
      if a = 1 then
        { bareKeyFrame 0 0 false with
          mConnectedKeyFrameWeights := [(some 9, 5)]
          mvpOrderedConnectedKeyFrames := [some 9]
          mvOrderedWeights := [5] }
      else bareKeyFrame a 0 false
    mapPoint := fun _ => default }

/-- A client heap for the shared-neighbours scenario: the key frames at addresses 1 and 2
both have covisibility edges to the key frames at addresses 8 and 9, with weights 3, 4 and
5, 6. -/
def sharedNeighboursHeap : ClientHeap :=
  { keyFrame := fun a =>
      if a = 1 then
        { bareKeyFrame 0 0 false with mConnectedKeyFrameWeights := [(some 8, 3), (some 9, 4)] }
      else if a = 2 then
        { bareKeyFrame 1 0 false with mConnectedKeyFrameWeights := [(some 8, 5), (some 9, 6)] }
      else bareKeyFrame a 0 false
    mapPoint := fun _ => default }

/-- A client heap for the map-point scenarios: the key frame at address 1 observes the map
points at addresses 5, null and 6 in its three slots; the key frame at address 2 observes
the map points at addresses 6 and 5 in its two slots. -/
def sharedPointsHeap : ClientHeap :=
  { keyFrame := fun a =>
      if a = 1 then { bareKeyFrame 0 0 false with mvpMapPoints := [some 5, none, some 6] }
      else if a = 2 then { bareKeyFrame 1 0 false with mvpMapPoints := [some 6, some 5] }
      else bareKeyFrame a 0 false
    mapPoint := fun a => { (default : MapPoint) with mDescriptor := [a] } }

/-- A client heap for the spanning-tree scenario: the key frame at address 1 has the parent
at address 2, the child at address 3 and a loop edge to the key frame at address 4; every
other key frame is bare. -/
def spanningTreeHeap : ClientHeap :=
  { keyFrame := fun a =>
      if a = 1 then
        { bareKeyFrame 0 0 false with
          mpParent := some 2
          mspChildrens := [some 3]
          mspLoopEdges := [some 4] }
      else bareKeyFrame a 0 false
    mapPoint := fun _ => default }

/-- The translators of `t` extend those of `s`: every key of the key-frame dictionary and of
the map-point dictionary of `s` is a key of the dictionary of `t`, and every map point
registered in `s` has the same global image in `t`. -/
def Server.TranslatorGrows (s t : Server) : Prop :=
  (∀ key, s.keyFrameDictionary key ≠ none → t.keyFrameDictionary key ≠ none) ∧
    (∀ p, s.mapPointDictionary p ≠ none → t.mapPointDictionary p ≠ none) ∧
    ∀ p v, s.mapPointDictionary p = some v → t.mapPointDictionary p = some v

/-- The keys of a time index increase strictly, as the keys of a `std::map` do. -/
def TimeSorted (m : List (ℚ × Nat)) : Prop :=
  m.Pairwise (fun a b => a.1 < b.1)

/-- The time index that `InsertNewKeyFrame` writes for the sequence tag `sequence`
(lines 139-143). -/
def Server.timeIndex (s : Server) (sequence : Int) : List (ℚ × Nat) :=
  if sequence = SEQA then s.timeDictionaryA else s.timeDictionaryB

/-- The time index that `FindAprilTagConnections` searches for a key frame with the
sequence tag `sequence` (lines 232-240). -/
def Server.otherTimeIndex (s : Server) (sequence : Int) : List (ℚ × Nat) :=
  if sequence = SEQA then s.timeDictionaryB else s.timeDictionaryA

/-- The invariant of the two time indices: their keys increase strictly, every entry
holds an allocated global key frame under the time stamp of that key frame, the key frames
of index A carry the tag `SEQA` and those of index B a tag other than `SEQA`. -/
def Server.TimeIndexWF (s : Server) : Prop :=
  TimeSorted s.timeDictionaryA ∧ TimeSorted s.timeDictionaryB ∧
  (∀ e ∈ s.timeDictionaryA, e.2 < s.nKeyFrames ∧ (s.keyFrames e.2).mTimeStamp = e.1 ∧
    (s.keyFrames e.2).sequence = SEQA) ∧
  (∀ e ∈ s.timeDictionaryB, e.2 < s.nKeyFrames ∧ (s.keyFrames e.2).mTimeStamp = e.1 ∧
    (s.keyFrames e.2).sequence ≠ SEQA)

/-- No global key frame carries a correlated key frame, and every allocated global key
frame carries one of the two sequence tags. -/
def Server.Uncorrelated (s : Server) : Prop :=
  (∀ g, (s.keyFrames g).aprilTagKeyFrame = none) ∧
  ∀ g, g < s.nKeyFrames →
    (s.keyFrames g).sequence = SEQA ∨ (s.keyFrames g).sequence = SEQB

/-- The iterator `lower_it` that `FindAprilTagConnections` computes for the global key
frame at address `keyframe` (lines 232-240). -/
def Server.lower_it (s : Server) (keyframe : Nat) : Option (ℚ × Nat) :=
  lower_bound (s.otherTimeIndex (s.keyFrames keyframe).sequence)
    (s.keyFrames keyframe).mTimeStamp

/-- The iterator `upper_it` that `FindAprilTagConnections` computes for the global key
frame at address `keyframe` (lines 232-240). -/
def Server.upper_it (s : Server) (keyframe : Nat) : Option (ℚ × Nat) :=
  upper_bound (s.otherTimeIndex (s.keyFrames keyframe).sequence)
    (s.keyFrames keyframe).mTimeStamp

/-- The server of the second correlator scenario after the merge, before the correlation
pass. -/
def scenarioNearMerged : Server :=
  stateOf ((Server.withClients [⟨⟨[1], []⟩⟩, ⟨⟨[2, 3], []⟩⟩]).seed.merge scenarioNearHeap
    [1] [2, 3])

/-- A client heap for the equal-time-stamp scenario: the key frames at addresses 1 and 2
both carry the time stamp 0.5; every other key frame carries its address as time stamp. -/
def equalStampHeap : ClientHeap :=
  { keyFrame := fun a =>
      if a = 1 then bareKeyFrame 0 (1 / 2) false
      else if a = 2 then bareKeyFrame 1 (1 / 2) false
      else bareKeyFrame a a false
    mapPoint := fun _ => default }

/-- The sequence `ks` is closed under its connections: every covisibility neighbour,
ordered connection, parent, child and loop-edge target of a key frame of `ks` is a key
frame of `ks`. -/
def SequenceClosed (h : ClientHeap) (ks : List Nat) : Prop :=
  ∀ k ∈ ks, ∀ v ∈ (h.keyFrame k).lookupKeys, ∃ k' ∈ ks, v = some k'

/-- The operations of the second and third pass over a sequence (lines 87-95 and
103-111). -/
def linkOps (keyframes : List Nat) : List Op :=
  keyframes.map Op.copyKeyFrameMappoints ++ keyframes.map Op.copyKeyFrameConnections

/-- The key-frame dictionary keys that an operation of the second or third pass looks up
with `keyFrameDictionary[...]`. -/
def Op.lookups (h : ClientHeap) : Op → List Ptr
  | .insertNewKeyFrame _ _ _ => []
  | .copyKeyFrameMappoints keyframe => [some keyframe]
  | .copyKeyFrameConnections keyframe => some keyframe :: (h.keyFrame keyframe).lookupKeys

/-- Every lookup of the second and third pass over `ks`, started in `s1` and ending in
`s3`, hits an entry that exists: each key-frame key that an operation looks up is
registered in `s1` with a global key frame; before each operation the key-frame dictionary
is the one of `s1` (no lookup has inserted an entry), the null entry of the map-point
dictionary is there and no map point has a null entry; and in `s3` every map point of a
slot is registered with a global map point. -/
def PassesHit (h : ClientHeap) (ks : List Nat) (s1 s3 : Server) : Prop :=
  s1.exec h (linkOps ks) = .ok s3 ∧
  (∀ op ∈ linkOps ks, ∀ v ∈ op.lookups h, ∃ g, s1.keyFrameDictionary v = some (some g)) ∧
  (∀ done todo, linkOps ks = done ++ todo →
    ∃ t, s1.exec h done = .ok t ∧ t.keyFrameDictionary = s1.keyFrameDictionary ∧
      t.mapPointDictionary none = some none ∧
      ∀ p, t.mapPointDictionary (some p) ≠ some none) ∧
  ∀ k ∈ ks, ∀ p, some p ∈ (h.keyFrame k).mvpMapPoints →
    ∃ gp, s3.mapPointDictionary (some p) = some (some gp)

/-- A client heap for the closed-sequence scenario: the key frames at addresses 1 and 2
are covisibility neighbours of each other, the key frame at address 2 is the child of the
key frame at address 1, and both observe the map point at address 5. -/
def closedPairHeap : ClientHeap :=
  { keyFrame := fun a =>
      if a = 1 then
        { bareKeyFrame 0 0 false with
          mvpMapPoints := [some 5, none]
          mConnectedKeyFrameWeights := [(some 2, 7)]
          mvpOrderedConnectedKeyFrames := [some 2]
          mvOrderedWeights := [7]
          mspChildrens := [some 2] }
      else if a = 2 then
        { bareKeyFrame 1 1 false with
          mvpMapPoints := [some 5]
          mConnectedKeyFrameWeights := [(some 1, 7)]
          mvpOrderedConnectedKeyFrames := [some 1]
          mvOrderedWeights := [7]
          mpParent := some 1 }
      else bareKeyFrame a a false
    mapPoint := fun _ => default }

/-- A client heap for the wrap-around scenario: sequence A owns the key frame at address 1,
with id 0; sequence B owns the key frame at address 2, whose id is the largest 64-bit
value `2^64 - 1`. -/
def wrapIdHeap : ClientHeap :=
  { keyFrame := fun a =>
      if a = 2 then bareKeyFrame (2 ^ 64 - 1) 1 false else bareKeyFrame 0 0 false
    mapPoint := fun _ => default }

/-- A client heap for the rounding scenario: the key frame at address 1 (sequence A, marker
detected) has the time stamp `7 * 2^-60` (about `6.07e-18`); the key frame at address 2
(sequence B) has the double nearest to 0.1 as time stamp.  Both values are doubles. -/
def roundingHeap : ClientHeap :=
  { keyFrame := fun a =>
      if a = 1 then bareKeyFrame 0 (7 / 1152921504606846976) true
      else bareKeyFrame 0 toleranceDouble false
    mapPoint := fun _ => default }

/-- The server of the rounding scenario after the merge, before the correlation pass. -/
def roundingMerged : Server :=
  stateOf ((Server.withClients [⟨⟨[1], []⟩⟩, ⟨⟨[2], []⟩⟩]).seed.merge roundingHeap [1] [2])

/-! ## Lemmas -/

/-! ### Rounding to the nearest double -/

theorem log2Fuel_spec (fuel n : Nat) (hn : 0 < n) (hf : n < 2 ^ fuel) :
    2 ^ log2Fuel fuel n ≤ n ∧ n < 2 ^ (log2Fuel fuel n + 1) := by
  induction fuel generalizing n with
  | zero => simp at hf; omega
  | succ fuel ih =>
    unfold log2Fuel
    by_cases h2 : n < 2
    · rw [if_pos h2]
      simp
      omega
    · rw [if_neg h2]
      have hf' : n / 2 < 2 ^ fuel := by
        rw [pow_succ] at hf
        omega
      obtain ⟨a1, a2⟩ := ih (n / 2) (by omega) hf'
      rw [pow_succ] at a2 ⊢
      rw [pow_succ]
      rw [pow_succ]
      omega

theorem floorLog2_spec (n : Nat) (hn : 0 < n) :
    2 ^ floorLog2 n ≤ n ∧ n < 2 ^ (floorLog2 n + 1) :=
  log2Fuel_spec n n hn (Nat.lt_two_pow n)

theorem pow2_eq (e : Int) : pow2 e = (2 : ℚ) ^ e := by
  unfold pow2
  by_cases he : 0 ≤ e
  · rw [if_pos he]
    obtain ⟨n, rfl⟩ := Int.eq_ofNat_of_zero_le he
    simp
  · rw [if_neg he]
    obtain ⟨n, hn⟩ := Int.exists_eq_neg_ofNat (le_of_lt (not_le.mp he))
    subst hn
    simp

theorem pow2_pos (e : Int) : 0 < pow2 e := by
  rw [pow2_eq]
  positivity

theorem ilog2_spec (x : ℚ) (hx : 0 < x) :
    (2 : ℚ) ^ ilog2 x ≤ x ∧ x < (2 : ℚ) ^ (ilog2 x + 1) := by
  have hnum : 0 < x.num := Rat.num_pos.mpr hx
  have hN0 : 0 < x.num.natAbs := Int.natAbs_pos.mpr (ne_of_gt hnum)
  have hD0 : 0 < x.den := x.den_pos
  obtain ⟨n1, n2⟩ := floorLog2_spec x.num.natAbs hN0
  obtain ⟨d1, d2⟩ := floorLog2_spec x.den hD0
  have hx_eq : x = (x.num.natAbs : ℚ) / (x.den : ℚ) := by
    have h1 : ((x.num.natAbs : Int) : ℚ) = (x.num : ℚ) := by
      rw [Int.natAbs_of_nonneg (le_of_lt hnum)]
    have h2 : ((x.num.natAbs : ℕ) : ℚ) = ((x.num.natAbs : Int) : ℚ) :=
      (Int.cast_natCast _).symm
    rw [h2, h1, Rat.num_div_den]
  have qn1 : (2 : ℚ) ^ floorLog2 x.num.natAbs ≤ (x.num.natAbs : ℚ) := by exact_mod_cast n1
  have qn2 : (x.num.natAbs : ℚ) < (2 : ℚ) ^ (floorLog2 x.num.natAbs + 1) := by exact_mod_cast n2
  have qd1 : (2 : ℚ) ^ floorLog2 x.den ≤ (x.den : ℚ) := by exact_mod_cast d1
  have qd2 : (x.den : ℚ) < (2 : ℚ) ^ (floorLog2 x.den + 1) := by exact_mod_cast d2
  have qD0 : (0 : ℚ) < (x.den : ℚ) := by exact_mod_cast hD0
  have hlow : (2 : ℚ) ^ ((floorLog2 x.num.natAbs : Int) - (floorLog2 x.den : Int) - 1) ≤ x := by
    have he : (floorLog2 x.num.natAbs : Int) - (floorLog2 x.den : Int) - 1
        = ((floorLog2 x.num.natAbs : ℕ) : Int) - ((floorLog2 x.den + 1 : ℕ) : Int) := by
      push_cast
      ring
    rw [he, zpow_sub₀ (by norm_num : (2 : ℚ) ≠ 0), zpow_natCast, zpow_natCast]
    conv_rhs => rw [hx_eq]
    exact div_le_div₀ (Nat.cast_nonneg _) qn1 qD0 (le_of_lt qd2)
  have hhigh : x < (2 : ℚ) ^ ((floorLog2 x.num.natAbs : Int) - (floorLog2 x.den : Int) + 1) := by
    have he : (floorLog2 x.num.natAbs : Int) - (floorLog2 x.den : Int) + 1
        = ((floorLog2 x.num.natAbs + 1 : ℕ) : Int) - ((floorLog2 x.den : ℕ) : Int) := by
      push_cast
      ring
    rw [he, zpow_sub₀ (by norm_num : (2 : ℚ) ≠ 0), zpow_natCast, zpow_natCast]
    conv_lhs => rw [hx_eq]
    exact div_lt_div₀ qn2 qd1 (by positivity) (by positivity)
  unfold ilog2
  by_cases hle : pow2 ((floorLog2 x.num.natAbs : Int) - (floorLog2 x.den : Int)) ≤ x
  · rw [if_pos hle]
    rw [pow2_eq] at hle
    exact ⟨hle, hhigh⟩
  · rw [if_neg hle]
    rw [pow2_eq] at hle
    refine ⟨hlow, ?_⟩
    rw [sub_add_cancel]
    exact not_le.mp hle

/-- The exponent is monotone. -/
theorem ilog2_mono (x y : ℚ) (hx : 0 < x) (hxy : x ≤ y) : ilog2 x ≤ ilog2 y := by
  by_contra hlt
  have hlt' : ilog2 y + 1 ≤ ilog2 x := by omega
  obtain ⟨a1, _⟩ := ilog2_spec x hx
  obtain ⟨_, b2⟩ := ilog2_spec y (lt_of_lt_of_le hx hxy)
  have hpow : (2 : ℚ) ^ (ilog2 y + 1) ≤ (2 : ℚ) ^ ilog2 x :=
    zpow_le_zpow_right₀ (by norm_num) hlt'
  linarith

theorem roundHalfEven_cases (q : ℚ) :
    roundHalfEven q = ⌊q⌋ ∨ roundHalfEven q = ⌊q⌋ + 1 := by
  unfold roundHalfEven
  split_ifs <;> simp

theorem roundHalfEven_mono (q1 q2 : ℚ) (hq : q1 ≤ q2) :
    roundHalfEven q1 ≤ roundHalfEven q2 := by
  have hf : ⌊q1⌋ ≤ ⌊q2⌋ := Int.floor_mono hq
  rcases lt_or_eq_of_le hf with hlt | heq
  · rcases roundHalfEven_cases q1 with h1 | h1 <;> rcases roundHalfEven_cases q2 with h2 | h2 <;>
      rw [h1, h2] <;> omega
  · unfold roundHalfEven
    rw [← heq]
    split_ifs <;> first | omega | (exfalso; linarith)

theorem roundHalfEven_intCast (n : Int) : roundHalfEven (n : ℚ) = n := by
  unfold roundHalfEven
  simp

theorem roundHalfEven_natCast (n : Nat) : roundHalfEven (n : ℚ) = n := by
  have := roundHalfEven_intCast (n : Int)
  simpa using this

theorem ulp_eq (x : ℚ) : ulp x = (2 : ℚ) ^ (max (ilog2 x) (-1022) - 52) := pow2_eq _

theorem ulp_pos (x : ℚ) : 0 < ulp x := pow2_pos _

theorem roundNonneg_nonneg (x : ℚ) (hx : 0 ≤ x) : 0 ≤ roundNonneg x := by
  unfold roundNonneg
  have hq : (0 : ℚ) ≤ x / ulp x := div_nonneg hx (le_of_lt (ulp_pos x))
  have h0 : roundHalfEven ((0 : Int) : ℚ) ≤ roundHalfEven (x / ulp x) :=
    roundHalfEven_mono _ _ (by simpa using hq)
  rw [roundHalfEven_intCast] at h0
  have h1 : (0 : ℚ) ≤ (roundHalfEven (x / ulp x) : ℚ) := by exact_mod_cast h0
  exact mul_nonneg h1 (le_of_lt (ulp_pos x))

theorem roundNonneg_zero : roundNonneg 0 = 0 := by
  unfold roundNonneg
  have h0 := roundHalfEven_intCast 0
  simp only [Int.cast_zero] at h0
  rw [zero_div, h0]
  simp

/-- A positive number is rounded to at most the next power of two above it. -/
theorem roundNonneg_le (x : ℚ) (hx : 0 < x) :
    roundNonneg x ≤ (2 : ℚ) ^ (max (ilog2 x) (-1022) + 1) := by
  have hu := ulp_eq x
  have hup := ulp_pos x
  have hsplit : (2 : ℚ) ^ (max (ilog2 x) (-1022) + 1)
      = (2 : ℚ) ^ (53 : ℕ) * (2 : ℚ) ^ (max (ilog2 x) (-1022) - 52) := by
    rw [← zpow_natCast, ← zpow_add₀ (by norm_num : (2 : ℚ) ≠ 0)]
    congr 1
    push_cast
    ring
  have hxlt : x ≤ (2 : ℚ) ^ (max (ilog2 x) (-1022) + 1) := by
    have h1 := (ilog2_spec x hx).2
    have h2 : (2 : ℚ) ^ (ilog2 x + 1) ≤ (2 : ℚ) ^ (max (ilog2 x) (-1022) + 1) :=
      zpow_le_zpow_right₀ (by norm_num) (by omega)
    linarith
  have hq : x / ulp x ≤ (((2 : Int) ^ (53 : ℕ) : Int) : ℚ) := by
    have hc : (((2 : Int) ^ (53 : ℕ) : Int) : ℚ) = (2 : ℚ) ^ (53 : ℕ) := by norm_cast
    rw [div_le_iff₀ hup, hu, hc, ← hsplit]
    exact hxlt
  have hr := roundHalfEven_mono _ _ hq
  rw [roundHalfEven_intCast] at hr
  have hr' : (roundHalfEven (x / ulp x) : ℚ) ≤ (2 : ℚ) ^ (53 : ℕ) := by exact_mod_cast hr
  unfold roundNonneg
  rw [hsplit, ← hu]
  exact mul_le_mul_of_nonneg_right hr' (le_of_lt hup)

/-- A number in the normal range is rounded to at least the power of two below it. -/
theorem le_roundNonneg (x : ℚ) (hx : 0 < x) (he : -1022 ≤ ilog2 x) :
    (2 : ℚ) ^ ilog2 x ≤ roundNonneg x := by
  have hmax : max (ilog2 x) (-1022) = ilog2 x := max_eq_left he
  have hu := ulp_eq x
  rw [hmax] at hu
  have hup := ulp_pos x
  have hsplit : (2 : ℚ) ^ ilog2 x = (2 : ℚ) ^ (52 : ℕ) * (2 : ℚ) ^ (ilog2 x - 52) := by
    rw [← zpow_natCast, ← zpow_add₀ (by norm_num : (2 : ℚ) ≠ 0)]
    congr 1
    push_cast
    ring
  have hq : (((2 : Int) ^ (52 : ℕ) : Int) : ℚ) ≤ x / ulp x := by
    have hc : (((2 : Int) ^ (52 : ℕ) : Int) : ℚ) = (2 : ℚ) ^ (52 : ℕ) := by norm_cast
    rw [le_div_iff₀ hup, hu, hc, ← hsplit]
    exact (ilog2_spec x hx).1
  have hr := roundHalfEven_mono _ _ hq
  rw [roundHalfEven_intCast] at hr
  have hr' : (2 : ℚ) ^ (52 : ℕ) ≤ (roundHalfEven (x / ulp x) : ℚ) := by exact_mod_cast hr
  unfold roundNonneg
  rw [hsplit, ← hu]
  exact mul_le_mul_of_nonneg_right hr' (le_of_lt hup)

/-- Rounding to the nearest double is monotone. -/
theorem roundNonneg_mono (x y : ℚ) (hx : 0 ≤ x) (hxy : x ≤ y) :
    roundNonneg x ≤ roundNonneg y := by
  rcases eq_or_lt_of_le hx with h0 | hpos
  · rw [← h0, roundNonneg_zero]
    exact roundNonneg_nonneg y (le_trans hx hxy)
  · have hypos : 0 < y := lt_of_lt_of_le hpos hxy
    have hlog := ilog2_mono x y hpos hxy
    rcases eq_or_lt_of_le (max_le_max hlog (le_refl (-1022 : Int))) with heq | hlt
    · have hu : ulp x = ulp y := by
        unfold ulp
        rw [heq]
      unfold roundNonneg
      rw [hu]
      have hq : x / ulp y ≤ y / ulp y := div_le_div_of_nonneg_right hxy (le_of_lt (ulp_pos y))
      have hr := roundHalfEven_mono _ _ hq
      have hr' : (roundHalfEven (x / ulp y) : ℚ) ≤ (roundHalfEven (y / ulp y) : ℚ) := by
        exact_mod_cast hr
      exact mul_le_mul_of_nonneg_right hr' (le_of_lt (ulp_pos y))
    · have hey : -1022 ≤ ilog2 y := by
        by_contra hc
        have : max (ilog2 y) (-1022) = -1022 := max_eq_right (by omega)
        rw [this] at hlt
        have := le_max_right (ilog2 x) (-1022)
        omega
      have hmax : max (ilog2 y) (-1022) = ilog2 y := max_eq_left hey
      rw [hmax] at hlt
      have h1 := roundNonneg_le x hpos
      have h2 := le_roundNonneg y hypos hey
      have h3 : (2 : ℚ) ^ (max (ilog2 x) (-1022) + 1) ≤ (2 : ℚ) ^ ilog2 y :=
        zpow_le_zpow_right₀ (by norm_num) (by omega)
      linarith

theorem roundToDouble_abs (x : ℚ) : |roundToDouble x| = roundNonneg |x| := by
  unfold roundToDouble
  by_cases hx : 0 ≤ x
  · rw [if_pos hx, abs_of_nonneg hx, abs_of_nonneg (roundNonneg_nonneg x hx)]
  · have hneg : 0 ≤ -x := by linarith
    rw [if_neg hx, abs_neg, abs_of_nonneg (roundNonneg_nonneg _ hneg),
      abs_of_neg (not_le.mp hx)]

/-- The double nearest to one tenth is the value of the literal `0.1`. -/
theorem roundNonneg_tolerance : roundNonneg tolerance = toleranceDouble := by
  with_unfolding_all rfl

theorem toleranceDouble_lt_overflow : toleranceDouble < doubleOverflow := by
  with_unfolding_all decide

theorem absDifference_eq (a b : ℚ) :
    absDifference a b =
      if roundNonneg |a - b| < doubleOverflow then some (roundNonneg |a - b|) else none := by
  unfold absDifference
  rw [roundToDouble_abs]

/-- The test `std::abs(a - b) < 0.1` on doubles. -/
theorem ltInf_absDifference (a b : ℚ) :
    ltInf (absDifference a b) (some toleranceDouble) = true ↔
      roundNonneg |a - b| < toleranceDouble := by
  rw [absDifference_eq]
  by_cases ho : roundNonneg |a - b| < doubleOverflow
  · rw [if_pos ho]
    simp [ltInf]
  · rw [if_neg ho]
    simp only [ltInf, Bool.false_eq_true, false_iff, not_lt]
    exact le_of_lt (lt_of_lt_of_le toleranceDouble_lt_overflow (not_lt.mp ho))

/-- A difference whose rounded value is below the double `0.1` is below one tenth. -/
theorem lt_tolerance_of_rounded (d : ℚ) (hd : roundNonneg |d| < toleranceDouble) :
    |d| < tolerance := by
  by_contra hc
  have hmono := roundNonneg_mono tolerance |d| (by norm_num [tolerance]) (not_lt.mp hc)
  rw [roundNonneg_tolerance] at hmono
  exact absurd hd (not_lt.mpr hmono)

/-- The test `std::abs(a - b) <= std::abs(c - d)` on doubles holds when the exact
differences are so ordered. -/
theorem leInf_absDifference (a b c d : ℚ) (hle : |a - b| ≤ |c - d|) :
    leInf (absDifference a b) (absDifference c d) = true := by
  have hmono := roundNonneg_mono _ _ (abs_nonneg (a - b)) hle
  rw [absDifference_eq, absDifference_eq]
  by_cases h2 : roundNonneg |c - d| < doubleOverflow
  · rw [if_pos h2, if_pos (lt_of_le_of_lt hmono h2)]
    simpa [leInf] using hmono
  · rw [if_neg h2]
    cases (if roundNonneg |a - b| < doubleOverflow then some (roundNonneg |a - b|)
      else none) <;> rfl


@[simp] theorem modifyKeyFrame_keyFrames_self (s : Server) (g : Nat) (f : KeyFrame → KeyFrame) :
    (s.modifyKeyFrame g f).keyFrames g = f (s.keyFrames g) := by
  simp [Server.modifyKeyFrame]

theorem modifyKeyFrame_keyFrames_of_ne (s : Server) {g x : Nat} (f : KeyFrame → KeyFrame)
    (hx : x ≠ g) : (s.modifyKeyFrame g f).keyFrames x = s.keyFrames x := by
  simp [Server.modifyKeyFrame, hx]

theorem sameUpToCorrelation_refl (s : Server) : s.SameUpToCorrelation s :=
  ⟨rfl, rfl, rfl, rfl, rfl, rfl, rfl, rfl, rfl, fun _ => rfl⟩

theorem sameUpToCorrelation_trans {s t u : Server} (h1 : s.SameUpToCorrelation t)
    (h2 : t.SameUpToCorrelation u) : s.SameUpToCorrelation u := by
  obtain ⟨a1, a2, a3, a4, a5, a6, a7, a8, a9, a10⟩ := h1
  obtain ⟨b1, b2, b3, b4, b5, b6, b7, b8, b9, b10⟩ := h2
  exact ⟨b1.trans a1, b2.trans a2, b3.trans a3, b4.trans a4, b5.trans a5, b6.trans a6,
    b7.trans a7, b8.trans a8, b9.trans a9, fun g => (b10 g).trans (a10 g)⟩

theorem sameUpToCorrelation_timeStamp {s t : Server} (h : s.SameUpToCorrelation t) (g : Nat) :
    (t.keyFrames g).mTimeStamp = (s.keyFrames g).mTimeStamp :=
  by
  have h1 := congrArg KeyFrame.mTimeStamp (h.2.2.2.2.2.2.2.2.2 g)
  simpa [KeyFrame.withoutCorrelation] using h1

theorem sameUpToCorrelation_sequence {s t : Server} (h : s.SameUpToCorrelation t) (g : Nat) :
    (t.keyFrames g).sequence = (s.keyFrames g).sequence :=
  by
  have h1 := congrArg KeyFrame.sequence (h.2.2.2.2.2.2.2.2.2 g)
  simpa [KeyFrame.withoutCorrelation] using h1

theorem sameUpToCorrelation_detected {s t : Server} (h : s.SameUpToCorrelation t) (g : Nat) :
    (t.keyFrames g).detectedAprilTag = (s.keyFrames g).detectedAprilTag :=
  by
  have h1 := congrArg KeyFrame.detectedAprilTag (h.2.2.2.2.2.2.2.2.2 g)
  simpa [KeyFrame.withoutCorrelation] using h1

theorem timeDiff_congr {s t : Server} (h : s.SameUpToCorrelation t) (it : Option (ℚ × Nat))
    (ts : ℚ) : t.timeDiff it ts = s.timeDiff it ts := by
  cases it with
  | none => rfl
  | some e => simp [Server.timeDiff, sameUpToCorrelation_timeStamp h]

theorem closest_congr {s t : Server} (h : s.SameUpToCorrelation t) (ts : ℚ) (q : Int) :
    t.closest ts q = s.closest ts q := by
  simp only [Server.closest, timeDiff_congr h, h.2.2.2.1, h.2.2.2.2.1]

theorem accepted_congr {s t : Server} (h : s.SameUpToCorrelation t) (g : Nat) :
    t.accepted g = s.accepted g := by
  simp only [Server.accepted, closest_congr h, sameUpToCorrelation_timeStamp h,
    sameUpToCorrelation_sequence h, sameUpToCorrelation_detected h]

theorem modifyKeyFrame_correlation_frame (s : Server) (g : Nat) (p : Ptr) :
    s.SameUpToCorrelation
      (s.modifyKeyFrame g (fun k => { k with aprilTagKeyFrame := p })) := by
  refine ⟨rfl, rfl, rfl, rfl, rfl, rfl, rfl, rfl, rfl, fun x => ?_⟩
  by_cases hx : x = g
  · subst hx
    simp [KeyFrame.withoutCorrelation]
  · rw [modifyKeyFrame_keyFrames_of_ne s _ hx]

theorem correlate_eq (s : Server) (g : Nat) :
    s.correlate g =
      match s.accepted g with
      | some c => s.modifyKeyFrame g (fun k => { k with aprilTagKeyFrame := some c })
      | none => s := by
  unfold Server.correlate Server.accepted
  by_cases hd : (s.keyFrames g).detectedAprilTag = true
  · by_cases hl :
        ltInf (s.closest (s.keyFrames g).mTimeStamp (s.keyFrames g).sequence).2
          (some toleranceDouble) = true
    · cases hc : (s.closest (s.keyFrames g).mTimeStamp (s.keyFrames g).sequence).1 with
      | none => simp [hd, hl, hc]
      | some e => simp [hd, hl, hc]
    · simp [hd, hl]
  · simp [hd]

theorem correlate_frame (s : Server) (g : Nat) : s.SameUpToCorrelation (s.correlate g) := by
  rw [correlate_eq]
  cases s.accepted g with
  | none => exact sameUpToCorrelation_refl s
  | some c => exact modifyKeyFrame_correlation_frame s g _

theorem correlate_correlation_of_ne (s : Server) {g x : Nat} (hx : x ≠ g) :
    ((s.correlate g).keyFrames x).aprilTagKeyFrame = (s.keyFrames x).aprilTagKeyFrame := by
  rw [correlate_eq]
  cases s.accepted g with
  | none => rfl
  | some c => simp only [modifyKeyFrame_keyFrames_of_ne s _ hx]

theorem correlate_correlation_self (s : Server) (g : Nat) :
    ((s.correlate g).keyFrames g).aprilTagKeyFrame =
      match s.accepted g with
      | some c => some c
      | none => (s.keyFrames g).aprilTagKeyFrame := by
  rw [correlate_eq]
  cases s.accepted g with
  | none => rfl
  | some c => simp

/-- The outcome of the loop of `FindAprilTagConnections` over a list of key frames: nothing
but correlated-key-frame fields changes, and the field of `g` holds the candidate accepted
for `g` when `g` was visited and a candidate was accepted, and its old value otherwise. -/
theorem foldl_correlate (l : List Nat) (s : Server) :
    s.SameUpToCorrelation (l.foldl Server.correlate s) ∧
    ∀ g, ((l.foldl Server.correlate s).keyFrames g).aprilTagKeyFrame =
      match (if g ∈ l then s.accepted g else none) with
      | some c => some c
      | none => (s.keyFrames g).aprilTagKeyFrame := by
  induction l generalizing s with
  | nil => exact ⟨sameUpToCorrelation_refl s, fun g => by simp⟩
  | cons a l ih =>
    have hf := correlate_frame s a
    obtain ⟨h1, h2⟩ := ih (s.correlate a)
    refine ⟨sameUpToCorrelation_trans hf h1, fun g => ?_⟩
    rw [List.foldl_cons, h2 g, accepted_congr hf g]
    by_cases hga : g = a
    · subst hga
      rw [correlate_correlation_self]
      by_cases hgl : g ∈ l
      · cases hacc : s.accepted g <;> simp [hgl, hacc]
      · cases hacc : s.accepted g <;> simp [hgl, hacc]
    · rw [correlate_correlation_of_ne s hga]
      simp [hga]

/-- The value `closestDiff` is the time difference of the entry `closest_it`. -/
theorem closest_snd (s : Server) (ts : ℚ) (q : Int) :
    (s.closest ts q).2 = s.timeDiff (s.closest ts q).1 ts := by
  unfold Server.closest
  simp only []
  split_ifs <;> rfl

/-- The entry `closest_it` is an entry of the time index of the other sequence. -/
theorem closest_mem (s : Server) (ts : ℚ) (q : Int) (e : ℚ × Nat)
    (he : (s.closest ts q).1 = some e) :
    e ∈ (if q = SEQA then s.timeDictionaryB else s.timeDictionaryA) := by
  unfold Server.closest at he
  simp only [] at he
  split_ifs at he with h1 h2 h3 h4 h5
  all_goals
    first
      | (rw [if_pos h1]; exact List.mem_of_find?_eq_some he)
      | (rw [if_neg h1]; exact List.mem_of_find?_eq_some he)

/-- The accepted candidate is `closest_it`, and its time difference is below the
tolerance. -/
theorem accepted_eq_some (s : Server) (g c : Nat) (h : s.accepted g = some c) :
    (s.keyFrames g).detectedAprilTag = true ∧
    ∃ e, (s.closest (s.keyFrames g).mTimeStamp (s.keyFrames g).sequence).1 = some e ∧
      e.2 = c ∧ |(s.keyFrames e.2).mTimeStamp - (s.keyFrames g).mTimeStamp| < tolerance := by
  unfold Server.accepted at h
  by_cases hd : (s.keyFrames g).detectedAprilTag = true
  · rw [if_pos hd] at h
    by_cases hl :
        ltInf (s.closest (s.keyFrames g).mTimeStamp (s.keyFrames g).sequence).2
          (some toleranceDouble) = true
    · rw [if_pos hl] at h
      cases hc : (s.closest (s.keyFrames g).mTimeStamp (s.keyFrames g).sequence).1 with
      | none => rw [hc] at h; exact absurd h (by simp)
      | some e =>
        rw [hc] at h
        refine ⟨hd, e, rfl, by simpa using h, ?_⟩
        rw [closest_snd, hc] at hl
        exact lt_tolerance_of_rounded _ ((ltInf_absDifference _ _).mp hl)
    · rw [if_neg hl] at h
      exact absurd h (by simp)
  · rw [if_neg hd] at h
    exact absurd h (by simp)

/-- No candidate is accepted when `closest_it` is `end()` or its time difference reaches
the tolerance. -/
theorem accepted_eq_none (s : Server) (g : Nat)
    (h : (s.closest (s.keyFrames g).mTimeStamp (s.keyFrames g).sequence).1 = none ∨
      ∃ e, (s.closest (s.keyFrames g).mTimeStamp (s.keyFrames g).sequence).1 = some e ∧
        tolerance ≤ |(s.keyFrames e.2).mTimeStamp - (s.keyFrames g).mTimeStamp|) :
    s.accepted g = none := by
  cases hacc : s.accepted g with
  | none => rfl
  | some c =>
    obtain ⟨_, e, he, _, hlt⟩ := accepted_eq_some s g c hacc
    rcases h with h | ⟨e1, he1, hge⟩
    · rw [h] at he
      exact absurd he (by simp)
    · rw [he1] at he
      cases he
      exact absurd hlt (not_lt.mpr hge)

/-! ### Dictionaries -/

theorem dict_translate_eq (d : Dict) (k : Ptr) : d.translate k = (d k).getD none := by
  unfold Dict.translate Dict.index
  cases d k <;> rfl

theorem Dict.index_of_some {d : Dict} {k v : Ptr} (h : d k = some v) : d.index k = (v, d) := by
  unfold Dict.index
  rw [h]

theorem Dict.index_of_none {d : Dict} {k : Ptr} (h : d k = none) :
    d.index k = (none, d.assign k none) := by
  unfold Dict.index
  rw [h]

theorem Dict.assign_self (d : Dict) (k v : Ptr) : d.assign k v k = some v := by
  simp [Dict.assign]

theorem Dict.assign_of_ne (d : Dict) {k x : Ptr} (v : Ptr) (hx : x ≠ k) :
    d.assign k v x = d x := by
  simp [Dict.assign, hx]

theorem Dict.index_snd_self (d : Dict) (k : Ptr) : (d.index k).2 k = some (d.translate k) := by
  unfold Dict.translate
  cases hk : d k with
  | some v => rw [Dict.index_of_some hk]; exact hk
  | none => rw [Dict.index_of_none hk]; exact Dict.assign_self d k none

theorem nullExtends_refl (d : Dict) : d.NullExtends d := fun _ => Or.inl rfl

theorem nullExtends_trans {d1 d2 d3 : Dict} (h12 : d1.NullExtends d2)
    (h23 : d2.NullExtends d3) : d1.NullExtends d3 := by
  intro k
  rcases h23 k with h | ⟨h, h'⟩
  · rcases h12 k with g | ⟨g, g'⟩
    · left; rw [h, g]
    · right; exact ⟨g, by rw [h, g']⟩
  · rcases h12 k with g | ⟨g, g'⟩
    · right; exact ⟨by rw [← g, h], h'⟩
    · rw [g'] at h; exact absurd h (by simp)

theorem nullExtends_of_some {d d' : Dict} (h : d.NullExtends d') {k v : Ptr}
    (hk : d k = some v) : d' k = some v := by
  rcases h k with g | ⟨g, _⟩
  · rw [g, hk]
  · rw [hk] at g; exact absurd g (by simp)

theorem nullExtends_translate_eq {d d' : Dict} (h : d.NullExtends d') (k : Ptr) :
    d'.translate k = d.translate k := by
  rw [dict_translate_eq, dict_translate_eq]
  rcases h k with g | ⟨g, g'⟩
  · rw [g]
  · rw [g, g']; rfl

theorem Dict.nullExtends_index (d : Dict) (k : Ptr) : d.NullExtends (d.index k).2 := by
  intro x
  cases hk : d k with
  | some v => rw [Dict.index_of_some hk]; exact Or.inl rfl
  | none =>
    rw [Dict.index_of_none hk]
    by_cases hx : x = k
    · subst hx; exact Or.inr ⟨hk, Dict.assign_self d x none⟩
    · exact Or.inl (Dict.assign_of_ne d none hx)

theorem Dict.translate_index_snd (d : Dict) (a : Ptr) : (d.index a).2.translate = d.translate :=
  funext fun k => nullExtends_translate_eq (Dict.nullExtends_index d a) k

theorem Dict.nullExtends_afterLookups (l : List Ptr) (d : Dict) :
    d.NullExtends (d.afterLookups l) := by
  induction l generalizing d with
  | nil => exact nullExtends_refl d
  | cons a l ih => exact nullExtends_trans (Dict.nullExtends_index d a) (ih (d.index a).2)

theorem Dict.translate_afterLookups (l : List Ptr) (d : Dict) :
    (d.afterLookups l).translate = d.translate :=
  funext fun k => nullExtends_translate_eq (Dict.nullExtends_afterLookups l d) k

theorem Dict.afterLookups_append (d : Dict) (l1 l2 : List Ptr) :
    d.afterLookups (l1 ++ l2) = (d.afterLookups l1).afterLookups l2 := by
  simp [Dict.afterLookups, List.foldl_append]

theorem Dict.afterLookups_of_mem (l : List Ptr) (d : Dict) {k : Ptr} (hk : k ∈ l) :
    d.afterLookups l k = some (d.translate k) := by
  induction l generalizing d with
  | nil => exact absurd hk (by simp)
  | cons a l ih =>
    have hstep : d.afterLookups (a :: l) = (d.index a).2.afterLookups l := rfl
    rw [hstep]
    rcases List.mem_cons.mp hk with h | h
    · subst h
      exact nullExtends_of_some (Dict.nullExtends_afterLookups l _) (Dict.index_snd_self d k)
    · rw [ih _ h, Dict.translate_index_snd]

/-! ### Association lists -/

theorem mapAssign_mem_self {κ ν : Type} [DecidableEq κ] (m : List (κ × ν)) (k : κ) (v : ν) :
    (k, v) ∈ mapAssign m k v := by
  induction m with
  | nil => simp [mapAssign]
  | cons e m ih =>
    obtain ⟨k0, v0⟩ := e
    by_cases h : k0 = k
    · simp [mapAssign, h]
    · simp [mapAssign, h, ih]

theorem mapAssign_mem_of_ne {κ ν : Type} [DecidableEq κ] (m : List (κ × ν)) {k : κ} (v : ν)
    {e : κ × ν} (he : e ∈ m) (hk : e.1 ≠ k) : e ∈ mapAssign m k v := by
  induction m with
  | nil => exact absurd he (by simp)
  | cons e0 m ih =>
    obtain ⟨k0, v0⟩ := e0
    by_cases h : k0 = k
    · rcases List.mem_cons.mp he with h1 | h1
      · subst h1; exact absurd h hk
      · simp [mapAssign, h, h1]
    · rcases List.mem_cons.mp he with h1 | h1
      · subst h1; simp [mapAssign, h]
      · simp [mapAssign, h, ih h1]

theorem mapAssign_key_mem {κ ν : Type} [DecidableEq κ] (m : List (κ × ν)) (k : κ) (v : ν)
    {x : κ} (hx : x ∈ m.map Prod.fst) : x ∈ (mapAssign m k v).map Prod.fst := by
  by_cases hxk : x = k
  · subst hxk
    exact List.mem_map.mpr ⟨(x, v), mapAssign_mem_self m x v, rfl⟩
  · obtain ⟨e, he, hex⟩ := List.mem_map.mp hx
    exact List.mem_map.mpr ⟨e, mapAssign_mem_of_ne m v he (by rw [hex]; exact hxk), hex⟩

/-- Assignments to keys other than that of `e` keep the entry `e`. -/
theorem foldl_mapAssign_keeps {κ ν α : Type} [DecidableEq κ] (key : α → κ) (val : α → ν)
    (l : List α) (m : List (κ × ν)) {e : κ × ν} (he : e ∈ m)
    (hk : e.1 ∉ l.map key) :
    e ∈ l.foldl (fun acc p => mapAssign acc (key p) (val p)) m := by
  induction l generalizing m with
  | nil => exact he
  | cons a l ih =>
    simp only [List.map_cons, List.mem_cons, not_or] at hk
    exact ih _ (mapAssign_mem_of_ne m _ he hk.1) hk.2

/-- When the assigned keys are pairwise distinct, every assignment is in the result. -/
theorem foldl_mapAssign_mem {κ ν α : Type} [DecidableEq κ] (key : α → κ) (val : α → ν)
    (l : List α) (m : List (κ × ν)) (hnd : (l.map key).Nodup) {p : α} (hp : p ∈ l) :
    (key p, val p) ∈ l.foldl (fun acc p => mapAssign acc (key p) (val p)) m := by
  induction l generalizing m with
  | nil => exact absurd hp (by simp)
  | cons a l ih =>
    rw [List.map_cons, List.nodup_cons] at hnd
    rcases List.mem_cons.mp hp with h | h
    · subst h
      exact foldl_mapAssign_keeps key val l _ (mapAssign_mem_self m _ _) hnd.1
    · exact ih _ hnd.2 h

/-- Every assigned key is a key of the result. -/
theorem foldl_mapAssign_key_mem {κ ν α : Type} [DecidableEq κ] (key : α → κ) (val : α → ν)
    (l : List α) (m : List (κ × ν)) {x : κ} (hx : x ∈ m.map Prod.fst ∨ x ∈ l.map key) :
    x ∈ (l.foldl (fun acc p => mapAssign acc (key p) (val p)) m).map Prod.fst := by
  induction l generalizing m with
  | nil =>
    rcases hx with h | h
    · exact h
    · exact absurd h (by simp)
  | cons a l ih =>
    apply ih
    rcases hx with h | h
    · exact Or.inl (mapAssign_key_mem m _ _ h)
    · rcases List.mem_cons.mp h with h1 | h1
      · left
        rw [h1]
        exact List.mem_map.mpr ⟨(key a, val a), mapAssign_mem_self m _ _, rfl⟩
      · exact Or.inr h1

/-! ### The loops of `CopyKeyFrameConnections` -/

theorem foldl_copyConnection (l : List (Ptr × Int)) (d : Dict) (k : KeyFrame) :
    l.foldl copyConnection (d, k) =
      (d.afterLookups (l.map Prod.fst),
        { k with
          mConnectedKeyFrameWeights :=
            l.foldl (fun acc p => mapAssign acc (d.translate p.1) p.2)
              k.mConnectedKeyFrameWeights }) := by
  induction l generalizing d k with
  | nil => rfl
  | cons a l ih =>
    rw [List.foldl_cons]
    have hstep : copyConnection (d, k) a =
        ((d.index a.1).2, { k with
          mConnectedKeyFrameWeights :=
            mapAssign k.mConnectedKeyFrameWeights (d.translate a.1) a.2 }) := rfl
    rw [hstep, ih, Dict.translate_index_snd]
    rfl

theorem foldl_copyOrderedConnection (l : List Ptr) (d : Dict) (k : KeyFrame) :
    l.foldl copyOrderedConnection (d, k) =
      (d.afterLookups l,
        { k with
          mvpOrderedConnectedKeyFrames :=
            k.mvpOrderedConnectedKeyFrames ++ l.map d.translate }) := by
  induction l generalizing d k with
  | nil => simp [Dict.afterLookups]
  | cons a l ih =>
    rw [List.foldl_cons]
    have hstep : copyOrderedConnection (d, k) a =
        ((d.index a).2, { k with
          mvpOrderedConnectedKeyFrames :=
            k.mvpOrderedConnectedKeyFrames ++ [d.translate a] }) := rfl
    rw [hstep, ih, Dict.translate_index_snd]
    simp [Dict.afterLookups]

theorem foldl_copyOrderedWeight (l : List Int) (d : Dict) (k : KeyFrame) :
    l.foldl copyOrderedWeight (d, k) =
      (d, { k with mvOrderedWeights := k.mvOrderedWeights ++ l }) := by
  induction l generalizing k with
  | nil => simp
  | cons a l ih =>
    rw [List.foldl_cons]
    have hstep : copyOrderedWeight (d, k) a =
        (d, { k with mvOrderedWeights := k.mvOrderedWeights ++ [a] }) := rfl
    rw [hstep, ih]
    simp

theorem copyParent_eq (d : Dict) (k : KeyFrame) (parent : Ptr) :
    copyParent (d, k) parent =
      (d.afterLookups (match parent with
          | none => []
          | some p => [some p]),
        { k with
          mpParent :=
            match parent with
            | none => k.mpParent
            | some p => d.translate (some p) }) := by
  cases parent with
  | none => rfl
  | some p => rfl

theorem foldl_copyChild (l : List Ptr) (d : Dict) (k : KeyFrame) :
    l.foldl copyChild (d, k) =
      (d.afterLookups l,
        { k with
          mspChildrens := l.foldl (fun acc c => setInsert acc (d.translate c)) k.mspChildrens })
    := by
  induction l generalizing d k with
  | nil => rfl
  | cons a l ih =>
    rw [List.foldl_cons]
    have hstep : copyChild (d, k) a =
        ((d.index a).2, { k with mspChildrens := setInsert k.mspChildrens (d.translate a) }) :=
      rfl
    rw [hstep, ih, Dict.translate_index_snd]
    rfl

theorem foldl_copyLoopEdge (l : List Ptr) (d : Dict) (k : KeyFrame) :
    l.foldl copyLoopEdge (d, k) =
      (d.afterLookups l,
        { k with
          mspLoopEdges := l.foldl (fun acc c => setInsert acc (d.translate c)) k.mspLoopEdges })
    := by
  induction l generalizing d k with
  | nil => rfl
  | cons a l ih =>
    rw [List.foldl_cons]
    have hstep : copyLoopEdge (d, k) a =
        ((d.index a).2, { k with mspLoopEdges := setInsert k.mspLoopEdges (d.translate a) }) :=
      rfl
    rw [hstep, ih, Dict.translate_index_snd]
    rfl

/-- The outcome of the six steps of `CopyKeyFrameConnections` in closed form: the
dictionary has gone through the lookups of `src.lookupKeys`, and each connection field of
the global key frame has received the translated content of the source field. -/
theorem copyConnections_eq (src : KeyFrame) (d : Dict) (k : KeyFrame) :
    copyConnections src (d, k) =
      (d.afterLookups src.lookupKeys,
        { k with
          mConnectedKeyFrameWeights :=
            src.mConnectedKeyFrameWeights.foldl
              (fun acc p => mapAssign acc (d.translate p.1) p.2) k.mConnectedKeyFrameWeights
          mvpOrderedConnectedKeyFrames :=
            k.mvpOrderedConnectedKeyFrames ++ src.mvpOrderedConnectedKeyFrames.map d.translate
          mvOrderedWeights := k.mvOrderedWeights ++ src.mvOrderedWeights
          mpParent :=
            match src.mpParent with
            | none => k.mpParent
            | some p => d.translate (some p)
          mspChildrens :=
            src.mspChildrens.foldl (fun acc c => setInsert acc (d.translate c)) k.mspChildrens
          mspLoopEdges :=
            src.mspLoopEdges.foldl (fun acc c => setInsert acc (d.translate c)) k.mspLoopEdges })
    := by
  unfold copyConnections
  simp only [foldl_copyConnection, foldl_copyOrderedConnection, foldl_copyOrderedWeight,
    copyParent_eq, foldl_copyChild, foldl_copyLoopEdge, Dict.translate_afterLookups,
    KeyFrame.lookupKeys, Dict.afterLookups_append]

theorem mem_setInsert {α : Type} [DecidableEq α] (l : List α) (a x : α) :
    x ∈ setInsert l a ↔ x ∈ l ∨ x = a := by
  unfold setInsert
  by_cases h : a ∈ l
  · rw [if_pos h]
    constructor
    · exact Or.inl
    · rintro (hx | hx)
      · exact hx
      · rw [hx]; exact h
  · rw [if_neg h]
    simp

theorem foldl_setInsert_mem {α β : Type} [DecidableEq α] (f : β → α) (l : List β)
    (init : List α) (x : α) :
    x ∈ l.foldl (fun acc c => setInsert acc (f c)) init ↔ x ∈ init ∨ x ∈ l.map f := by
  induction l generalizing init with
  | nil => simp
  | cons a l ih =>
    rw [List.foldl_cons, ih, mem_setInsert]
    simp only [List.map_cons, List.mem_cons]
    tauto

/-- The outcome of `CopyKeyFrameConnections` for a key frame that is registered with the
global key frame at address `g`. -/
theorem CopyKeyFrameConnections_of_registered (h : ClientHeap) (s : Server) {u g : Nat}
    (hu : s.keyFrameDictionary (some u) = some (some g)) :
    s.CopyKeyFrameConnections h u =
      .ok { s with
        keyFrameDictionary :=
          (copyConnections (h.keyFrame u) (s.keyFrameDictionary, s.keyFrames g)).1
        keyFrames := fun x =>
          if x = g then (copyConnections (h.keyFrame u) (s.keyFrameDictionary, s.keyFrames g)).2
          else s.keyFrames x } := by
  unfold Server.CopyKeyFrameConnections
  rw [Dict.index_of_some hu]

/-- The lookup of the key frame itself yields null when it is not registered, and the null
pointer is dereferenced. -/
theorem CopyKeyFrameConnections_of_unregistered (h : ClientHeap) (s : Server) {u : Nat}
    (hu : s.keyFrameDictionary.translate (some u) = none) :
    s.CopyKeyFrameConnections h u = .error .nullDereference := by
  unfold Server.CopyKeyFrameConnections
  unfold Dict.translate at hu
  simp only [hu]

/-! ### The loop of `CopyKeyFrameMappoints` -/

/-- The body of the loop for a point that has a translator entry `globalPoint`: the
global point, when it is not null, receives one observation, and the slot receives
`globalPoint`. -/
theorem copyMapPoint_of_found (h : ClientHeap) (g : Nat) (s : Server) (i : Nat)
    {point globalPoint : Ptr} (hp : s.mapPointDictionary point = some globalPoint) :
    s.copyMapPoint h g i point =
      .ok { s with
        mapPoints := observeAt s.mapPoints globalPoint (some g) i
        keyFrames := fun x =>
          if x = g then
            { s.keyFrames g with mvpMapPoints := (s.keyFrames g).mvpMapPoints.set i globalPoint }
          else s.keyFrames x } := by
  unfold Server.copyMapPoint
  simp only [hp]
  cases globalPoint with
  | none =>
    simp only [Server.storeTranslatedPoint, Server.modifyKeyFrame, Dict.index_of_some hp,
      KeyFrame.AddMapPoint, if_true, List.set_set, observeAt]
    congr 2
    funext x
    by_cases hx : x = g <;> simp [hx]
  | some gp =>
    simp only [Server.storeTranslatedPoint, Server.modifyKeyFrame, Server.modifyMapPoint,
      Dict.index_of_some hp, KeyFrame.AddMapPoint, if_true, List.set_set, observeAt]
    congr 2
    funext x
    by_cases hx : x = g <;> simp [hx]

/-- The body of the loop for a non-null point without translator entry: a global map
point is allocated, receives one observation, is added to the global map and registered,
and the slot receives it. -/
theorem copyMapPoint_of_new (h : ClientHeap) (g : Nat) (s : Server) (i : Nat) {p : Nat}
    (hp : s.mapPointDictionary (some p) = none) :
    s.copyMapPoint h g i (some p) =
      .ok { s with
        mapPointDictionary := s.mapPointDictionary.assign (some p) (some s.nMapPoints)
        mapPoints := fun x =>
          if x = s.nMapPoints then
            { mWorldPos := (h.mapPoint p).mWorldPos
              mDescriptor := (h.mapPoint p).mDescriptor
              mpRefKF := some g
              mObservations := [(some g, i)] }
          else s.mapPoints x
        nMapPoints := s.nMapPoints + 1
        globalMap := s.globalMap.AddMapPoint s.nMapPoints
        keyFrames := fun x =>
          if x = g then
            { s.keyFrames g with
              mvpMapPoints := (s.keyFrames g).mvpMapPoints.set i (some s.nMapPoints) }
          else s.keyFrames x } := by
  unfold Server.copyMapPoint
  simp only [hp]
  simp only [Server.storeTranslatedPoint, Server.modifyKeyFrame, Server.modifyMapPoint,
    Dict.index_of_some (Dict.assign_self _ _ _), KeyFrame.AddMapPoint, MapPoint.AddObservation,
    if_true, List.set_set, List.nil_append]
  congr 2
  · funext x
    by_cases hx : x = g <;> simp [hx]
  · funext x
    by_cases hx : x = s.nMapPoints <;> simp [hx]

/-- The body of the loop for a null point when the null entry is missing: the null
pointer is dereferenced. -/
theorem copyMapPoint_of_unseeded (h : ClientHeap) (g : Nat) (s : Server) (i : Nat)
    (hp : s.mapPointDictionary none = none) :
    s.copyMapPoint h g i none = .error .nullDereference := by
  unfold Server.copyMapPoint
  simp only [hp]

theorem setInsert_range (n : Nat) : setInsert (List.range n) n = List.range (n + 1) := by
  unfold setInsert
  rw [if_neg (by simp), List.range_succ]

theorem SlotStep_of_found (h : ClientHeap) (g : Nat) (s : Server) (i : Nat)
    {point globalPoint : Ptr} (hseed : s.mapPointDictionary none = some none)
    (hp : s.mapPointDictionary point = some globalPoint) :
    ∃ s', s.copyMapPoint h g i point = .ok s' ∧ SlotStep g i point s s' := by
  refine ⟨_, copyMapPoint_of_found h g s i hp, ?_⟩
  have htr : s.mapPointDictionary.translate point = globalPoint := by
    rw [dict_translate_eq, hp]; rfl
  refine
    { clients := rfl, keyFrameDictionary := rfl, timeDictionaryA := rfl, timeDictionaryB := rfl,
      nKeyFrames := rfl, mspKeyFrames := rfl, keyFrames := ?_, entry := ?_,
      mono := fun _ _ hk => hk, fresh := fun k hk hk' => absurd hk hk', nMapPoints_le := le_refl _,
      null := ?_, wf := fun hwf => hwf, covered := fun hc => hc, observations := ?_ }
  · intro x
    simp only [htr]
  · simp only [htr]
    exact hp
  · intro hnull
    subst hnull
    rw [hseed] at hp
    cases hp
    exact ⟨rfl, rfl, rfl, rfl⟩
  · intro hwf p
    obtain ⟨_, hval, hinj, _⟩ := hwf
    unfold Server.observationsOf
    simp only []
    cases globalPoint with
    | none =>
      have hne : point ≠ some p := by
        intro hpt
        subst hpt
        obtain ⟨a, ha, _⟩ := hval p none hp
        exact absurd ha (by simp)
      simp [observeAt, hne]
    | some a =>
      cases point with
      | none => rw [hseed] at hp; exact absurd hp (by simp)
      | some q =>
        cases hsp : s.mapPointDictionary (some p) with
        | none =>
          have hne : q ≠ p := by
            intro hqp; subst hqp; rw [hsp] at hp; exact absurd hp (by simp)
          simp [hne]
        | some v =>
          cases v with
          | none =>
            have hne : q ≠ p := by
              intro hqp; subst hqp; rw [hsp] at hp; exact absurd hp (by simp)
            simp [hne]
          | some a' =>
            by_cases haa : a' = a
            · subst haa
              have hqp : q = p := hinj q p a' hp hsp
              subst hqp
              simp [observeAt, MapPoint.AddObservation]
            · have hne : q ≠ p := by
                intro hqp; subst hqp; rw [hsp] at hp
                exact haa (by simpa using hp)
              simp [observeAt, haa, hne]

theorem SlotStep_of_new (h : ClientHeap) (g : Nat) (s : Server) (i : Nat) {p : Nat}
    (hp : s.mapPointDictionary (some p) = none) :
    ∃ s', s.copyMapPoint h g i (some p) = .ok s' ∧ SlotStep g i (some p) s s' := by
  refine ⟨_, copyMapPoint_of_new h g s i hp, ?_⟩
  have htr : (s.mapPointDictionary.assign (some p) (some s.nMapPoints)).translate (some p)
      = some s.nMapPoints := by
    rw [dict_translate_eq, Dict.assign_self]; rfl
  refine
    { clients := rfl, keyFrameDictionary := rfl, timeDictionaryA := rfl, timeDictionaryB := rfl,
      nKeyFrames := rfl, mspKeyFrames := rfl, keyFrames := ?_, entry := ?_,
      mono := ?_, fresh := ?_, nMapPoints_le := Nat.le_succ _,
      null := fun hn => absurd hn (by simp), wf := ?_, covered := ?_, observations := ?_ }
  · intro x
    simp only [htr]
  · simp only [htr]
    exact Dict.assign_self _ _ _
  · intro k v hk
    have hne : k ≠ some p := by
      intro hkp; subst hkp; rw [hp] at hk; exact absurd hk (by simp)
    simp only [Dict.assign_of_ne _ _ hne]
    exact hk
  · intro k hk hk'
    by_cases hkp : k = some p
    · subst hkp
      exact ⟨rfl, s.nMapPoints, Dict.assign_self _ _ _, le_refl _, Nat.lt_succ_self _⟩
    · simp only [Dict.assign_of_ne _ _ hkp] at hk'
      exact absurd hk hk'
  · rintro ⟨hseed, hval, hinj, hmap⟩
    refine ⟨?_, ?_, ?_, ?_⟩
    · simp only [Dict.assign_of_ne _ _ (show (none : Ptr) ≠ some p by simp)]
      exact hseed
    · intro q v hq
      by_cases hqp : q = p
      · subst hqp
        simp only [Dict.assign_self] at hq
        exact ⟨s.nMapPoints, (Option.some.inj hq).symm, Nat.lt_succ_self _⟩
      · simp only [Dict.assign_of_ne _ _ (show some q ≠ some p by simpa using hqp)] at hq
        obtain ⟨a, ha, hlt⟩ := hval q v hq
        exact ⟨a, ha, Nat.lt_succ_of_lt hlt⟩
    · intro q1 q2 a h1 h2
      by_cases hq1 : q1 = p
      · by_cases hq2 : q2 = p
        · rw [hq1, hq2]
        · exfalso
          subst hq1
          simp only [Dict.assign_self] at h1
          simp only [Dict.assign_of_ne _ _ (show some q2 ≠ some q1 by simpa using hq2)] at h2
          obtain ⟨a', ha', hlt⟩ := hval q2 _ h2
          have e1 : s.nMapPoints = a := by simpa using h1
          have e2 : a = a' := by simpa using ha'
          omega
      · by_cases hq2 : q2 = p
        · exfalso
          subst hq2
          simp only [Dict.assign_self] at h2
          simp only [Dict.assign_of_ne _ _ (show some q1 ≠ some q2 by simpa using hq1)] at h1
          obtain ⟨a', ha', hlt⟩ := hval q1 _ h1
          have e1 : s.nMapPoints = a := by simpa using h2
          have e2 : a = a' := by simpa using ha'
          omega
        · simp only [Dict.assign_of_ne _ _ (show some q1 ≠ some p by simpa using hq1)] at h1
          simp only [Dict.assign_of_ne _ _ (show some q2 ≠ some p by simpa using hq2)] at h2
          exact hinj q1 q2 a h1 h2
    · simp only [Map.AddMapPoint, hmap]
      exact setInsert_range _
  · intro hc a ha
    by_cases haa : a = s.nMapPoints
    · exact ⟨p, by rw [haa]; exact Dict.assign_self _ _ _⟩
    · obtain ⟨q, hq⟩ := hc a (by simp only [] at ha; omega)
      have hqp : q ≠ p := by
        intro e; subst e; rw [hp] at hq; exact absurd hq (by simp)
      refine ⟨q, ?_⟩
      simp only [Dict.assign_of_ne _ _ (show some q ≠ some p by simpa using hqp)]
      exact hq
  · rintro ⟨hseed, hval, hinj, hmap⟩ q
    unfold Server.observationsOf
    simp only []
    by_cases hqp : q = p
    · subst hqp
      simp [Dict.assign_self, hp]
    · have hne : some q ≠ some p := by simpa using hqp
      have hne' : p ≠ q := fun e => hqp e.symm
      simp only [Dict.assign_of_ne _ _ hne]
      cases hsq : s.mapPointDictionary (some q) with
      | none => simp [hne']
      | some v =>
        obtain ⟨a, ha, hlt⟩ := hval q v hsq
        subst ha
        have : a ≠ s.nMapPoints := by omega
        simp [this, hne']

/-- The loop body completes whenever the null entry of the map-point translator is seeded,
and does to the server what `SlotStep` says. -/
theorem copyMapPoint_spec (h : ClientHeap) (g : Nat) (s : Server) (i : Nat) (point : Ptr)
    (hseed : s.mapPointDictionary none = some none) :
    ∃ s', s.copyMapPoint h g i point = .ok s' ∧ SlotStep g i point s s' := by
  cases hp : s.mapPointDictionary point with
  | some globalPoint => exact SlotStep_of_found h g s i hseed hp
  | none =>
    cases point with
    | none => rw [hseed] at hp; exact absurd hp (by simp)
    | some p => exact SlotStep_of_new h g s i hp

theorem Dict.translate_of_entry {d : Dict} {k v : Ptr} (h : d k = some v) :
    d.translate k = v := by
  rw [dict_translate_eq, h]; rfl

/-- The loop of `CopyKeyFrameMappoints` completes whenever the null entry of the map-point
translator is seeded, and does to the server what `SlotsLoop` says. -/
theorem copyMapPoints_spec (h : ClientHeap) (g : Nat) (points : List Ptr) (i : Nat)
    (s : Server) (hseed : s.mapPointDictionary none = some none) :
    ∃ s', s.copyMapPoints h g points i = .ok s' ∧ SlotsLoop g i points s s' := by
  induction points generalizing i s with
  | nil =>
    refine ⟨s, rfl, ?_⟩
    refine
      { clients := rfl, keyFrameDictionary := rfl, timeDictionaryA := rfl,
        timeDictionaryB := rfl, nKeyFrames := rfl, mspKeyFrames := rfl, keyFrames := ?_,
        entry := fun x hx => absurd hx (by simp), mono := fun _ _ hk => hk,
        fresh := fun k hk hk' => absurd hk hk', nMapPoints_le := le_refl _,
        null := fun _ => ⟨rfl, rfl, rfl, rfl⟩, wf := fun hwf => hwf,
        covered := fun hc => hc, observations := fun _ p => by simp [slotsOf] }
    intro x
    by_cases hx : x = g
    · subst hx; simp [overwrite]
    · simp [hx]
  | cons a l ih =>
    obtain ⟨s1, hs1, st⟩ := copyMapPoint_spec h g s i a hseed
    obtain ⟨s2, hs2, lp⟩ := ih (i + 1) s1 (st.mono _ _ hseed)
    have hrun : s.copyMapPoints h g (a :: l) i = .ok s2 := by
      simp only [Server.copyMapPoints, hs1]
      exact hs2
    have hta : s2.mapPointDictionary.translate a = s1.mapPointDictionary.translate a :=
      Dict.translate_of_entry (lp.mono _ _ st.entry)
    refine ⟨s2, hrun, ?_⟩
    refine
      { clients := lp.clients.trans st.clients,
        keyFrameDictionary := lp.keyFrameDictionary.trans st.keyFrameDictionary,
        timeDictionaryA := lp.timeDictionaryA.trans st.timeDictionaryA,
        timeDictionaryB := lp.timeDictionaryB.trans st.timeDictionaryB,
        nKeyFrames := lp.nKeyFrames.trans st.nKeyFrames,
        mspKeyFrames := lp.mspKeyFrames.trans st.mspKeyFrames,
        keyFrames := ?_, entry := ?_,
        mono := fun k v hk => lp.mono k v (st.mono k v hk),
        fresh := ?_, nMapPoints_le := le_trans st.nMapPoints_le lp.nMapPoints_le,
        null := ?_, wf := fun hwf => lp.wf (st.wf hwf),
        covered := fun hc => lp.covered (st.covered hc), observations := ?_ }
    · intro x
      rw [lp.keyFrames x]
      by_cases hx : x = g
      · subst hx
        rw [if_pos rfl, if_pos rfl, st.keyFrames x, if_pos rfl]
        simp only [List.map_cons, overwrite, hta]
      · rw [if_neg hx, if_neg hx, st.keyFrames x, if_neg hx]
    · intro x hx
      rcases List.mem_cons.mp hx with hxa | hxl
      · subst hxa
        rw [hta]
        exact lp.mono _ _ st.entry
      · exact lp.entry x hxl
    · intro k hk hk'
      cases hk1 : s1.mapPointDictionary k with
      | none =>
        obtain ⟨hmem, a', ha', hle, hlt⟩ := lp.fresh k hk1 hk'
        exact ⟨List.mem_cons_of_mem _ hmem, a', ha', le_trans st.nMapPoints_le hle, hlt⟩
      | some v =>
        have hne : s1.mapPointDictionary k ≠ none := by rw [hk1]; simp
        obtain ⟨hka, a', ha', hle, hlt⟩ := st.fresh k hk hne
        refine ⟨by rw [hka]; exact List.mem_cons_self _ _, a', lp.mono _ _ ha', hle,
          lt_of_lt_of_le hlt lp.nMapPoints_le⟩
    · intro hall
      obtain ⟨a1, a2, a3, a4⟩ := st.null (hall a (List.mem_cons_self _ _))
      obtain ⟨b1, b2, b3, b4⟩ := lp.null (fun x hx => hall x (List.mem_cons_of_mem _ hx))
      exact ⟨b1.trans a1, b2.trans a2, b3.trans a3, b4.trans a4⟩
    · intro hwf p
      rw [lp.observations (st.wf hwf) p, st.observations hwf p]
      by_cases hap : a = some p
      · simp [slotsOf, hap]
      · simp [slotsOf, hap]

theorem set_length_append (pre : List Ptr) (y x : Ptr) (v : List Ptr) :
    (pre ++ y :: v).set pre.length x = pre ++ x :: v := by
  induction pre with
  | nil => rfl
  | cons a pre ih => simp [ih]

theorem overwrite_append (xs : List Ptr) (pre v : List Ptr) (hlen : xs.length ≤ v.length) :
    overwrite (pre ++ v) pre.length xs = pre ++ xs ++ v.drop xs.length := by
  induction xs generalizing pre v with
  | nil => simp [overwrite]
  | cons x xs ih =>
    cases v with
    | nil => simp at hlen
    | cons y v =>
      have hlen' : xs.length ≤ v.length := by simpa using hlen
      have hstep := ih (pre ++ [x]) v hlen'
      simp only [List.length_append, List.length_singleton, List.append_assoc,
        List.singleton_append] at hstep
      simp only [overwrite, set_length_append, hstep, List.length_cons, List.drop_succ_cons,
        List.append_assoc, List.cons_append]

theorem length_resize (v : List Ptr) (n : Nat) : (resize v n).length = n := by
  simp only [resize, List.length_append, List.length_take, List.length_replicate]
  omega

theorem overwrite_resize (v xs : List Ptr) : overwrite (resize v xs.length) 0 xs = xs := by
  have hov := overwrite_append xs [] (resize v xs.length) (by rw [length_resize])
  have hdrop : (resize v xs.length).drop xs.length = [] := by
    apply List.drop_eq_nil_of_le
    rw [length_resize]
  simpa [hdrop] using hov

/-- The operation `CopyKeyFrameMappoints` completes for a registered key frame whenever
the null entry of the map-point translator is seeded, and does to the server what
`PointPass` says. -/
theorem CopyKeyFrameMappoints_spec (h : ClientHeap) (s : Server) {k g : Nat}
    (hk : s.keyFrameDictionary (some k) = some (some g))
    (hseed : s.mapPointDictionary none = some none) :
    ∃ s', s.CopyKeyFrameMappoints h k = .ok s' ∧
      PointPass g (h.keyFrame k).mvpMapPoints s s' := by
  obtain ⟨s', hrun, lp⟩ := copyMapPoints_spec h g (h.keyFrame k).mvpMapPoints 0
    (s.modifyKeyFrame g (fun kf =>
      { kf with
        mvpMapPoints :=
          resize kf.mvpMapPoints (h.keyFrame k).GetMapPointMatches.length })) hseed
  refine ⟨s', ?_, ?_⟩
  · unfold Server.CopyKeyFrameMappoints
    simp only [Dict.index_of_some hk]
    exact hrun
  · refine
      { clients := lp.clients, keyFrameDictionary := lp.keyFrameDictionary,
        timeDictionaryA := lp.timeDictionaryA, timeDictionaryB := lp.timeDictionaryB,
        nKeyFrames := lp.nKeyFrames, mspKeyFrames := lp.mspKeyFrames, keyFrames := ?_,
        entry := lp.entry, mono := lp.mono, fresh := lp.fresh,
        nMapPoints_le := lp.nMapPoints_le, null := lp.null, wf := lp.wf,
        covered := lp.covered, observations := lp.observations }
    intro x
    rw [lp.keyFrames x]
    by_cases hx : x = g
    · subst hx
      have hov := overwrite_resize (s.keyFrames x).mvpMapPoints
        ((h.keyFrame k).mvpMapPoints.map s'.mapPointDictionary.translate)
      rw [List.length_map] at hov
      simp only [if_true, modifyKeyFrame_keyFrames_self, KeyFrame.GetMapPointMatches, hov]
    · rw [if_neg hx, if_neg hx, modifyKeyFrame_keyFrames_of_ne s _ hx]

/-- The lookup of the key frame itself yields null when it is not registered, and the null
pointer is dereferenced. -/
theorem CopyKeyFrameMappoints_of_unregistered (h : ClientHeap) (s : Server) {k : Nat}
    (hk : s.keyFrameDictionary.translate (some k) = none) :
    s.CopyKeyFrameMappoints h k = .error .nullDereference := by
  unfold Server.CopyKeyFrameMappoints
  unfold Dict.translate at hk
  simp only [hk]

/-! ### Frames and invariants of the merge operations -/

theorem linkFrame_refl (s : Server) : s.LinkFrame s :=
  ⟨rfl, rfl, rfl, rfl, rfl, nullExtends_refl _, fun _ _ hk => hk, le_refl _, fun _ => rfl⟩

theorem linkFrame_trans {s t u : Server} (h1 : s.LinkFrame t) (h2 : t.LinkFrame u) :
    s.LinkFrame u := by
  obtain ⟨a1, a2, a3, a4, a5, a6, a7, a8, a9⟩ := h1
  obtain ⟨b1, b2, b3, b4, b5, b6, b7, b8, b9⟩ := h2
  exact ⟨b1.trans a1, b2.trans a2, b3.trans a3, b4.trans a4, b5.trans a5,
    nullExtends_trans a6 b6, fun k v hk => b7 k v (a7 k v hk), le_trans a8 b8,
    fun x => (b9 x).trans (a9 x)⟩

theorem copyConnections_core (src : KeyFrame) (d : Dict) (k : KeyFrame) :
    (copyConnections src (d, k)).2.core = k.core := by
  rw [copyConnections_eq]
  rfl

theorem copyConnections_mvpMapPoints (src : KeyFrame) (d : Dict) (k : KeyFrame) :
    (copyConnections src (d, k)).2.mvpMapPoints = k.mvpMapPoints := by
  rw [copyConnections_eq]

/-- When `CopyKeyFrameConnections` completes, the key frame was registered with a global
key frame, and the outcome is the one of `CopyKeyFrameConnections_of_registered`. -/
theorem CopyKeyFrameConnections_ok (h : ClientHeap) (s s' : Server) (u : Nat)
    (hrun : s.CopyKeyFrameConnections h u = .ok s') :
    ∃ g, s.keyFrameDictionary (some u) = some (some g) ∧
      s' = { s with
        keyFrameDictionary :=
          (copyConnections (h.keyFrame u) (s.keyFrameDictionary, s.keyFrames g)).1
        keyFrames := fun x =>
          if x = g then (copyConnections (h.keyFrame u) (s.keyFrameDictionary, s.keyFrames g)).2
          else s.keyFrames x } := by
  cases hu : s.keyFrameDictionary (some u) with
  | none =>
    rw [CopyKeyFrameConnections_of_unregistered h s
      (by rw [dict_translate_eq, hu]; rfl)] at hrun
    exact absurd hrun (by simp)
  | some v =>
    cases v with
    | none =>
      rw [CopyKeyFrameConnections_of_unregistered h s
        (by rw [dict_translate_eq, hu]; rfl)] at hrun
      exact absurd hrun (by simp)
    | some g =>
      rw [CopyKeyFrameConnections_of_registered h s hu] at hrun
      exact ⟨g, rfl, (Except.ok.inj hrun).symm⟩

theorem CopyKeyFrameConnections_linkFrame (h : ClientHeap) (s s' : Server) (u : Nat)
    (hrun : s.CopyKeyFrameConnections h u = .ok s') :
    s.LinkFrame s' ∧ s'.mapPointDictionary = s.mapPointDictionary ∧
      s'.mapPoints = s.mapPoints ∧ s'.nMapPoints = s.nMapPoints ∧
      s'.globalMap = s.globalMap := by
  obtain ⟨g, _, hs'⟩ := CopyKeyFrameConnections_ok h s s' u hrun
  subst hs'
  refine ⟨⟨rfl, rfl, rfl, rfl, rfl, ?_, fun _ _ hk => hk, le_refl _, fun x => ?_⟩,
    rfl, rfl, rfl, rfl⟩
  · simp only [copyConnections_eq]
    exact Dict.nullExtends_afterLookups _ _
  · by_cases hx : x = g
    · subst hx
      simp only [if_true]
      exact copyConnections_core _ _ _
    · simp only [if_neg hx]

/-- When `CopyKeyFrameMappoints` completes, the key frame was registered with a global key
frame. -/
theorem CopyKeyFrameMappoints_ok (h : ClientHeap) (s s' : Server) (k : Nat)
    (hrun : s.CopyKeyFrameMappoints h k = .ok s') :
    ∃ g, s.keyFrameDictionary (some k) = some (some g) := by
  cases hk : s.keyFrameDictionary (some k) with
  | none =>
    rw [CopyKeyFrameMappoints_of_unregistered h s (by rw [dict_translate_eq, hk]; rfl)] at hrun
    exact absurd hrun (by simp)
  | some v =>
    cases v with
    | none =>
      rw [CopyKeyFrameMappoints_of_unregistered h s
        (by rw [dict_translate_eq, hk]; rfl)] at hrun
      exact absurd hrun (by simp)
    | some g => exact ⟨g, rfl⟩

theorem pointPass_linkFrame {g : Nat} {points : List Ptr} {s s' : Server}
    (pp : PointPass g points s s') : s.LinkFrame s' := by
  refine ⟨pp.clients, pp.timeDictionaryA, pp.timeDictionaryB, pp.nKeyFrames, pp.mspKeyFrames,
    ?_, pp.mono, pp.nMapPoints_le, fun x => ?_⟩
  · rw [pp.keyFrameDictionary]
    exact nullExtends_refl _
  · rw [pp.keyFrames x]
    by_cases hx : x = g
    · subst hx
      simp only [if_true]
      rfl
    · simp only [if_neg hx]

/-! ### `InsertNewKeyFrame` -/

theorem insert_keyFrameDictionary (h : ClientHeap) (s : Server) (k : Nat) (off : Int) (q : Int) :
    (s.InsertNewKeyFrame h k off q).keyFrameDictionary =
      s.keyFrameDictionary.assign (some k) (some s.nKeyFrames) := by
  unfold Server.InsertNewKeyFrame
  simp only []
  split_ifs <;> rfl

theorem insert_nKeyFrames (h : ClientHeap) (s : Server) (k : Nat) (off : Int) (q : Int) :
    (s.InsertNewKeyFrame h k off q).nKeyFrames = s.nKeyFrames + 1 := by
  unfold Server.InsertNewKeyFrame
  simp only []
  split_ifs <;> rfl

theorem insert_keyFrames (h : ClientHeap) (s : Server) (k : Nat) (off : Int) (q : Int) :
    (s.InsertNewKeyFrame h k off q).keyFrames = fun x =>
      if x = s.nKeyFrames then
        { (h.keyFrame k).copyIntrinsic with
          mnId := addOffset (h.keyFrame k).copyIntrinsic.mnId off
          sequence := q }
      else s.keyFrames x := by
  unfold Server.InsertNewKeyFrame
  simp only []
  split_ifs <;> rfl

theorem insert_mspKeyFrames (h : ClientHeap) (s : Server) (k : Nat) (off : Int) (q : Int) :
    (s.InsertNewKeyFrame h k off q).globalMap.mspKeyFrames =
      setInsert s.globalMap.mspKeyFrames s.nKeyFrames := by
  unfold Server.InsertNewKeyFrame
  simp only []
  split_ifs <;> rfl

theorem insert_mapPointDictionary (h : ClientHeap) (s : Server) (k : Nat) (off : Int) (q : Int) :
    (s.InsertNewKeyFrame h k off q).mapPointDictionary = s.mapPointDictionary := by
  unfold Server.InsertNewKeyFrame
  simp only []
  split_ifs <;> rfl

theorem insert_mapPoints (h : ClientHeap) (s : Server) (k : Nat) (off : Int) (q : Int) :
    (s.InsertNewKeyFrame h k off q).mapPoints = s.mapPoints ∧
    (s.InsertNewKeyFrame h k off q).nMapPoints = s.nMapPoints ∧
    (s.InsertNewKeyFrame h k off q).globalMap.mspMapPoints = s.globalMap.mspMapPoints ∧
    (s.InsertNewKeyFrame h k off q).clients = s.clients := by
  unfold Server.InsertNewKeyFrame
  simp only []
  split_ifs <;> exact ⟨rfl, rfl, rfl, rfl⟩

theorem insert_mapPointsWF (h : ClientHeap) (s : Server) (k : Nat) (off : Int) (q : Int)
    (hwf : s.MapPointsWF) : (s.InsertNewKeyFrame h k off q).MapPointsWF := by
  obtain ⟨a1, a2, a3, a4⟩ := hwf
  obtain ⟨_, b2, b3, _⟩ := insert_mapPoints h s k off q
  unfold Server.MapPointsWF
  rw [insert_mapPointDictionary, b2, b3]
  exact ⟨a1, a2, a3, a4⟩

theorem insert_keyFramesWF (h : ClientHeap) (s : Server) (k : Nat) (off : Int) (q : Int)
    (hwf : s.KeyFramesWF) : (s.InsertNewKeyFrame h k off q).KeyFramesWF := by
  obtain ⟨a1, a2, a3, a4⟩ := hwf
  unfold Server.KeyFramesWF
  rw [insert_keyFrameDictionary, insert_nKeyFrames, insert_mspKeyFrames, a4]
  refine ⟨?_, ?_, ?_, setInsert_range _⟩
  · rw [Dict.assign_of_ne _ _ (show (none : Ptr) ≠ some k by simp)]
    exact a1
  · intro k1 a hk1
    by_cases hk : k1 = k
    · subst hk
      rw [Dict.assign_self] at hk1
      have e : s.nKeyFrames = a := by simpa using hk1
      omega
    · rw [Dict.assign_of_ne _ _ (show some k1 ≠ some k by simpa using hk)] at hk1
      exact Nat.lt_succ_of_lt (a2 k1 a hk1)
  · intro k1 k2 a h1 h2
    by_cases hk1 : k1 = k
    · by_cases hk2 : k2 = k
      · rw [hk1, hk2]
      · exfalso
        subst hk1
        rw [Dict.assign_self] at h1
        rw [Dict.assign_of_ne _ _ (show some k2 ≠ some k1 by simpa using hk2)] at h2
        have e : s.nKeyFrames = a := by simpa using h1
        have := a2 k2 a h2
        omega
    · by_cases hk2 : k2 = k
      · exfalso
        subst hk2
        rw [Dict.assign_self] at h2
        rw [Dict.assign_of_ne _ _ (show some k1 ≠ some k2 by simpa using hk1)] at h1
        have e : s.nKeyFrames = a := by simpa using h2
        have := a2 k1 a h1
        omega
      · rw [Dict.assign_of_ne _ _ (show some k1 ≠ some k by simpa using hk1)] at h1
        rw [Dict.assign_of_ne _ _ (show some k2 ≠ some k by simpa using hk2)] at h2
        exact a3 k1 k2 a h1 h2

/-- The frame of `LinkFrame` keeps the invariant of the key-frame translator. -/
theorem linkFrame_keyFramesWF {s t : Server} (hf : s.LinkFrame t) (hwf : s.KeyFramesWF) :
    t.KeyFramesWF := by
  obtain ⟨_, _, _, f4, f5, f6, _, _, _⟩ := hf
  obtain ⟨a1, a2, a3, a4⟩ := hwf
  have hback : ∀ k a, t.keyFrameDictionary k = some (some a) →
      s.keyFrameDictionary k = some (some a) := by
    intro k a hk
    rcases f6 k with e | ⟨_, e⟩
    · rw [← e]; exact hk
    · rw [e] at hk; exact absurd hk (by simp)
  refine ⟨nullExtends_of_some f6 a1, ?_, ?_, ?_⟩
  · intro k a hk
    rw [f4]
    exact a2 k a (hback _ _ hk)
  · intro k1 k2 a h1 h2
    exact a3 k1 k2 a (hback _ _ h1) (hback _ _ h2)
  · rw [f5, f4]
    exact a4

/-- The seeded server of the constructor satisfies the invariant of the merge. -/
theorem seed_withClients_wellFormed (clients : List System) :
    (Server.withClients clients).seed.WellFormed := by
  refine ⟨⟨rfl, ?_, ?_, rfl⟩, ⟨rfl, ?_, ?_, rfl⟩⟩
  · intro k a hk
    simp [Server.seed, Server.withClients, Server.init, Dict.assign] at hk
  · intro k1 k2 a hk
    simp [Server.seed, Server.withClients, Server.init, Dict.assign] at hk
  · intro p v hp
    simp [Server.seed, Server.withClients, Server.init, Dict.assign] at hp
  · intro p q a hp
    simp [Server.seed, Server.withClients, Server.init, Dict.assign] at hp

/-- Each operation of the merge keeps the invariant. -/
theorem step_wellFormed (h : ClientHeap) (s s' : Server) (op : Op) (hwf : s.WellFormed)
    (hrun : s.step h op = .ok s') : s'.WellFormed := by
  cases op with
  | insertNewKeyFrame k off q =>
    have hs' : s' = s.InsertNewKeyFrame h k off q := (Except.ok.inj hrun).symm
    subst hs'
    exact ⟨insert_keyFramesWF h s k off q hwf.1, insert_mapPointsWF h s k off q hwf.2⟩
  | copyKeyFrameMappoints k =>
    obtain ⟨g, hk⟩ := CopyKeyFrameMappoints_ok h s s' k hrun
    obtain ⟨t, ht, pp⟩ := CopyKeyFrameMappoints_spec h s hk hwf.2.1
    have hst : t = s' := Except.ok.inj (ht.symm.trans hrun)
    subst hst
    exact ⟨linkFrame_keyFramesWF (pointPass_linkFrame pp) hwf.1, pp.wf hwf.2⟩
  | copyKeyFrameConnections k =>
    obtain ⟨hf, e1, _, e3, e4⟩ := CopyKeyFrameConnections_linkFrame h s s' k hrun
    refine ⟨linkFrame_keyFramesWF hf hwf.1, ?_⟩
    obtain ⟨a1, a2, a3, a4⟩ := hwf.2
    unfold Server.MapPointsWF
    rw [e1, e3, e4]
    exact ⟨a1, a2, a3, a4⟩

/-- Every state that a sequence of merge operations reaches keeps the invariant. -/
theorem exec_wellFormed (h : ClientHeap) (ops : List Op) (s s' : Server) (hwf : s.WellFormed)
    (hrun : s.exec h ops = .ok s') : s'.WellFormed := by
  induction ops generalizing s with
  | nil =>
    have hs' : s = s' := Except.ok.inj hrun
    subst hs'
    exact hwf
  | cons op ops ih =>
    unfold Server.exec forEach at hrun
    cases hstep : s.step h op with
    | error e => rw [hstep] at hrun; exact absurd hrun (by simp)
    | ok s1 =>
      rw [hstep] at hrun
      exact ih s1 (step_wellFormed h s s1 op hwf hstep) hrun

/-! ### Sequences of operations -/

theorem forEach_append {α : Type} (f : Server → α → Except Fault Server) (l1 l2 : List α)
    (s : Server) :
    forEach f (l1 ++ l2) s =
      match forEach f l1 s with
      | .ok s1 => forEach f l2 s1
      | .error e => .error e := by
  induction l1 generalizing s with
  | nil => rfl
  | cons a l1 ih =>
    simp only [List.cons_append, forEach]
    cases f s a with
    | error e => rfl
    | ok s1 => exact ih s1

theorem exec_append (h : ClientHeap) (s : Server) (ops1 ops2 : List Op) :
    s.exec h (ops1 ++ ops2) =
      match s.exec h ops1 with
      | .ok s1 => s1.exec h ops2
      | .error e => .error e :=
  forEach_append _ ops1 ops2 s

theorem exec_insertions (h : ClientHeap) (ks : List Nat) (off : Int) (q : Int) (s : Server) :
    s.exec h (ks.map (fun k => Op.insertNewKeyFrame k off q)) =
      .ok (ks.foldl (fun t k => t.InsertNewKeyFrame h k off q) s) := by
  induction ks generalizing s with
  | nil => rfl
  | cons k ks ih => exact ih _

theorem exec_copyKeyFrameMappoints (h : ClientHeap) (ks : List Nat) (s : Server) :
    s.exec h (ks.map Op.copyKeyFrameMappoints) = forEach (Server.CopyKeyFrameMappoints h) ks s
    := by
  induction ks generalizing s with
  | nil => rfl
  | cons k ks ih =>
    simp only [List.map_cons, Server.exec, forEach, Server.step]
    cases s.CopyKeyFrameMappoints h k with
    | error e => rfl
    | ok s1 => exact ih s1

theorem exec_copyKeyFrameConnections (h : ClientHeap) (ks : List Nat) (s : Server) :
    s.exec h (ks.map Op.copyKeyFrameConnections) =
      forEach (Server.CopyKeyFrameConnections h) ks s := by
  induction ks generalizing s with
  | nil => rfl
  | cons k ks ih =>
    simp only [List.map_cons, Server.exec, forEach, Server.step]
    cases s.CopyKeyFrameConnections h k with
    | error e => rfl
    | ok s1 => exact ih s1

/-- The three passes over one sequence are a sequence of merge operations. -/
theorem insertSequence_eq_exec (h : ClientHeap) (s : Server) (ks : List Nat) (off : Int)
    (q : Int) : s.insertSequence h ks off q = s.exec h (sequenceOps ks off q) := by
  unfold sequenceOps Server.insertSequence
  rw [exec_append, exec_append, exec_insertions]
  simp only [exec_copyKeyFrameMappoints]
  cases forEach (Server.CopyKeyFrameMappoints h) ks
      (ks.foldl (fun t k => t.InsertNewKeyFrame h k off q) s) with
  | error e => rfl
  | ok s1 => exact (exec_copyKeyFrameConnections h ks s1).symm

/-- The merge performed by `Run` is a sequence of merge operations. -/
theorem merge_eq_exec (h : ClientHeap) (s : Server) (A B : List Nat) :
    ∃ ops, s.merge h A B = s.exec h ops := by
  unfold Server.merge
  cases hA : s.insertSequence h A 0 SEQA with
  | error e =>
    refine ⟨sequenceOps A 0 SEQA, ?_⟩
    rw [← insertSequence_eq_exec, hA]
  | ok s1 =>
    refine ⟨sequenceOps A 0 SEQA ++
      sequenceOps B (toInt s1.globalMap.GetAllKeyFrames.length) SEQB, ?_⟩
    rw [exec_append, ← insertSequence_eq_exec, hA]
    exact insertSequence_eq_exec h s1 B _ SEQB

/-- When `Run` completes, its outcome is the correlation pass applied to the outcome of
the merge of the key frames of the first two clients. -/
theorem Run_ok (h : ClientHeap) (s s' : Server) (hrun : s.Run h = .ok s') :
    ∃ c0 c1 s1, s.clients[0]? = some c0 ∧ s.clients[1]? = some c1 ∧
      s.seed.merge h c0.mpMap.GetAllKeyFrames c1.mpMap.GetAllKeyFrames = .ok s1 ∧
      s' = s1.FindAprilTagConnections := by
  unfold Server.Run at hrun
  simp only [] at hrun
  have hc : s.seed.clients = s.clients := rfl
  rw [hc] at hrun
  cases h0 : s.clients[0]? with
  | none => rw [h0] at hrun; exact absurd hrun (by simp)
  | some c0 =>
    cases h1 : s.clients[1]? with
    | none => rw [h0, h1] at hrun; exact absurd hrun (by simp)
    | some c1 =>
      rw [h0, h1] at hrun
      simp only [] at hrun
      cases hm : s.seed.merge h c0.mpMap.GetAllKeyFrames c1.mpMap.GetAllKeyFrames with
      | error e => rw [hm] at hrun; exact absurd hrun (by simp)
      | ok s1 =>
        rw [hm] at hrun
        exact ⟨c0, c1, s1, rfl, rfl, hm, (Except.ok.inj hrun).symm⟩

theorem mapPointsWF_injective {s : Server} (hwf : s.MapPointsWF) :
    s.MapPointTranslatorInjective := by
  intro p q gp gq hpq hp hq
  obtain ⟨_, hval, hinj, _⟩ := hwf
  obtain ⟨a, ha, _⟩ := hval p gp hp
  obtain ⟨b, hb, _⟩ := hval q gq hq
  subst ha
  subst hb
  refine ⟨by simp, by simp, ?_⟩
  intro hab
  have hab' : a = b := by simpa using hab
  subst hab'
  exact hpq (hinj p q a hp hq)

/-- The second and third pass satisfy `LinkFrame` in every well-formed state. -/
theorem step_linkFrame (h : ClientHeap) (s s' : Server) (op : Op) (hwf : s.WellFormed)
    (hop : ∀ k off q, op ≠ Op.insertNewKeyFrame k off q)
    (hrun : s.step h op = .ok s') : s.LinkFrame s' := by
  cases op with
  | insertNewKeyFrame k off q => exact absurd rfl (hop k off q)
  | copyKeyFrameMappoints k =>
    obtain ⟨g, hk⟩ := CopyKeyFrameMappoints_ok h s s' k hrun
    obtain ⟨t, ht, pp⟩ := CopyKeyFrameMappoints_spec h s hk hwf.2.1
    have hst : t = s' := Except.ok.inj (ht.symm.trans hrun)
    subst hst
    exact pointPass_linkFrame pp
  | copyKeyFrameConnections k => exact (CopyKeyFrameConnections_linkFrame h s s' k hrun).1

/-- No operation of the merge removes or changes an entry of the map-point translator. -/
theorem step_mapPointDictionary_mono (h : ClientHeap) (s s' : Server) (op : Op)
    (hwf : s.WellFormed) (hrun : s.step h op = .ok s') {p v : Ptr}
    (hp : s.mapPointDictionary p = some v) : s'.mapPointDictionary p = some v := by
  cases op with
  | insertNewKeyFrame k off q =>
    have hs' : s' = s.InsertNewKeyFrame h k off q := (Except.ok.inj hrun).symm
    subst hs'
    rw [insert_mapPointDictionary]
    exact hp
  | copyKeyFrameMappoints k =>
    exact (step_linkFrame h s s' _ hwf (fun _ _ _ => by simp) hrun).2.2.2.2.2.2.1 p v hp
  | copyKeyFrameConnections k =>
    exact (step_linkFrame h s s' _ hwf (fun _ _ _ => by simp) hrun).2.2.2.2.2.2.1 p v hp

/-- An operation of the merge other than the registration of `key` itself leaves the
entry of `key` in the key-frame translator as it is. -/
theorem step_keyFrameDictionary_keep (h : ClientHeap) (s s' : Server) (op : Op)
    (hwf : s.WellFormed) (hrun : s.step h op = .ok s') {key v : Ptr}
    (hkey : s.keyFrameDictionary key = some v)
    (hop : ∀ k off q, op = Op.insertNewKeyFrame k off q → key ≠ some k) :
    s'.keyFrameDictionary key = some v := by
  cases op with
  | insertNewKeyFrame k off q =>
    have hs' : s' = s.InsertNewKeyFrame h k off q := (Except.ok.inj hrun).symm
    subst hs'
    rw [insert_keyFrameDictionary, Dict.assign_of_ne _ _ (hop k off q rfl)]
    exact hkey
  | copyKeyFrameMappoints k =>
    exact nullExtends_of_some
      (step_linkFrame h s s' _ hwf (fun _ _ _ => by simp) hrun).2.2.2.2.2.1 hkey
  | copyKeyFrameConnections k =>
    exact nullExtends_of_some
      (step_linkFrame h s s' _ hwf (fun _ _ _ => by simp) hrun).2.2.2.2.2.1 hkey

theorem exec_cons_ok (h : ClientHeap) (s s' : Server) (op : Op) (ops : List Op)
    (hrun : s.exec h (op :: ops) = .ok s') :
    ∃ s1, s.step h op = .ok s1 ∧ s1.exec h ops = .ok s' := by
  unfold Server.exec forEach at hrun
  cases hstep : s.step h op with
  | error e => rw [hstep] at hrun; exact absurd hrun (by simp)
  | ok s1 =>
    rw [hstep] at hrun
    exact ⟨s1, rfl, hrun⟩

theorem exec_mapPointDictionary_mono (h : ClientHeap) (ops : List Op) (s s' : Server)
    (hwf : s.WellFormed) (hrun : s.exec h ops = .ok s') {p v : Ptr}
    (hp : s.mapPointDictionary p = some v) : s'.mapPointDictionary p = some v := by
  induction ops generalizing s with
  | nil =>
    have hs' : s = s' := Except.ok.inj hrun
    subst hs'
    exact hp
  | cons op ops ih =>
    obtain ⟨s1, h1, h2⟩ := exec_cons_ok h s s' op ops hrun
    exact ih s1 (step_wellFormed h s s1 op hwf h1) h2
      (step_mapPointDictionary_mono h s s1 op hwf h1 hp)

theorem exec_keyFrameDictionary_keep (h : ClientHeap) (ops : List Op) (s s' : Server)
    (hwf : s.WellFormed) (hrun : s.exec h ops = .ok s') {key v : Ptr}
    (hkey : s.keyFrameDictionary key = some v)
    (hops : ∀ k off q, Op.insertNewKeyFrame k off q ∈ ops → key ≠ some k) :
    s'.keyFrameDictionary key = some v := by
  induction ops generalizing s with
  | nil =>
    have hs' : s = s' := Except.ok.inj hrun
    subst hs'
    exact hkey
  | cons op ops ih =>
    obtain ⟨s1, h1, h2⟩ := exec_cons_ok h s s' op ops hrun
    refine ih s1 (step_wellFormed h s s1 op hwf h1) h2
      (step_keyFrameDictionary_keep h s s1 op hwf h1 hkey ?_)
      (fun k off q hmem => hops k off q (List.mem_cons_of_mem _ hmem))
    intro k off q hop
    exact hops k off q (by rw [hop]; exact List.mem_cons_self _ _)

/-! ### The second pass over a sequence -/

theorem slotsOf_ge (target : Ptr) (l : List Ptr) (i j : Nat) (hj : j ∈ slotsOf target l i) :
    i ≤ j := by
  induction l generalizing i with
  | nil => exact absurd hj (by simp [slotsOf])
  | cons x xs ih =>
    unfold slotsOf at hj
    split_ifs at hj
    · rcases List.mem_cons.mp hj with h1 | h1
      · omega
      · exact Nat.le_of_succ_le (ih (i + 1) h1)
    · exact Nat.le_of_succ_le (ih (i + 1) hj)

theorem slotsOf_nodup (target : Ptr) (l : List Ptr) (i : Nat) : (slotsOf target l i).Nodup := by
  induction l generalizing i with
  | nil => simp [slotsOf]
  | cons x xs ih =>
    unfold slotsOf
    split_ifs
    · refine List.nodup_cons.mpr ⟨fun hmem => ?_, ih (i + 1)⟩
      have := slotsOf_ge target xs (i + 1) i hmem
      omega
    · exact ih (i + 1)

/-- The slot indices listed by `slotsOf` are the indices at which the target occurs. -/
theorem mem_slotsOf (target : Ptr) (l : List Ptr) (i j : Nat) :
    j ∈ slotsOf target l i ↔ i ≤ j ∧ l[j - i]? = some target := by
  induction l generalizing i with
  | nil => simp [slotsOf]
  | cons x xs ih =>
    unfold slotsOf
    by_cases hx : x = target
    · rw [if_pos hx, List.mem_cons, ih]
      constructor
      · rintro (h1 | ⟨h1, h2⟩)
        · subst h1; simp [hx]
        · refine ⟨by omega, ?_⟩
          have e : j - i = (j - (i + 1)) + 1 := by omega
          rw [e, List.getElem?_cons_succ]
          exact h2
      · rintro ⟨h1, h2⟩
        by_cases hji : j = i
        · exact Or.inl hji
        · right
          refine ⟨by omega, ?_⟩
          have e : j - i = (j - (i + 1)) + 1 := by omega
          rw [e, List.getElem?_cons_succ] at h2
          exact h2
    · rw [if_neg hx, ih]
      constructor
      · rintro ⟨h1, h2⟩
        refine ⟨by omega, ?_⟩
        have e : j - i = (j - (i + 1)) + 1 := by omega
        rw [e, List.getElem?_cons_succ]
        exact h2
      · rintro ⟨h1, h2⟩
        have hji : j ≠ i := by
          intro e
          subst e
          simp at h2
          exact hx h2
        refine ⟨by omega, ?_⟩
        have e : j - i = (j - (i + 1)) + 1 := by omega
        rw [e, List.getElem?_cons_succ] at h2
        exact h2

/-- The second pass over a list of registered key frames completes and does to the server
what the conclusion says: the key-frame translator is unchanged, every observed point has
a translator entry afterwards, a new entry holds a map point allocated during the pass,
the invariant of the map points is kept, and every map point has received its
observations key frame by key frame, slot by slot. -/
theorem forEach_CopyKeyFrameMappoints_spec (h : ClientHeap) (ks : List Nat) (s : Server)
    (hreg : ∀ k ∈ ks, ∃ g, s.keyFrameDictionary (some k) = some (some g))
    (hseed : s.mapPointDictionary none = some none) :
    ∃ s', forEach (Server.CopyKeyFrameMappoints h) ks s = .ok s' ∧
      s'.keyFrameDictionary = s.keyFrameDictionary ∧ s.LinkFrame s' ∧
      (∀ k ∈ ks, ∀ x ∈ (h.keyFrame k).mvpMapPoints, s'.mapPointDictionary x ≠ none) ∧
      (∀ key, s.mapPointDictionary key = none → s'.mapPointDictionary key ≠ none →
        ∃ a, s'.mapPointDictionary key = some (some a) ∧ s.nMapPoints ≤ a ∧
          a < s'.nMapPoints) ∧
      (s.MapPointsWF → s'.MapPointsWF) ∧
      (s.MapPointsCovered → s'.MapPointsCovered) ∧
      (s.MapPointsWF → ∀ p, s'.observationsOf p =
        s.observationsOf p ++
          ks.flatMap (fun k =>
            (slotsOf (some p) (h.keyFrame k).mvpMapPoints 0).map
              (fun j => (s.keyFrameDictionary.translate (some k), j)))) := by
  induction ks generalizing s with
  | nil =>
    exact ⟨s, rfl, rfl, linkFrame_refl s, fun k hk => absurd hk (by simp),
      fun key hk hk' => absurd hk hk', fun hwf => hwf, fun hc => hc, fun _ p => by simp⟩
  | cons k ks ih =>
    obtain ⟨g, hg⟩ := hreg k (List.mem_cons_self _ _)
    obtain ⟨s1, hs1, pp⟩ := CopyKeyFrameMappoints_spec h s hg hseed
    have hreg1 : ∀ k' ∈ ks, ∃ g', s1.keyFrameDictionary (some k') = some (some g') := by
      intro k' hk'
      rw [pp.keyFrameDictionary]
      exact hreg k' (List.mem_cons_of_mem _ hk')
    obtain ⟨s2, hs2, b1, b2, b3, b4, b5, b7, b6⟩ := ih s1 hreg1 (pp.mono _ _ hseed)
    have hrun : forEach (Server.CopyKeyFrameMappoints h) (k :: ks) s = .ok s2 := by
      simp only [forEach, hs1]
      exact hs2
    refine ⟨s2, hrun, b1.trans pp.keyFrameDictionary,
      linkFrame_trans (pointPass_linkFrame pp) b2, ?_, ?_, fun hwf => b5 (pp.wf hwf),
      fun hc => b7 (pp.covered hc), ?_⟩
    · intro k' hk' x hx
      rcases List.mem_cons.mp hk' with e | hmem
      · subst e
        rw [b2.2.2.2.2.2.2.1 _ _ (pp.entry x hx)]
        simp
      · exact b3 k' hmem x hx
    · intro key hk hk'
      cases hk1 : s1.mapPointDictionary key with
      | none =>
        obtain ⟨a, ha, hle, hlt⟩ := b4 key hk1 hk'
        exact ⟨a, ha, le_trans pp.nMapPoints_le hle, hlt⟩
      | some v =>
        have hne : s1.mapPointDictionary key ≠ none := by rw [hk1]; simp
        obtain ⟨_, a, ha, hle, hlt⟩ := pp.fresh key hk hne
        exact ⟨a, b2.2.2.2.2.2.2.1 _ _ ha, hle, lt_of_lt_of_le hlt b2.2.2.2.2.2.2.2.1⟩
    · intro hwf p
      rw [b6 (pp.wf hwf) p, pp.observations hwf p, pp.keyFrameDictionary,
        List.flatMap_cons, Dict.translate_of_entry hg, List.append_assoc]

theorem seed_withClients_covered (clients : List System) :
    (Server.withClients clients).seed.MapPointsCovered := by
  intro a ha
  exact absurd ha (Nat.not_lt_zero a)

theorem step_covered (h : ClientHeap) (s s' : Server) (op : Op) (hwf : s.WellFormed)
    (hc : s.MapPointsCovered) (hrun : s.step h op = .ok s') : s'.MapPointsCovered := by
  cases op with
  | insertNewKeyFrame k off q =>
    have hs' : s' = s.InsertNewKeyFrame h k off q := (Except.ok.inj hrun).symm
    subst hs'
    unfold Server.MapPointsCovered
    rw [insert_mapPointDictionary, (insert_mapPoints h s k off q).2.1]
    exact hc
  | copyKeyFrameMappoints k =>
    obtain ⟨g, hk⟩ := CopyKeyFrameMappoints_ok h s s' k hrun
    obtain ⟨t, ht, pp⟩ := CopyKeyFrameMappoints_spec h s hk hwf.2.1
    have hst : t = s' := Except.ok.inj (ht.symm.trans hrun)
    subst hst
    exact pp.covered hc
  | copyKeyFrameConnections k =>
    obtain ⟨_, e1, _, e3, _⟩ := CopyKeyFrameConnections_linkFrame h s s' k hrun
    unfold Server.MapPointsCovered
    rw [e1, e3]
    exact hc

theorem exec_covered (h : ClientHeap) (ops : List Op) (s s' : Server) (hwf : s.WellFormed)
    (hc : s.MapPointsCovered) (hrun : s.exec h ops = .ok s') : s'.MapPointsCovered := by
  induction ops generalizing s with
  | nil =>
    have hs' : s = s' := Except.ok.inj hrun
    subst hs'
    exact hc
  | cons op ops ih =>
    obtain ⟨s1, h1, h2⟩ := exec_cons_ok h s s' op ops hrun
    exact ih s1 (step_wellFormed h s s1 op hwf h1) (step_covered h s s1 op hwf hc h1) h2

/-- The observations that a map point receives from a list of key frames with pairwise
distinct global key frames are pairwise distinct. -/
theorem observations_nodup (tr : Nat → Ptr) (slots : Nat → List Ptr) (target : Ptr)
    (ks : List Nat) (hks : ks.Nodup)
    (hinj : ∀ k1 ∈ ks, ∀ k2 ∈ ks, tr k1 = tr k2 → k1 = k2) :
    (ks.flatMap (fun k => (slotsOf target (slots k) 0).map (fun j => (tr k, j)))).Nodup := by
  rw [List.nodup_flatMap]
  constructor
  · intro k _
    refine List.Nodup.map ?_ (slotsOf_nodup target (slots k) 0)
    intro j1 j2 e
    exact (Prod.mk.inj e).2
  · refine List.Pairwise.imp_of_mem ?_ hks
    intro k1 k2 h1 h2 hne
    intro e he1 he2
    obtain ⟨j1, _, e1⟩ := List.mem_map.mp he1
    obtain ⟨j2, _, e2⟩ := List.mem_map.mp he2
    rw [← e2] at e1
    exact hne (hinj k1 h1 k2 h2 (Prod.mk.inj e1).1)

/-! ### The three passes over a sequence -/

/-- The offset 0 leaves an id that fits into 64 bits as it is. -/
theorem addOffset_zero (n : Nat) : addOffset n 0 = n % 2 ^ 64 := by
  unfold addOffset
  have h64 : ((2 ^ 64 : Nat) : Int) = 18446744073709551616 := by norm_num
  have h64' : (2 : Nat) ^ 64 = 18446744073709551616 := by norm_num
  rw [h64, h64']
  omega

/-- A count below `2^31` is not changed by the conversion to `int`. -/
theorem toInt_of_lt (c : Nat) (hc : c < 2 ^ 31) : toInt c = (c : Int) := by
  unfold toInt
  have h31 : ((2 ^ 31 : Nat) : Int) = 2147483648 := by norm_num
  have h32 : ((2 ^ 32 : Nat) : Int) = 4294967296 := by norm_num
  have h31' : (2 : Nat) ^ 31 = 2147483648 := by norm_num
  rw [h31, h32]
  rw [h31'] at hc
  omega

/-- Without wrap-around the id is the sum. -/
theorem addOffset_of_fits (n c : Nat) (hc : c < 2 ^ 31) (hfit : n + c < 2 ^ 64) :
    addOffset n (toInt c) = n + c := by
  rw [toInt_of_lt c hc]
  unfold addOffset
  have h64 : ((2 ^ 64 : Nat) : Int) = 18446744073709551616 := by norm_num
  have h64' : (2 : Nat) ^ 64 = 18446744073709551616 := by norm_num
  rw [h64]
  rw [h64'] at hfit
  omega


theorem core_mnId {k1 k2 : KeyFrame} (hc : k1.core = k2.core) : k1.mnId = k2.mnId :=
  congrArg (fun c => c.1) hc

theorem core_sequence {k1 k2 : KeyFrame} (hc : k1.core = k2.core) :
    k1.sequence = k2.sequence :=
  congrArg (fun c => c.2.2.1) hc

theorem core_mTimeStamp {k1 k2 : KeyFrame} (hc : k1.core = k2.core) :
    k1.mTimeStamp = k2.mTimeStamp :=
  congrArg (fun c => c.2.1) hc

/-- The first pass over a list of key frames: every key frame of the list is registered
with a global key frame allocated during the pass, which carries its id plus the offset,
the sequence tag and its time stamp; entries of other keys and key frames allocated
before are left alone. -/
theorem foldl_insert_spec (h : ClientHeap) (ks : List Nat) (off : Int) (q : Int) (s : Server) :
    (ks.foldl (fun t k => t.InsertNewKeyFrame h k off q) s).nKeyFrames
      = s.nKeyFrames + ks.length ∧
    (∀ x, x < s.nKeyFrames →
      (ks.foldl (fun t k => t.InsertNewKeyFrame h k off q) s).keyFrames x = s.keyFrames x) ∧
    (∀ key, (∀ k ∈ ks, key ≠ some k) →
      (ks.foldl (fun t k => t.InsertNewKeyFrame h k off q) s).keyFrameDictionary key
        = s.keyFrameDictionary key) ∧
    (∀ k ∈ ks, ∃ a, s.nKeyFrames ≤ a ∧
      (ks.foldl (fun t k => t.InsertNewKeyFrame h k off q) s).keyFrameDictionary (some k)
        = some (some a) ∧
      ((ks.foldl (fun t k => t.InsertNewKeyFrame h k off q) s).keyFrames a).mnId
        = addOffset (h.keyFrame k).mnId off ∧
      ((ks.foldl (fun t k => t.InsertNewKeyFrame h k off q) s).keyFrames a).sequence = q ∧
      ((ks.foldl (fun t k => t.InsertNewKeyFrame h k off q) s).keyFrames a).mTimeStamp
        = (h.keyFrame k).mTimeStamp) := by
  induction ks generalizing s with
  | nil =>
    exact ⟨rfl, fun _ _ => rfl, fun _ _ => rfl, fun k hk => absurd hk (by simp)⟩
  | cons k ks ih =>
    obtain ⟨a1, a2, a3, a4⟩ := ih (s.InsertNewKeyFrame h k off q)
    simp only [List.foldl_cons]
    refine ⟨?_, ?_, ?_, ?_⟩
    · rw [a1, insert_nKeyFrames, List.length_cons]
      omega
    · intro x hx
      rw [a2 x (by rw [insert_nKeyFrames]; omega), insert_keyFrames]
      simp only [if_neg (show x ≠ s.nKeyFrames by omega)]
    · intro key hkey
      rw [a3 key (fun k' hk' => hkey k' (List.mem_cons_of_mem _ hk')),
        insert_keyFrameDictionary,
        Dict.assign_of_ne _ _ (hkey k (List.mem_cons_self _ _))]
    · intro k' hk'
      by_cases hmem : k' ∈ ks
      · obtain ⟨a, b1, b2, b3, b4, b5⟩ := a4 k' hmem
        rw [insert_nKeyFrames] at b1
        exact ⟨a, by omega, b2, b3, b4, b5⟩
      · have hkk : k' = k := by
          rcases List.mem_cons.mp hk' with e | e
          · exact e
          · exact absurd e hmem
        subst hkk
        refine ⟨s.nKeyFrames, le_refl _, ?_, ?_, ?_, ?_⟩
        · rw [a3 (some k') (fun k2 hk2 e => hmem (by rw [Option.some.inj e]; exact hk2)),
            insert_keyFrameDictionary, Dict.assign_self]
        · rw [a2 _ (by rw [insert_nKeyFrames]; omega), insert_keyFrames]
          simp only [if_true]
          rfl
        · rw [a2 _ (by rw [insert_nKeyFrames]; omega), insert_keyFrames]
          simp only [if_true]
        · rw [a2 _ (by rw [insert_nKeyFrames]; omega), insert_keyFrames]
          simp only [if_true]
          rfl

/-- The third pass over a list of registered key frames completes; it satisfies
`LinkFrame` and leaves the map points alone. -/
theorem forEach_CopyKeyFrameConnections_spec (h : ClientHeap) (ks : List Nat) (s : Server)
    (hreg : ∀ k ∈ ks, ∃ g, s.keyFrameDictionary (some k) = some (some g)) :
    ∃ s', forEach (Server.CopyKeyFrameConnections h) ks s = .ok s' ∧ s.LinkFrame s' := by
  induction ks generalizing s with
  | nil => exact ⟨s, rfl, linkFrame_refl s⟩
  | cons k ks ih =>
    obtain ⟨g, hg⟩ := hreg k (List.mem_cons_self _ _)
    have hs1 := CopyKeyFrameConnections_of_registered h s hg
    have hf := (CopyKeyFrameConnections_linkFrame h s _ k hs1).1
    obtain ⟨s2, hs2, hf2⟩ := ih _ (fun k' hk' => by
      obtain ⟨g', hg'⟩ := hreg k' (List.mem_cons_of_mem _ hk')
      exact ⟨g', nullExtends_of_some hf.2.2.2.2.2.1 hg'⟩)
    refine ⟨s2, ?_, linkFrame_trans hf hf2⟩
    simp only [forEach, hs1]
    exact hs2

/-- The first pass allocates the global copies in the order of the list: the copy of the
key frame at position `i` is at address `nKeyFrames + i` and carries its id plus the
offset. -/
theorem foldl_insert_at (h : ClientHeap) (ks : List Nat) (off : Int) (q : Int) (s : Server)
    (i k : Nat) (hik : ks[i]? = some k) :
    ((ks.foldl (fun t k => t.InsertNewKeyFrame h k off q) s).keyFrames
      (s.nKeyFrames + i)).mnId = addOffset (h.keyFrame k).mnId off := by
  induction ks generalizing s i with
  | nil => exact absurd hik (by simp)
  | cons k0 ks ih =>
    simp only [List.foldl_cons]
    cases i with
    | zero =>
      have hk : k0 = k := by simpa using hik
      subst hk
      rw [(foldl_insert_spec h ks off q (s.InsertNewKeyFrame h k0 off q)).2.1 _
        (by rw [insert_nKeyFrames]; omega), insert_keyFrames]
      simp [KeyFrame.copyIntrinsic]
    | succ j =>
      have hjk : ks[j]? = some k := by simpa using hik
      have := ih (s.InsertNewKeyFrame h k0 off q) j hjk
      rw [insert_nKeyFrames] at this
      rw [show s.nKeyFrames + (j + 1) = s.nKeyFrames + 1 + j by omega]
      exact this

/-- The three passes over one sequence, started in a well-formed state, complete.  Every
key frame of the sequence ends up registered with a global key frame that carries its id
plus the offset and the sequence tag; a key frame outside the sequence keeps its global
key frame and the id of that. -/
theorem insertSequence_spec (h : ClientHeap) (ks : List Nat) (off : Int) (q : Int)
    (s : Server) (hwf : s.WellFormed) :
    ∃ s', s.insertSequence h ks off q = .ok s' ∧ s'.WellFormed ∧
      s'.nKeyFrames = s.nKeyFrames + ks.length ∧
      (∀ k ∈ ks, ∃ a, s'.keyFrameDictionary (some k) = some (some a) ∧
        (s'.keyFrames a).mnId = addOffset (h.keyFrame k).mnId off ∧
        (s'.keyFrames a).sequence = q ∧
        (s'.keyFrames a).mTimeStamp = (h.keyFrame k).mTimeStamp) ∧
      (∀ k a, k ∉ ks → s.keyFrameDictionary (some k) = some (some a) →
        s'.keyFrameDictionary (some k) = some (some a) ∧
          (s'.keyFrames a).core = (s.keyFrames a).core) ∧
      (∀ i k, ks[i]? = some k →
        (s'.keyFrames (s.nKeyFrames + i)).mnId = addOffset (h.keyFrame k).mnId off) ∧
      (∀ x, x < s.nKeyFrames → (s'.keyFrames x).core = (s.keyFrames x).core) := by
  obtain ⟨a1, a2, a3, a4⟩ := foldl_insert_spec h ks off q s
  have hwf1 : (ks.foldl (fun t k => t.InsertNewKeyFrame h k off q) s).WellFormed :=
    exec_wellFormed h _ s _ hwf (exec_insertions h ks off q s)
  have hreg1 : ∀ k ∈ ks, ∃ g,
      (ks.foldl (fun t k => t.InsertNewKeyFrame h k off q) s).keyFrameDictionary (some k)
        = some (some g) := fun k hk => by
    obtain ⟨a, _, b2, _⟩ := a4 k hk
    exact ⟨a, b2⟩
  obtain ⟨s2, hs2, c1, c2, _⟩ := forEach_CopyKeyFrameMappoints_spec h ks _ hreg1 hwf1.2.1
  have hreg2 : ∀ k ∈ ks, ∃ g, s2.keyFrameDictionary (some k) = some (some g) := by
    intro k hk
    rw [c1]
    exact hreg1 k hk
  obtain ⟨s3, hs3, d1⟩ := forEach_CopyKeyFrameConnections_spec h ks s2 hreg2
  have hrun : s.insertSequence h ks off q = .ok s3 := by
    unfold Server.insertSequence
    simp only [hs2]
    exact hs3
  have hf := linkFrame_trans c2 d1
  have hwf3 : s3.WellFormed := by
    rw [insertSequence_eq_exec] at hrun
    exact exec_wellFormed h _ s s3 hwf hrun
  refine ⟨s3, hrun, hwf3, by rw [hf.2.2.2.1, a1], ?_, ?_, ?_, ?_⟩
  rotate_left 2
  · intro i k hik
    rw [core_mnId (hf.2.2.2.2.2.2.2.2 _)]
    exact foldl_insert_at h ks off q s i k hik
  · intro x hx
    rw [hf.2.2.2.2.2.2.2.2 x, a2 x hx]
  · intro k hk
    obtain ⟨a, _, b2, b3, b4, b5⟩ := a4 k hk
    refine ⟨a, nullExtends_of_some hf.2.2.2.2.2.1 b2, ?_, ?_, ?_⟩
    · rw [core_mnId (hf.2.2.2.2.2.2.2.2 a), b3]
    · rw [core_sequence (hf.2.2.2.2.2.2.2.2 a), b4]
    · rw [core_mTimeStamp (hf.2.2.2.2.2.2.2.2 a), b5]
  · intro k a hk hka
    have h1 : (ks.foldl (fun t k => t.InsertNewKeyFrame h k off q) s).keyFrameDictionary (some k)
        = some (some a) := by
      rw [a3 (some k) (fun k' hk' e => hk (by rw [Option.some.inj e]; exact hk'))]
      exact hka
    refine ⟨nullExtends_of_some hf.2.2.2.2.2.1 h1, ?_⟩
    rw [hf.2.2.2.2.2.2.2.2 a, a2 a (hwf.1.2.1 k a hka)]

theorem sameUpToCorrelation_mnId {s t : Server} (h : s.SameUpToCorrelation t) (g : Nat) :
    (t.keyFrames g).mnId = (s.keyFrames g).mnId := by
  have h1 := congrArg KeyFrame.mnId (h.2.2.2.2.2.2.2.2.2 g)
  simpa [KeyFrame.withoutCorrelation] using h1

/-! ### The frame of the correlation pass -/

theorem keyFrame_eq_of_withoutCorrelation {k1 k2 : KeyFrame}
    (hw : k1.withoutCorrelation = k2.withoutCorrelation)
    (ha : k1.aprilTagKeyFrame = k2.aprilTagKeyFrame) : k1 = k2 := by
  cases k1
  cases k2
  simp only [KeyFrame.withoutCorrelation, KeyFrame.mk.injEq] at hw
  simp only [] at ha
  simp only [KeyFrame.mk.injEq]
  tauto

theorem accepted_of_not_detected (s : Server) (g : Nat)
    (hd : (s.keyFrames g).detectedAprilTag = false) : s.accepted g = none := by
  unfold Server.accepted
  simp [hd]

/-! ### The translators only grow -/

/-- The body of the loop of `CopyKeyFrameMappoints`, in any state: the key-frame translator
is not touched and no entry of the map-point translator is removed or changed. -/
theorem copyMapPoint_dictionaries (h : ClientHeap) (g : Nat) (s s' : Server) (i : Nat)
    (point : Ptr) (hrun : s.copyMapPoint h g i point = .ok s') :
    s'.keyFrameDictionary = s.keyFrameDictionary ∧
      ∀ p v, s.mapPointDictionary p = some v → s'.mapPointDictionary p = some v := by
  cases hp : s.mapPointDictionary point with
  | some gp =>
    rw [copyMapPoint_of_found h g s i hp] at hrun
    have hs' := (Except.ok.inj hrun).symm
    subst hs'
    exact ⟨rfl, fun _ _ hv => hv⟩
  | none =>
    cases point with
    | none =>
      rw [copyMapPoint_of_unseeded h g s i hp] at hrun
      exact absurd hrun (by simp)
    | some p0 =>
      rw [copyMapPoint_of_new h g s i hp] at hrun
      have hs' := (Except.ok.inj hrun).symm
      subst hs'
      refine ⟨rfl, fun p v hv => ?_⟩
      have hne : p ≠ some p0 := by
        intro hpp
        rw [hpp, hp] at hv
        exact absurd hv (by simp)
      simp only [Dict.assign_of_ne _ _ hne]
      exact hv

/-- The loop of `CopyKeyFrameMappoints`, in any state. -/
theorem copyMapPoints_dictionaries (h : ClientHeap) (g : Nat) (points : List Ptr) (i : Nat)
    (s s' : Server) (hrun : s.copyMapPoints h g points i = .ok s') :
    s'.keyFrameDictionary = s.keyFrameDictionary ∧
      ∀ p v, s.mapPointDictionary p = some v → s'.mapPointDictionary p = some v := by
  induction points generalizing s i with
  | nil =>
    have hs' : s = s' := Except.ok.inj hrun
    subst hs'
    exact ⟨rfl, fun _ _ hv => hv⟩
  | cons point rest ih =>
    unfold Server.copyMapPoints at hrun
    cases h1 : s.copyMapPoint h g i point with
    | error e => rw [h1] at hrun; exact absurd hrun (by simp)
    | ok s1 =>
      rw [h1] at hrun
      obtain ⟨a1, a2⟩ := copyMapPoint_dictionaries h g s s1 i point h1
      obtain ⟨b1, b2⟩ := ih (i + 1) s1 hrun
      exact ⟨b1.trans a1, fun p v hv => b2 p v (a2 p v hv)⟩

/-- In any state, `CopyKeyFrameMappoints` adds at most null entries to the key-frame
translator and removes or changes no entry of the map-point translator. -/
theorem CopyKeyFrameMappoints_dictionaries (h : ClientHeap) (s s' : Server) (k : Nat)
    (hrun : s.CopyKeyFrameMappoints h k = .ok s') :
    s.keyFrameDictionary.NullExtends s'.keyFrameDictionary ∧
      ∀ p v, s.mapPointDictionary p = some v → s'.mapPointDictionary p = some v := by
  obtain ⟨g, hk⟩ := CopyKeyFrameMappoints_ok h s s' k hrun
  unfold Server.CopyKeyFrameMappoints at hrun
  simp only [Dict.index_of_some hk] at hrun
  obtain ⟨a1, a2⟩ := copyMapPoints_dictionaries h g _ 0 _ s' hrun
  refine ⟨?_, fun p v hv => a2 p v hv⟩
  rw [a1]
  exact nullExtends_refl _

/-- In any state, an operation of the merge that completes keeps every key of the two
translators, keeps the image of every registered map point, and changes the image of a
registered key frame only when the operation registers that key frame anew. -/
theorem step_dictionaries (h : ClientHeap) (s s' : Server) (op : Op)
    (hrun : s.step h op = .ok s') :
    (∀ key v, s.keyFrameDictionary key = some v →
        (∀ k off q, op = Op.insertNewKeyFrame k off q → key ≠ some k) →
        s'.keyFrameDictionary key = some v) ∧
      (∀ key, s.keyFrameDictionary key ≠ none → s'.keyFrameDictionary key ≠ none) ∧
      (∀ p v, s.mapPointDictionary p = some v → s'.mapPointDictionary p = some v) := by
  cases op with
  | insertNewKeyFrame k off q =>
    have hs' : s' = s.InsertNewKeyFrame h k off q := (Except.ok.inj hrun).symm
    subst hs'
    refine ⟨fun key v hv hop => ?_, fun key hkey => ?_, fun p v hv => ?_⟩
    · rw [insert_keyFrameDictionary, Dict.assign_of_ne _ _ (hop k off q rfl)]
      exact hv
    · rw [insert_keyFrameDictionary]
      by_cases hk : key = some k
      · rw [hk, Dict.assign_self]
        simp
      · rw [Dict.assign_of_ne _ _ hk]
        exact hkey
    · rw [insert_mapPointDictionary]
      exact hv
  | copyKeyFrameMappoints k =>
    obtain ⟨a1, a2⟩ := CopyKeyFrameMappoints_dictionaries h s s' k hrun
    refine ⟨fun key v hv _ => nullExtends_of_some a1 hv, fun key hkey => ?_, a2⟩
    cases hv : s.keyFrameDictionary key with
    | none => exact absurd hv hkey
    | some v => rw [nullExtends_of_some a1 hv]; simp
  | copyKeyFrameConnections k =>
    obtain ⟨a1, a2, _⟩ := CopyKeyFrameConnections_linkFrame h s s' k hrun
    refine ⟨fun key v hv _ => nullExtends_of_some a1.2.2.2.2.2.1 hv, fun key hkey => ?_,
      fun p v hv => by rw [a2]; exact hv⟩
    cases hv : s.keyFrameDictionary key with
    | none => exact absurd hv hkey
    | some v => rw [nullExtends_of_some a1.2.2.2.2.2.1 hv]; simp

theorem translatorGrows_of_step (h : ClientHeap) (s s' : Server) (op : Op)
    (hrun : s.step h op = .ok s') : s.TranslatorGrows s' := by
  obtain ⟨_, a2, a3⟩ := step_dictionaries h s s' op hrun
  refine ⟨a2, fun p hp => ?_, a3⟩
  cases hv : s.mapPointDictionary p with
  | none => exact absurd hv hp
  | some v => rw [a3 p v hv]; simp

theorem translatorGrows_refl (s : Server) : s.TranslatorGrows s :=
  ⟨fun _ hk => hk, fun _ hp => hp, fun _ _ hv => hv⟩

theorem translatorGrows_trans {s t u : Server} (h1 : s.TranslatorGrows t)
    (h2 : t.TranslatorGrows u) : s.TranslatorGrows u :=
  ⟨fun k hk => h2.1 k (h1.1 k hk), fun p hp => h2.2.1 p (h1.2.1 p hp),
    fun p v hv => h2.2.2 p v (h1.2.2 p v hv)⟩

/-- In any state, a sequence of operations of the merge that completes only grows the
translators, and keeps the image of every key frame that it does not register anew. -/
theorem exec_dictionaries (h : ClientHeap) (ops : List Op) (s s' : Server)
    (hrun : s.exec h ops = .ok s') :
    s.TranslatorGrows s' ∧
      ∀ key v, s.keyFrameDictionary key = some v →
        (∀ k off q, Op.insertNewKeyFrame k off q ∈ ops → key ≠ some k) →
        s'.keyFrameDictionary key = some v := by
  induction ops generalizing s with
  | nil =>
    have hs' : s = s' := Except.ok.inj hrun
    subst hs'
    exact ⟨translatorGrows_refl _, fun _ _ hv _ => hv⟩
  | cons op ops ih =>
    obtain ⟨s1, h1, h2⟩ := exec_cons_ok h s s' op ops hrun
    obtain ⟨b1, b2⟩ := ih s1 h2
    refine ⟨translatorGrows_trans (translatorGrows_of_step h s s1 op h1) b1,
      fun key v hv hops => ?_⟩
    refine b2 key v ((step_dictionaries h s s1 op h1).1 key v hv ?_)
      (fun k off q hmem => hops k off q (List.mem_cons_of_mem _ hmem))
    intro k off q hop
    exact hops k off q (by rw [hop]; exact List.mem_cons_self _ _)

/-! ### The faults of the merge -/

theorem copyMapPoint_fault (h : ClientHeap) (g : Nat) (s : Server) (i : Nat) (point : Ptr)
    (e : Fault) (hrun : s.copyMapPoint h g i point = .error e) : e = .nullDereference := by
  cases hp : s.mapPointDictionary point with
  | some gp =>
    rw [copyMapPoint_of_found h g s i hp] at hrun
    exact absurd hrun (by simp)
  | none =>
    cases point with
    | none =>
      rw [copyMapPoint_of_unseeded h g s i hp] at hrun
      exact (Except.error.inj hrun).symm
    | some p0 =>
      rw [copyMapPoint_of_new h g s i hp] at hrun
      exact absurd hrun (by simp)

theorem copyMapPoints_fault (h : ClientHeap) (g : Nat) (points : List Ptr) (i : Nat)
    (s : Server) (e : Fault) (hrun : s.copyMapPoints h g points i = .error e) :
    e = .nullDereference := by
  induction points generalizing s i with
  | nil => exact absurd hrun (by simp [Server.copyMapPoints])
  | cons point rest ih =>
    unfold Server.copyMapPoints at hrun
    cases h1 : s.copyMapPoint h g i point with
    | error e1 =>
      rw [h1] at hrun
      have he : e1 = e := Except.error.inj hrun
      rw [← he]
      exact copyMapPoint_fault h g s i point e1 h1
    | ok s1 =>
      rw [h1] at hrun
      exact ih (i + 1) s1 hrun

theorem CopyKeyFrameMappoints_fault (h : ClientHeap) (s : Server) (k : Nat) (e : Fault)
    (hrun : s.CopyKeyFrameMappoints h k = .error e) : e = .nullDereference := by
  unfold Server.CopyKeyFrameMappoints at hrun
  simp only [] at hrun
  cases hr : (s.keyFrameDictionary.index (some k)).1 with
  | none =>
    rw [hr] at hrun
    exact (Except.error.inj hrun).symm
  | some g =>
    rw [hr] at hrun
    exact copyMapPoints_fault h g _ 0 _ e hrun

theorem CopyKeyFrameConnections_fault (h : ClientHeap) (s : Server) (k : Nat) (e : Fault)
    (hrun : s.CopyKeyFrameConnections h k = .error e) : e = .nullDereference := by
  unfold Server.CopyKeyFrameConnections at hrun
  simp only [] at hrun
  cases hr : (s.keyFrameDictionary.index (some k)).1 with
  | none =>
    rw [hr] at hrun
    exact (Except.error.inj hrun).symm
  | some g =>
    rw [hr] at hrun
    exact absurd hrun (by simp)

theorem forEach_fault {α : Type} (f : Server → α → Except Fault Server)
    (hf : ∀ s x e, f s x = .error e → e = .nullDereference) (l : List α) (s : Server)
    (e : Fault) (hrun : forEach f l s = .error e) : e = .nullDereference := by
  induction l generalizing s with
  | nil => exact absurd hrun (by simp [forEach])
  | cons x xs ih =>
    unfold forEach at hrun
    cases h1 : f s x with
    | error e1 =>
      rw [h1] at hrun
      have he : e1 = e := Except.error.inj hrun
      rw [← he]
      exact hf s x e1 h1
    | ok s1 =>
      rw [h1] at hrun
      exact ih s1 hrun

theorem insertSequence_fault (h : ClientHeap) (s : Server) (ks : List Nat) (off : Int)
    (q : Int) (e : Fault) (hrun : s.insertSequence h ks off q = .error e) :
    e = .nullDereference := by
  unfold Server.insertSequence at hrun
  simp only [] at hrun
  cases h1 : forEach (Server.CopyKeyFrameMappoints h) ks
      (ks.foldl (fun t k => t.InsertNewKeyFrame h k off q) s) with
  | error e1 =>
    rw [h1] at hrun
    have he : e1 = e := Except.error.inj hrun
    rw [← he]
    exact forEach_fault _ (fun s x e => CopyKeyFrameMappoints_fault h s x e) ks _ e1 h1
  | ok s2 =>
    rw [h1] at hrun
    exact forEach_fault _ (fun s x e => CopyKeyFrameConnections_fault h s x e) ks _ e hrun

theorem merge_fault (h : ClientHeap) (s : Server) (A B : List Nat) (e : Fault)
    (hrun : s.merge h A B = .error e) : e = .nullDereference := by
  unfold Server.merge at hrun
  cases h1 : s.insertSequence h A 0 SEQA with
  | error e1 =>
    rw [h1] at hrun
    have he : e1 = e := Except.error.inj hrun
    rw [← he]
    exact insertSequence_fault h s A 0 SEQA e1 h1
  | ok s1 =>
    rw [h1] at hrun
    exact insertSequence_fault h s1 B _ SEQB e hrun

/-! ### The search of the vocabulary suffix -/

theorem startsWith_iff (s str : List Char) :
    startsWith s str = true ↔ ∃ r, s = str ++ r := by
  induction str generalizing s with
  | nil => simp [startsWith]
  | cons b str ih =>
    cases s with
    | nil => simp [startsWith]
    | cons a s =>
      simp only [startsWith, Bool.and_eq_true, beq_iff_eq, ih, List.cons_append,
        List.cons.injEq]
      constructor
      · rintro ⟨hab, r, hr⟩
        exact ⟨r, hab, hr⟩
      · rintro ⟨r, hab, hr⟩
        exact ⟨hab, r, hr⟩

/-- The search finds something exactly when `str` occurs at a position from `pos` on. -/
theorem find_ne_npos_iff (s str : List Char) (pos : Nat) (hlen : s.length < 2 ^ 64)
    (hstr : 0 < str.length) :
    find s str pos ≠ npos ↔
      ∃ x, pos ≤ x ∧ x + str.length ≤ s.length ∧ startsWith (s.drop x) str = true := by
  unfold find
  cases hf : (List.range (s.length + 1)).find?
      (fun xpos =>
        decide (pos ≤ xpos) && decide (xpos + str.length ≤ s.length) &&
          startsWith (s.drop xpos) str) with
  | none =>
    simp only [ne_eq, not_true_eq_false, false_iff, not_exists]
    intro x hx
    have hall := List.find?_eq_none.mp hf x (List.mem_range.mpr (by omega))
    apply hall
    simp [hx.1, hx.2.1, hx.2.2]
  | some x =>
    have hp := List.find?_some hf
    simp only [Bool.and_eq_true, decide_eq_true_eq] at hp
    constructor
    · intro _
      exact ⟨x, hp.1.1, hp.1.2, hp.2⟩
    · intro _
      simp only [npos]
      omega

/-- The constructor calls the text loader exactly for the paths that end with the
suffix. -/
theorem vocabularyLoader_text_iff (strVocFile : List Char)
    (hlen : strVocFile.length < 2 ^ 64) :
    Server.vocabularyLoader strVocFile = .loadFromTextFile ↔
      ∃ stem, strVocFile = stem ++ txt_suffix := by
  have h4 : txt_suffix.length = 4 := rfl
  have hfind := find_ne_npos_iff strVocFile txt_suffix
    ((strVocFile.length + 2 ^ 64 - txt_suffix.length) % 2 ^ 64) hlen (by decide)
  have htext : Server.vocabularyLoader strVocFile = .loadFromTextFile ↔
      find strVocFile txt_suffix
        ((strVocFile.length + 2 ^ 64 - txt_suffix.length) % 2 ^ 64) ≠ npos := by
    unfold Server.vocabularyLoader
    by_cases hc : find strVocFile txt_suffix
        ((strVocFile.length + 2 ^ 64 - txt_suffix.length) % 2 ^ 64) ≠ npos
    · rw [if_pos hc]
      exact ⟨fun _ => hc, fun _ => rfl⟩
    · rw [if_neg hc]
      exact ⟨fun hl => absurd hl (by decide), fun hl => absurd hl hc⟩
  rw [htext, hfind, h4]
  have h64 : (2 : Nat) ^ 64 = 18446744073709551616 := by norm_num
  rw [h64] at hlen ⊢
  constructor
  · rintro ⟨x, hx1, hx2, hx3⟩
    obtain ⟨r, hr⟩ := (startsWith_iff _ _).mp hx3
    have hl := congrArg List.length hr
    simp only [List.length_drop, List.length_append, h4] at hl
    have hr0 : r = [] := List.length_eq_zero.mp (by omega)
    subst hr0
    refine ⟨strVocFile.take x, ?_⟩
    rw [List.append_nil] at hr
    rw [← hr, List.take_append_drop]
  · rintro ⟨stem, hstem⟩
    refine ⟨stem.length, ?_, ?_, ?_⟩
    · rw [hstem, List.length_append, h4]
      omega
    · rw [hstem, List.length_append, h4]
    · rw [hstem, List.drop_left]
      exact (startsWith_iff _ _).mpr ⟨[], by simp⟩

/-! ### The time indices -/

theorem timeAssign_subset (m : List (ℚ × Nat)) (t : ℚ) (v : Nat) (e : ℚ × Nat)
    (he : e ∈ timeAssign m t v) : e = (t, v) ∨ e ∈ m := by
  induction m with
  | nil =>
    simp only [timeAssign, List.mem_singleton] at he
    exact Or.inl he
  | cons a rest ih =>
    obtain ⟨t0, v0⟩ := a
    unfold timeAssign at he
    by_cases h1 : t < t0
    · rw [if_pos h1] at he
      rcases List.mem_cons.mp he with h | h
      · exact Or.inl h
      · exact Or.inr h
    · rw [if_neg h1] at he
      by_cases h2 : t = t0
      · rw [if_pos h2] at he
        rcases List.mem_cons.mp he with h | h
        · exact Or.inl h
        · exact Or.inr (List.mem_cons_of_mem _ h)
      · rw [if_neg h2] at he
        rcases List.mem_cons.mp he with h | h
        · exact Or.inr (by rw [h]; exact List.mem_cons_self _ _)
        · rcases ih h with h3 | h3
          · exact Or.inl h3
          · exact Or.inr (List.mem_cons_of_mem _ h3)

/-- The assignment `m[t] = v` keeps the keys of the index sorted. -/
theorem timeAssign_sorted (m : List (ℚ × Nat)) (t : ℚ) (v : Nat) (hs : TimeSorted m) :
    TimeSorted (timeAssign m t v) := by
  induction m with
  | nil => simp [timeAssign, TimeSorted]
  | cons a rest ih =>
    obtain ⟨t0, v0⟩ := a
    unfold TimeSorted at hs ih ⊢
    rw [List.pairwise_cons] at hs
    unfold timeAssign
    by_cases h1 : t < t0
    · rw [if_pos h1, List.pairwise_cons, List.pairwise_cons]
      refine ⟨fun e he => ?_, hs⟩
      rcases List.mem_cons.mp he with h | h
      · rw [h]; exact h1
      · exact lt_trans h1 (hs.1 e h)
    · rw [if_neg h1]
      by_cases h2 : t = t0
      · rw [if_pos h2, List.pairwise_cons]
        refine ⟨fun e he => ?_, hs.2⟩
        rw [h2]
        exact hs.1 e he
      · rw [if_neg h2, List.pairwise_cons]
        refine ⟨fun e he => ?_, ih hs.2⟩
        rcases timeAssign_subset rest t v e he with h | h
        · rw [h]
          exact lt_of_le_of_ne (not_lt.mp h1) (fun h3 => h2 h3.symm)
        · exact hs.1 e h

/-- The entries of the index after the assignment `m[t] = v`: the new entry, and the old
entries under the other keys. -/
theorem mem_timeAssign (m : List (ℚ × Nat)) (t : ℚ) (v : Nat) (hs : TimeSorted m)
    (e : ℚ × Nat) : e ∈ timeAssign m t v ↔ e = (t, v) ∨ (e ∈ m ∧ e.1 ≠ t) := by
  induction m with
  | nil => simp [timeAssign]
  | cons a rest ih =>
    obtain ⟨t0, v0⟩ := a
    unfold TimeSorted at hs ih
    rw [List.pairwise_cons] at hs
    unfold timeAssign
    by_cases h1 : t < t0
    · rw [if_pos h1]
      constructor
      · intro he
        rcases List.mem_cons.mp he with h | h
        · exact Or.inl h
        · refine Or.inr ⟨h, ?_⟩
          rcases List.mem_cons.mp h with h3 | h3
          · rw [h3]; exact ne_of_gt h1
          · exact ne_of_gt (lt_trans h1 (hs.1 e h3))
      · rintro (h | ⟨h, _⟩)
        · rw [h]; exact List.mem_cons_self _ _
        · exact List.mem_cons_of_mem _ h
    · rw [if_neg h1]
      by_cases h2 : t = t0
      · rw [if_pos h2]
        constructor
        · intro he
          rcases List.mem_cons.mp he with h | h
          · exact Or.inl h
          · exact Or.inr ⟨List.mem_cons_of_mem _ h, by rw [h2]; exact ne_of_gt (hs.1 e h)⟩
        · rintro (h | ⟨h, hne⟩)
          · rw [h]; exact List.mem_cons_self _ _
          · rcases List.mem_cons.mp h with h3 | h3
            · rw [h3] at hne
              exact absurd h2.symm hne
            · exact List.mem_cons_of_mem _ h3
      · rw [if_neg h2]
        have hlt : t0 < t := lt_of_le_of_ne (not_lt.mp h1) (fun h3 => h2 h3.symm)
        constructor
        · intro he
          rcases List.mem_cons.mp he with h | h
          · refine Or.inr ⟨by rw [h]; exact List.mem_cons_self _ _, ?_⟩
            rw [h]
            exact ne_of_lt hlt
          · rcases (ih hs.2).mp h with h3 | ⟨h3, h4⟩
            · exact Or.inl h3
            · exact Or.inr ⟨List.mem_cons_of_mem _ h3, h4⟩
        · rintro (h | ⟨h, hne⟩)
          · exact List.mem_cons_of_mem _ ((ih hs.2).mpr (Or.inl h))
          · rcases List.mem_cons.mp h with h3 | h3
            · rw [h3]; exact List.mem_cons_self _ _
            · exact List.mem_cons_of_mem _ ((ih hs.2).mpr (Or.inr ⟨h3, hne⟩))

/-- A sorted index holds at most one entry under each key. -/
theorem timeSorted_unique (m : List (ℚ × Nat)) (hs : TimeSorted m) (e1 e2 : ℚ × Nat)
    (h1 : e1 ∈ m) (h2 : e2 ∈ m) (hkey : e1.1 = e2.1) : e1 = e2 := by
  induction m with
  | nil => exact absurd h1 (List.not_mem_nil _)
  | cons a rest ih =>
    unfold TimeSorted at hs ih
    rw [List.pairwise_cons] at hs
    rcases List.mem_cons.mp h1 with h3 | h3 <;> rcases List.mem_cons.mp h2 with h4 | h4
    · rw [h3, h4]
    · have := hs.1 e2 h4
      rw [← h3, hkey] at this
      exact absurd this (lt_irrefl _)
    · have := hs.1 e1 h3
      rw [← h4, hkey] at this
      exact absurd this (lt_irrefl _)
    · exact ih hs.2 h3 h4

theorem timeSorted_keys_nodup (m : List (ℚ × Nat)) (hs : TimeSorted m) :
    (m.map Prod.fst).Nodup := by
  unfold TimeSorted at hs
  unfold List.Nodup
  rw [List.pairwise_map]
  exact hs.imp (fun hab => ne_of_lt hab)

theorem insert_timeDictionaryA (h : ClientHeap) (s : Server) (k : Nat) (off : Int) (q : Int) :
    (s.InsertNewKeyFrame h k off q).timeDictionaryA =
      if q = SEQA then timeAssign s.timeDictionaryA (h.keyFrame k).mTimeStamp s.nKeyFrames
      else s.timeDictionaryA := by
  unfold Server.InsertNewKeyFrame
  simp only []
  split_ifs <;> rfl

theorem insert_timeDictionaryB (h : ClientHeap) (s : Server) (k : Nat) (off : Int) (q : Int) :
    (s.InsertNewKeyFrame h k off q).timeDictionaryB =
      if q = SEQA then s.timeDictionaryB
      else timeAssign s.timeDictionaryB (h.keyFrame k).mTimeStamp s.nKeyFrames := by
  unfold Server.InsertNewKeyFrame
  simp only []
  split_ifs <;> rfl

/-- The time index of the sequence of the inserted key frame receives the assignment, and
the other one is left as it is. -/
theorem insert_timeIndex (h : ClientHeap) (s : Server) (k : Nat) (off : Int) (q : Int) :
    (s.InsertNewKeyFrame h k off q).timeIndex q =
        timeAssign (s.timeIndex q) (h.keyFrame k).mTimeStamp s.nKeyFrames ∧
      (s.InsertNewKeyFrame h k off q).otherTimeIndex q = s.otherTimeIndex q := by
  unfold Server.timeIndex Server.otherTimeIndex
  rw [insert_timeDictionaryA, insert_timeDictionaryB]
  by_cases hq : q = SEQA
  · simp only [if_pos hq, and_self]
  · simp only [if_neg hq, and_self]

/-- The new global key frame of `InsertNewKeyFrame`. -/
theorem insert_keyFrames_new (h : ClientHeap) (s : Server) (k : Nat) (off : Int) (q : Int) :
    ((s.InsertNewKeyFrame h k off q).keyFrames s.nKeyFrames).mTimeStamp
        = (h.keyFrame k).mTimeStamp ∧
      ((s.InsertNewKeyFrame h k off q).keyFrames s.nKeyFrames).sequence = q ∧
      ((s.InsertNewKeyFrame h k off q).keyFrames s.nKeyFrames).aprilTagKeyFrame = none := by
  rw [insert_keyFrames]
  refine ⟨?_, ?_, ?_⟩ <;> simp [KeyFrame.copyIntrinsic]

theorem insert_keyFrames_old (h : ClientHeap) (s : Server) (k : Nat) (off : Int) (q : Int) {x : Nat}
    (hx : x ≠ s.nKeyFrames) : (s.InsertNewKeyFrame h k off q).keyFrames x = s.keyFrames x := by
  rw [insert_keyFrames]
  simp only [if_neg hx]

/-- `InsertNewKeyFrame` keeps the invariant of the time indices. -/
theorem insert_timeIndexWF (h : ClientHeap) (s : Server) (k : Nat) (off : Int) (q : Int)
    (hwf : s.TimeIndexWF) : (s.InsertNewKeyFrame h k off q).TimeIndexWF := by
  obtain ⟨sA, sB, eA, eB⟩ := hwf
  obtain ⟨n1, n2, n3⟩ := insert_keyFrames_new h s k off q
  have hold : ∀ (e : ℚ × Nat) (P : KeyFrame → Prop), e.2 < s.nKeyFrames →
      P (s.keyFrames e.2) → P ((s.InsertNewKeyFrame h k off q).keyFrames e.2) := by
    intro e P he hP
    rw [insert_keyFrames_old h s k off q (show e.2 ≠ s.nKeyFrames by omega)]
    exact hP
  unfold Server.TimeIndexWF
  rw [insert_timeDictionaryA, insert_timeDictionaryB, insert_nKeyFrames]
  by_cases hq : q = SEQA
  · simp only [if_pos hq]
    refine ⟨timeAssign_sorted _ _ _ sA, sB, fun e he => ?_, fun e he => ?_⟩
    · rcases timeAssign_subset _ _ _ e he with h1 | h1
      · rw [h1]
        exact ⟨by simp, n1, n2.trans hq⟩
      · obtain ⟨a1, a2, a3⟩ := eA e h1
        exact ⟨by omega, hold e (fun kf => kf.mTimeStamp = e.1) a1 a2,
          hold e (fun kf => kf.sequence = SEQA) a1 a3⟩
    · obtain ⟨a1, a2, a3⟩ := eB e he
      exact ⟨by omega, hold e (fun kf => kf.mTimeStamp = e.1) a1 a2,
        hold e (fun kf => kf.sequence ≠ SEQA) a1 a3⟩
  · simp only [if_neg hq]
    refine ⟨sA, timeAssign_sorted _ _ _ sB, fun e he => ?_, fun e he => ?_⟩
    · obtain ⟨a1, a2, a3⟩ := eA e he
      exact ⟨by omega, hold e (fun kf => kf.mTimeStamp = e.1) a1 a2,
        hold e (fun kf => kf.sequence = SEQA) a1 a3⟩
    · rcases timeAssign_subset _ _ _ e he with h1 | h1
      · rw [h1]
        exact ⟨by simp, n1, by rw [n2]; exact hq⟩
      · obtain ⟨a1, a2, a3⟩ := eB e h1
        exact ⟨by omega, hold e (fun kf => kf.mTimeStamp = e.1) a1 a2,
          hold e (fun kf => kf.sequence ≠ SEQA) a1 a3⟩

/-- The second and third pass keep the invariant of the time indices. -/
theorem linkFrame_timeIndexWF {s t : Server} (hf : s.LinkFrame t) (hwf : s.TimeIndexWF) :
    t.TimeIndexWF := by
  obtain ⟨_, f2, f3, f4, _, _, _, _, f9⟩ := hf
  obtain ⟨sA, sB, eA, eB⟩ := hwf
  unfold Server.TimeIndexWF
  rw [f2, f3, f4]
  refine ⟨sA, sB, fun e he => ?_, fun e he => ?_⟩
  · obtain ⟨a1, a2, a3⟩ := eA e he
    exact ⟨a1, by rw [core_mTimeStamp (f9 e.2)]; exact a2,
      by rw [core_sequence (f9 e.2)]; exact a3⟩
  · obtain ⟨a1, a2, a3⟩ := eB e he
    exact ⟨a1, by rw [core_mTimeStamp (f9 e.2)]; exact a2,
      by rw [core_sequence (f9 e.2)]; exact a3⟩

theorem core_aprilTagKeyFrame {k1 k2 : KeyFrame} (hc : k1.core = k2.core) :
    k1.aprilTagKeyFrame = k2.aprilTagKeyFrame :=
  congrArg (fun c => c.2.2.2.2) hc

theorem insert_uncorrelated (h : ClientHeap) (s : Server) (k : Nat) (off : Int) (q : Int)
    (hq : q = SEQA ∨ q = SEQB) (hwf : s.Uncorrelated) :
    (s.InsertNewKeyFrame h k off q).Uncorrelated := by
  obtain ⟨n1, n2, n3⟩ := insert_keyFrames_new h s k off q
  refine ⟨fun g => ?_, fun g hg => ?_⟩
  · by_cases hx : g = s.nKeyFrames
    · rw [hx]; exact n3
    · rw [insert_keyFrames_old h s k off q hx]
      exact hwf.1 g
  · rw [insert_nKeyFrames] at hg
    by_cases hx : g = s.nKeyFrames
    · rw [hx, n2]; exact hq
    · rw [insert_keyFrames_old h s k off q hx]
      exact hwf.2 g (by omega)

theorem linkFrame_uncorrelated {s t : Server} (hf : s.LinkFrame t) (hwf : s.Uncorrelated) :
    t.Uncorrelated := by
  obtain ⟨_, _, _, f4, _, _, _, _, f9⟩ := hf
  refine ⟨fun g => ?_, fun g hg => ?_⟩
  · rw [core_aprilTagKeyFrame (f9 g)]
    exact hwf.1 g
  · rw [core_sequence (f9 g)]
    exact hwf.2 g (by rw [← f4]; exact hg)

/-- Each operation of the merge keeps the invariant of the time indices. -/
theorem step_timeIndexWF (h : ClientHeap) (s s' : Server) (op : Op) (hwf : s.WellFormed)
    (ht : s.TimeIndexWF) (hrun : s.step h op = .ok s') : s'.TimeIndexWF := by
  cases op with
  | insertNewKeyFrame k off q =>
    have hs' : s' = s.InsertNewKeyFrame h k off q := (Except.ok.inj hrun).symm
    subst hs'
    exact insert_timeIndexWF h s k off q ht
  | copyKeyFrameMappoints k =>
    exact linkFrame_timeIndexWF (step_linkFrame h s s' _ hwf (fun _ _ _ => by simp) hrun) ht
  | copyKeyFrameConnections k =>
    exact linkFrame_timeIndexWF (step_linkFrame h s s' _ hwf (fun _ _ _ => by simp) hrun) ht

theorem exec_timeIndexWF (h : ClientHeap) (ops : List Op) (s s' : Server) (hwf : s.WellFormed)
    (ht : s.TimeIndexWF) (hrun : s.exec h ops = .ok s') : s'.TimeIndexWF := by
  induction ops generalizing s with
  | nil =>
    have hs' : s = s' := Except.ok.inj hrun
    subst hs'
    exact ht
  | cons op ops ih =>
    obtain ⟨s1, h1, h2⟩ := exec_cons_ok h s s' op ops hrun
    exact ih s1 (step_wellFormed h s s1 op hwf h1) (step_timeIndexWF h s s1 op hwf ht h1) h2

theorem step_uncorrelated (h : ClientHeap) (s s' : Server) (op : Op) (hwf : s.WellFormed)
    (hu : s.Uncorrelated)
    (hop : ∀ k off q, op = Op.insertNewKeyFrame k off q → q = SEQA ∨ q = SEQB)
    (hrun : s.step h op = .ok s') : s'.Uncorrelated := by
  cases op with
  | insertNewKeyFrame k off q =>
    have hs' : s' = s.InsertNewKeyFrame h k off q := (Except.ok.inj hrun).symm
    subst hs'
    exact insert_uncorrelated h s k off q (hop k off q rfl) hu
  | copyKeyFrameMappoints k =>
    exact linkFrame_uncorrelated (step_linkFrame h s s' _ hwf (fun _ _ _ => by simp) hrun) hu
  | copyKeyFrameConnections k =>
    exact linkFrame_uncorrelated (step_linkFrame h s s' _ hwf (fun _ _ _ => by simp) hrun) hu

theorem exec_uncorrelated (h : ClientHeap) (ops : List Op) (s s' : Server)
    (hwf : s.WellFormed) (hu : s.Uncorrelated)
    (hops : ∀ k off q, Op.insertNewKeyFrame k off q ∈ ops → q = SEQA ∨ q = SEQB)
    (hrun : s.exec h ops = .ok s') : s'.Uncorrelated := by
  induction ops generalizing s with
  | nil =>
    have hs' : s = s' := Except.ok.inj hrun
    subst hs'
    exact hu
  | cons op ops ih =>
    obtain ⟨s1, h1, h2⟩ := exec_cons_ok h s s' op ops hrun
    refine ih s1 (step_wellFormed h s s1 op hwf h1)
      (step_uncorrelated h s s1 op hwf hu ?_ h1)
      (fun k off q hmem => hops k off q (List.mem_cons_of_mem _ hmem)) h2
    intro k off q hop
    exact hops k off q (by rw [hop]; exact List.mem_cons_self _ _)

theorem sequenceOps_tag (ks : List Nat) (off : Int) (q : Int) (k : Nat) (off' : Int) (q' : Int)
    (hmem : Op.insertNewKeyFrame k off' q' ∈ sequenceOps ks off q) : q' = q := by
  unfold sequenceOps at hmem
  simp only [List.mem_append, List.mem_map] at hmem
  rcases hmem with (⟨a, _, ha⟩ | ⟨a, _, ha⟩) | ⟨a, _, ha⟩
  · simp only [Op.insertNewKeyFrame.injEq] at ha
    exact ha.2.2.symm
  · exact absurd ha (by simp)
  · exact absurd ha (by simp)

/-- The merge performed by `Run` is a sequence of merge operations whose insertions carry
the tag `SEQA` or `SEQB`. -/
theorem merge_eq_exec_tagged (h : ClientHeap) (s : Server) (A B : List Nat) :
    ∃ ops, s.merge h A B = s.exec h ops ∧
      ∀ k off q, Op.insertNewKeyFrame k off q ∈ ops → q = SEQA ∨ q = SEQB := by
  unfold Server.merge
  cases hA : s.insertSequence h A 0 SEQA with
  | error e =>
    refine ⟨sequenceOps A 0 SEQA, ?_, fun k off q hmem =>
      Or.inl (sequenceOps_tag _ _ _ _ _ _ hmem)⟩
    rw [← insertSequence_eq_exec, hA]
  | ok s1 =>
    refine ⟨sequenceOps A 0 SEQA ++ sequenceOps B (toInt s1.globalMap.GetAllKeyFrames.length) SEQB,
      ?_, fun k off q hmem => ?_⟩
    · rw [exec_append, ← insertSequence_eq_exec, hA]
      exact insertSequence_eq_exec h s1 B _ SEQB
    · rcases List.mem_append.mp hmem with h1 | h1
      · exact Or.inl (sequenceOps_tag _ _ _ _ _ _ h1)
      · exact Or.inr (sequenceOps_tag _ _ _ _ _ _ h1)

theorem seed_withClients_timeIndexWF (clients : List System) :
    (Server.withClients clients).seed.TimeIndexWF ∧
      (Server.withClients clients).seed.Uncorrelated := by
  refine ⟨⟨List.Pairwise.nil, List.Pairwise.nil, fun e he => ?_, fun e he => ?_⟩,
    fun g => rfl, fun g hg => ?_⟩
  · exact absurd he (List.not_mem_nil _)
  · exact absurd he (List.not_mem_nil _)
  · exact absurd hg (Nat.not_lt_zero _)

/-- The state that the merge of `Run` reaches from a fresh server keeps the invariants of
the merge and of the time indices, and no key frame is correlated yet. -/
theorem merge_withClients_invariants (h : ClientHeap) (clients : List System)
    (A B : List Nat) (s1 : Server)
    (hm : (Server.withClients clients).seed.merge h A B = .ok s1) :
    s1.WellFormed ∧ s1.TimeIndexWF ∧ s1.Uncorrelated := by
  obtain ⟨ops, hops, htag⟩ := merge_eq_exec_tagged h (Server.withClients clients).seed A B
  rw [hops] at hm
  have hwf := seed_withClients_wellFormed clients
  obtain ⟨ht, hu⟩ := seed_withClients_timeIndexWF clients
  exact ⟨exec_wellFormed h ops _ s1 hwf hm, exec_timeIndexWF h ops _ s1 hwf ht hm,
    exec_uncorrelated h ops _ s1 hwf hu htag hm⟩

/-- The correlation pass keeps the invariant of the time indices. -/
theorem sameUpToCorrelation_timeIndexWF {s t : Server} (hf : s.SameUpToCorrelation t)
    (hwf : s.TimeIndexWF) : t.TimeIndexWF := by
  obtain ⟨sA, sB, eA, eB⟩ := hwf
  unfold Server.TimeIndexWF
  rw [hf.2.2.2.1, hf.2.2.2.2.1, hf.2.2.2.2.2.2.1]
  refine ⟨sA, sB, fun e he => ?_, fun e he => ?_⟩
  · obtain ⟨a1, a2, a3⟩ := eA e he
    exact ⟨a1, by rw [sameUpToCorrelation_timeStamp hf]; exact a2,
      by rw [sameUpToCorrelation_sequence hf]; exact a3⟩
  · obtain ⟨a1, a2, a3⟩ := eB e he
    exact ⟨a1, by rw [sameUpToCorrelation_timeStamp hf]; exact a2,
      by rw [sameUpToCorrelation_sequence hf]; exact a3⟩

/-- In a state with well-formed time indices, the candidate accepted for a key frame
carries another sequence tag than the key frame. -/
theorem accepted_other_sequence (s : Server) (hwf : s.TimeIndexWF) (g c : Nat)
    (hacc : s.accepted g = some c) :
    (s.keyFrames c).sequence ≠ (s.keyFrames g).sequence := by
  obtain ⟨_, e, he, hec, _⟩ := accepted_eq_some s g c hacc
  have hmem := closest_mem s _ _ e he
  obtain ⟨_, _, eA, eB⟩ := hwf
  rw [← hec]
  by_cases hq : (s.keyFrames g).sequence = SEQA
  · rw [if_pos hq] at hmem
    rw [hq]
    exact (eB e hmem).2.2
  · rw [if_neg hq] at hmem
    rw [(eA e hmem).2.2]
    exact fun h3 => hq h3.symm

/-! ### The bounds of the correlation pass -/

theorem lower_bound_cons (a : ℚ × Nat) (rest : List (ℚ × Nat)) (t : ℚ) :
    lower_bound (a :: rest) t = if t ≤ a.1 then some a else lower_bound rest t := by
  unfold lower_bound
  rw [List.find?_cons]
  by_cases hle : t ≤ a.1 <;> simp [hle]

theorem upper_bound_cons (a : ℚ × Nat) (rest : List (ℚ × Nat)) (t : ℚ) :
    upper_bound (a :: rest) t = if t < a.1 then some a else upper_bound rest t := by
  unfold upper_bound
  rw [List.find?_cons]
  by_cases hlt : t < a.1 <;> simp [hlt]

/-- The entry `lower_bound(t)` of a sorted index is the entry with the smallest key that
is not less than `t`. -/
theorem lower_bound_some (m : List (ℚ × Nat)) (hs : TimeSorted m) (t : ℚ) (e : ℚ × Nat)
    (hl : lower_bound m t = some e) :
    e ∈ m ∧ t ≤ e.1 ∧ ∀ e' ∈ m, t ≤ e'.1 → e.1 ≤ e'.1 := by
  induction m with
  | nil => exact absurd hl (by simp [lower_bound])
  | cons a rest ih =>
    unfold TimeSorted at hs ih
    rw [List.pairwise_cons] at hs
    rw [lower_bound_cons] at hl
    by_cases hle : t ≤ a.1
    · rw [if_pos hle] at hl
      have hae : a = e := Option.some.inj hl
      subst hae
      refine ⟨List.mem_cons_self _ _, hle, fun e' he' _ => ?_⟩
      rcases List.mem_cons.mp he' with h1 | h1
      · rw [h1]
      · exact le_of_lt (hs.1 e' h1)
    · rw [if_neg hle] at hl
      obtain ⟨a1, a2, a3⟩ := ih hs.2 hl
      refine ⟨List.mem_cons_of_mem _ a1, a2, fun e' he' hte' => ?_⟩
      rcases List.mem_cons.mp he' with h1 | h1
      · rw [h1] at hte'
        exact absurd hte' hle
      · exact a3 e' h1 hte'

/-- When `lower_bound(t)` is `end()`, every key of the index is less than `t`. -/
theorem lower_bound_none (m : List (ℚ × Nat)) (t : ℚ) (hl : lower_bound m t = none) :
    ∀ e' ∈ m, e'.1 < t := by
  intro e' he'
  have := List.find?_eq_none.mp hl e' he'
  simpa using this

/-- In a sorted index, `lower_bound(t)` is not `end()` when `upper_bound(t)` is not, and
its key is not greater. -/
theorem lower_le_upper (m : List (ℚ × Nat)) (hs : TimeSorted m) (t : ℚ) (u : ℚ × Nat)
    (hu : upper_bound m t = some u) :
    ∃ l, lower_bound m t = some l ∧ t ≤ l.1 ∧ l.1 ≤ u.1 ∧ t < u.1 := by
  induction m with
  | nil => exact absurd hu (by simp [upper_bound])
  | cons a rest ih =>
    unfold TimeSorted at hs ih
    rw [List.pairwise_cons] at hs
    rw [upper_bound_cons] at hu
    rw [lower_bound_cons]
    by_cases hlt : t < a.1
    · rw [if_pos hlt] at hu
      have hau : a = u := Option.some.inj hu
      subst hau
      exact ⟨a, by rw [if_pos (le_of_lt hlt)], le_of_lt hlt, le_refl _, hlt⟩
    · rw [if_neg hlt] at hu
      by_cases hle : t ≤ a.1
      · have humem : u ∈ rest := List.mem_of_find?_eq_some hu
        have htu : t < u.1 := by
          have := List.find?_some hu
          simpa using this
        exact ⟨a, by rw [if_pos hle], hle, le_of_lt (hs.1 u humem), htu⟩
      · rw [if_neg hle]
        exact ih hs.2 hu

/-- The index that the correlation pass searches is sorted, and each of its entries is
stored under the time stamp of its key frame. -/
theorem otherTimeIndex_wf (s : Server) (hwf : s.TimeIndexWF) (q : Int) :
    TimeSorted (s.otherTimeIndex q) ∧
      ∀ e ∈ s.otherTimeIndex q, (s.keyFrames e.2).mTimeStamp = e.1 := by
  obtain ⟨sA, sB, eA, eB⟩ := hwf
  unfold Server.otherTimeIndex
  by_cases hq : q = SEQA
  · simp only [if_pos hq]
    exact ⟨sB, fun e he => (eB e he).2.1⟩
  · simp only [if_neg hq]
    exact ⟨sA, fun e he => (eA e he).2.1⟩

/-- With well-formed time indices the comparison `lowerTimeDiff <= upperTimeDiff` holds,
so that `closest_it` is `lower_it` and `closestDiff` is `lowerTimeDiff`. -/
theorem closest_of_timeIndexWF (s : Server) (hwf : s.TimeIndexWF) (t : ℚ) (q : Int) :
    leInf (s.timeDiff (lower_bound (s.otherTimeIndex q) t) t)
        (s.timeDiff (upper_bound (s.otherTimeIndex q) t) t) = true ∧
      s.closest t q =
        (lower_bound (s.otherTimeIndex q) t,
          s.timeDiff (lower_bound (s.otherTimeIndex q) t) t) := by
  obtain ⟨hsorted, hkey⟩ := otherTimeIndex_wf s hwf q
  have hle : leInf (s.timeDiff (lower_bound (s.otherTimeIndex q) t) t)
      (s.timeDiff (upper_bound (s.otherTimeIndex q) t) t) = true := by
    cases hu : upper_bound (s.otherTimeIndex q) t with
    | none =>
      cases s.timeDiff (lower_bound (s.otherTimeIndex q) t) t <;> rfl
    | some u =>
      obtain ⟨l, hl, a2, a3, a4⟩ := lower_le_upper _ hsorted t u hu
      have humem : u ∈ s.otherTimeIndex q := List.mem_of_find?_eq_some hu
      have hlmem : l ∈ s.otherTimeIndex q := List.mem_of_find?_eq_some hl
      rw [hl]
      simp only [Server.timeDiff, hkey u humem, hkey l hlmem]
      apply leInf_absDifference
      rw [abs_of_nonneg (sub_nonneg.mpr a2), abs_of_nonneg (sub_nonneg.mpr (le_of_lt a4))]
      linarith
  refine ⟨hle, ?_⟩
  have hc : s.closest t q =
      if leInf (s.timeDiff (lower_bound (s.otherTimeIndex q) t) t)
          (s.timeDiff (upper_bound (s.otherTimeIndex q) t) t) then
        (lower_bound (s.otherTimeIndex q) t,
          s.timeDiff (lower_bound (s.otherTimeIndex q) t) t)
      else if ltInf (s.timeDiff (upper_bound (s.otherTimeIndex q) t) t)
          (s.timeDiff (lower_bound (s.otherTimeIndex q) t) t) then
        (upper_bound (s.otherTimeIndex q) t,
          s.timeDiff (upper_bound (s.otherTimeIndex q) t) t)
      else (none, none) := rfl
  rw [hc, if_pos hle]

/-- With well-formed time indices, the candidate accepted for a marker-flagged key frame
is the key frame of `lower_bound(t)` when that entry exists and the double nearest to its
key minus the time stamp is below the double `0.1`; there is no candidate otherwise. -/
theorem accepted_of_timeIndexWF (s : Server) (hwf : s.TimeIndexWF) (g : Nat)
    (hflag : (s.keyFrames g).detectedAprilTag = true) :
    s.accepted g =
      match lower_bound (s.otherTimeIndex (s.keyFrames g).sequence) (s.keyFrames g).mTimeStamp
        with
      | some e =>
        if roundNonneg (e.1 - (s.keyFrames g).mTimeStamp) < toleranceDouble then some e.2
        else none
      | none => none := by
  obtain ⟨hsorted, hkey⟩ := otherTimeIndex_wf s hwf (s.keyFrames g).sequence
  unfold Server.accepted
  rw [if_pos hflag, (closest_of_timeIndexWF s hwf _ _).2]
  cases hl : lower_bound (s.otherTimeIndex (s.keyFrames g).sequence)
      (s.keyFrames g).mTimeStamp with
  | none => simp [Server.timeDiff, ltInf]
  | some e =>
    obtain ⟨a1, a2, _⟩ := lower_bound_some _ hsorted _ e hl
    have hiff := ltInf_absDifference e.1 (s.keyFrames g).mTimeStamp
    rw [abs_of_nonneg (sub_nonneg.mpr a2)] at hiff
    simp only [Server.timeDiff, hkey e a1, Option.map_some']
    by_cases hlt : roundNonneg (e.1 - (s.keyFrames g).mTimeStamp) < toleranceDouble
    · rw [if_pos (hiff.mpr hlt), if_pos hlt]
    · rw [if_neg (fun hc => hlt (hiff.mp hc)), if_neg hlt]

/-! ### The time index over a sequence of insertions -/

/-- The keys of the index after the assignment `m[t] = v`. -/
theorem timeAssign_keys (m : List (ℚ × Nat)) (t : ℚ) (v : Nat) (hs : TimeSorted m) (x : ℚ) :
    x ∈ (timeAssign m t v).map Prod.fst ↔ x = t ∨ x ∈ m.map Prod.fst := by
  simp only [List.mem_map]
  constructor
  · rintro ⟨e, he, hex⟩
    rcases (mem_timeAssign m t v hs e).mp he with h1 | ⟨h1, _⟩
    · left
      rw [← hex, h1]
    · exact Or.inr ⟨e, h1, hex⟩
  · rintro (h1 | ⟨e, he, hex⟩)
    · exact ⟨(t, v), (mem_timeAssign m t v hs _).mpr (Or.inl rfl), h1.symm⟩
    · by_cases hxt : x = t
      · exact ⟨(t, v), (mem_timeAssign m t v hs _).mpr (Or.inl rfl), hxt.symm⟩
      · exact ⟨e, (mem_timeAssign m t v hs e).mpr (Or.inr ⟨he, by rw [hex]; exact hxt⟩), hex⟩

/-- The first pass over a list of key frames of one sequence: the index of that sequence
stays sorted, the other index is not touched, the keys of the index are the old keys and
the time stamps of the inserted key frames, and an entry is kept when no inserted key
frame carries its time stamp. -/
theorem foldl_insert_timeIndex (h : ClientHeap) (ks : List Nat) (off : Int) (q : Int)
    (s : Server) (hs : TimeSorted (s.timeIndex q)) :
    TimeSorted ((ks.foldl (fun t k => t.InsertNewKeyFrame h k off q) s).timeIndex q) ∧
      (ks.foldl (fun t k => t.InsertNewKeyFrame h k off q) s).otherTimeIndex q
        = s.otherTimeIndex q ∧
      (∀ x, x ∈ ((ks.foldl (fun t k => t.InsertNewKeyFrame h k off q) s).timeIndex q).map
            Prod.fst ↔
          x ∈ (s.timeIndex q).map Prod.fst ∨ ∃ k ∈ ks, (h.keyFrame k).mTimeStamp = x) ∧
      ∀ e ∈ s.timeIndex q, (∀ k ∈ ks, (h.keyFrame k).mTimeStamp ≠ e.1) →
        e ∈ (ks.foldl (fun t k => t.InsertNewKeyFrame h k off q) s).timeIndex q := by
  induction ks generalizing s with
  | nil => exact ⟨hs, rfl, fun x => by simp, fun e he _ => he⟩
  | cons k ks ih =>
    obtain ⟨i1, i2⟩ := insert_timeIndex h s k off q
    have hs1 : TimeSorted ((s.InsertNewKeyFrame h k off q).timeIndex q) := by
      rw [i1]
      exact timeAssign_sorted _ _ _ hs
    obtain ⟨a1, a2, a3, a4⟩ := ih (s.InsertNewKeyFrame h k off q) hs1
    simp only [List.foldl_cons]
    refine ⟨a1, a2.trans i2, fun x => ?_, fun e he hne => ?_⟩
    · rw [a3 x, i1, timeAssign_keys _ _ _ hs x]
      constructor
      · rintro ((h1 | h1) | ⟨k', hk', h1⟩)
        · exact Or.inr ⟨k, List.mem_cons_self _ _, h1.symm⟩
        · exact Or.inl h1
        · exact Or.inr ⟨k', List.mem_cons_of_mem _ hk', h1⟩
      · rintro (h1 | ⟨k', hk', h1⟩)
        · exact Or.inl (Or.inr h1)
        · rcases List.mem_cons.mp hk' with h2 | h2
          · rw [h2] at h1
            exact Or.inl (Or.inl h1.symm)
          · exact Or.inr ⟨k', h2, h1⟩
    · refine a4 e ?_ (fun k' hk' => hne k' (List.mem_cons_of_mem _ hk'))
      rw [i1]
      exact (mem_timeAssign _ _ _ hs e).mpr
        (Or.inr ⟨he, fun h1 => hne k (List.mem_cons_self _ _) h1.symm⟩)

theorem foldl_insert_mspKeyFrames (h : ClientHeap) (ks : List Nat) (off : Int) (q : Int)
    (s : Server) (g : Nat) (hg : g ∈ s.globalMap.mspKeyFrames) :
    g ∈ (ks.foldl (fun t k => t.InsertNewKeyFrame h k off q) s).globalMap.mspKeyFrames := by
  induction ks generalizing s with
  | nil => exact hg
  | cons k ks ih =>
    refine ih (s.InsertNewKeyFrame h k off q) ?_
    rw [insert_mspKeyFrames]
    exact (mem_setInsert _ _ _).mpr (Or.inl hg)

theorem timeIndex_wf (s : Server) (hwf : s.TimeIndexWF) (q : Int) :
    TimeSorted (s.timeIndex q) ∧ ∀ e ∈ s.timeIndex q, e.2 < s.nKeyFrames := by
  obtain ⟨sA, sB, eA, eB⟩ := hwf
  unfold Server.timeIndex
  by_cases hq : q = SEQA
  · simp only [if_pos hq]
    exact ⟨sA, fun e he => (eA e he).1⟩
  · simp only [if_neg hq]
    exact ⟨sB, fun e he => (eB e he).1⟩

/-- Two insertions in a row of key frames with the same time stamp: the index holds the
second copy under that time stamp and the first copy nowhere. -/
theorem insert_twice_timeIndex (h : ClientHeap) (s : Server) (hwf : s.TimeIndexWF)
    (off : Int) (q : Int) (k1 k2 : Nat)
    (hts : (h.keyFrame k1).mTimeStamp = (h.keyFrame k2).mTimeStamp) (e : ℚ × Nat) :
    e ∈ ((s.InsertNewKeyFrame h k1 off q).InsertNewKeyFrame h k2 off q).timeIndex q ↔
      e = ((h.keyFrame k2).mTimeStamp, s.nKeyFrames + 1) ∨
        (e ∈ s.timeIndex q ∧ e.1 ≠ (h.keyFrame k2).mTimeStamp) := by
  obtain ⟨hs, _⟩ := timeIndex_wf s hwf q
  rw [(insert_timeIndex h _ k2 off q).1, (insert_timeIndex h s k1 off q).1, insert_nKeyFrames,
    mem_timeAssign _ _ _ (timeAssign_sorted _ _ _ hs), mem_timeAssign _ _ _ hs, hts]
  constructor
  · rintro (h1 | ⟨h1 | ⟨h1, _⟩, h2⟩)
    · exact Or.inl h1
    · rw [h1] at h2
      exact absurd rfl h2
    · exact Or.inr ⟨h1, h2⟩
  · rintro (h1 | ⟨h1, h2⟩)
    · exact Or.inl h1
    · exact Or.inr ⟨Or.inr ⟨h1, h2⟩, h2⟩

/-! ### Lookups that hit -/

theorem Dict.afterLookups_eq_self (l : List Ptr) (d : Dict) (hall : ∀ k ∈ l, d k ≠ none) :
    d.afterLookups l = d := by
  induction l with
  | nil => rfl
  | cons a l ih =>
    have hstep : d.afterLookups (a :: l) = (d.index a).2.afterLookups l := rfl
    rw [hstep]
    cases ha : d a with
    | none => exact absurd ha (hall a (List.mem_cons_self _ _))
    | some v =>
      rw [Dict.index_of_some ha]
      exact ih (fun k hk => hall k (List.mem_cons_of_mem _ hk))

/-- The third pass for a registered key frame all of whose lookups hit leaves the
key-frame translator as it is. -/
theorem CopyKeyFrameConnections_hit (h : ClientHeap) (s : Server) {u g : Nat}
    (hu : s.keyFrameDictionary (some u) = some (some g))
    (hall : ∀ v ∈ (h.keyFrame u).lookupKeys, s.keyFrameDictionary v ≠ none) :
    ∃ s', s.CopyKeyFrameConnections h u = .ok s' ∧
      s'.keyFrameDictionary = s.keyFrameDictionary ∧
      s'.mapPointDictionary = s.mapPointDictionary := by
  refine ⟨_, CopyKeyFrameConnections_of_registered h s hu, ?_, rfl⟩
  simp only [copyConnections_eq]
  exact Dict.afterLookups_eq_self _ _ hall

theorem forEach_CopyKeyFrameConnections_hit (h : ClientHeap) (ks : List Nat) (s : Server)
    (hreg : ∀ k ∈ ks, ∃ g, s.keyFrameDictionary (some k) = some (some g))
    (hall : ∀ k ∈ ks, ∀ v ∈ (h.keyFrame k).lookupKeys, s.keyFrameDictionary v ≠ none) :
    ∃ s', forEach (Server.CopyKeyFrameConnections h) ks s = .ok s' ∧
      s'.keyFrameDictionary = s.keyFrameDictionary ∧
      s'.mapPointDictionary = s.mapPointDictionary := by
  induction ks generalizing s with
  | nil => exact ⟨s, rfl, rfl, rfl⟩
  | cons k ks ih =>
    obtain ⟨g, hg⟩ := hreg k (List.mem_cons_self _ _)
    obtain ⟨s1, hs1, a1, a2⟩ :=
      CopyKeyFrameConnections_hit h s hg (hall k (List.mem_cons_self _ _))
    obtain ⟨s2, hs2, b1, b2⟩ := ih s1
      (fun k' hk' => by rw [a1]; exact hreg k' (List.mem_cons_of_mem _ hk'))
      (fun k' hk' => by rw [a1]; exact hall k' (List.mem_cons_of_mem _ hk'))
    refine ⟨s2, ?_, b1.trans a1, b2.trans a2⟩
    simp only [forEach, hs1]
    exact hs2

theorem exec_append_ok (h : ClientHeap) (s s' : Server) (ops1 ops2 : List Op)
    (hrun : s.exec h (ops1 ++ ops2) = .ok s') :
    ∃ t, s.exec h ops1 = .ok t ∧ t.exec h ops2 = .ok s' := by
  rw [exec_append] at hrun
  cases h1 : s.exec h ops1 with
  | error e => rw [h1] at hrun; exact absurd hrun (by simp)
  | ok t =>
    rw [h1] at hrun
    exact ⟨t, rfl, hrun⟩

theorem linkOps_not_insert (ks : List Nat) (k : Nat) (off : Int) (q : Int) :
    Op.insertNewKeyFrame k off q ∉ linkOps ks := by
  unfold linkOps
  simp

theorem mem_of_append_eq {α : Type} {l l1 l2 : List α} (hl : l = l1 ++ l2) {x : α} :
    (x ∈ l1 → x ∈ l) ∧ (x ∈ l2 → x ∈ l) := by
  subst hl
  exact ⟨fun hx => List.mem_append.mpr (Or.inl hx), fun hx => List.mem_append.mpr (Or.inr hx)⟩

/-- The second and third pass over a closed sequence whose key frames are registered:
every lookup hits. -/
theorem passesHit_of_closed (h : ClientHeap) (ks : List Nat) (s1 : Server)
    (hwf : s1.WellFormed)
    (hreg : ∀ k ∈ ks, ∃ g, s1.keyFrameDictionary (some k) = some (some g))
    (hclosed : SequenceClosed h ks) :
    ∃ s3, PassesHit h ks s1 s3 := by
  have hall : ∀ k ∈ ks, ∀ v ∈ (h.keyFrame k).lookupKeys,
      ∃ g, s1.keyFrameDictionary v = some (some g) := by
    intro k hk v hv
    obtain ⟨k', hk', hvk⟩ := hclosed k hk v hv
    rw [hvk]
    exact hreg k' hk'
  obtain ⟨s2, hs2, c1, _, c3, _, c5, _⟩ :=
    forEach_CopyKeyFrameMappoints_spec h ks s1 hreg hwf.2.1
  obtain ⟨s3, hs3, d1, d2⟩ := forEach_CopyKeyFrameConnections_hit h ks s2
    (fun k hk => by rw [c1]; exact hreg k hk)
    (fun k hk v hv => by
      obtain ⟨g, hg⟩ := hall k hk v hv
      rw [c1, hg]
      simp)
  have hrun : s1.exec h (linkOps ks) = .ok s3 := by
    unfold linkOps
    rw [exec_append, exec_copyKeyFrameMappoints, hs2]
    simp only []
    rw [exec_copyKeyFrameConnections]
    exact hs3
  have hdict : s3.keyFrameDictionary = s1.keyFrameDictionary := d1.trans c1
  refine ⟨s3, hrun, ?_, ?_, ?_⟩
  · intro op hop v hv
    unfold linkOps at hop
    simp only [List.mem_append, List.mem_map] at hop
    rcases hop with ⟨k, hk, hkop⟩ | ⟨k, hk, hkop⟩
    · subst hkop
      simp only [Op.lookups, List.mem_singleton] at hv
      rw [hv]
      exact hreg k hk
    · subst hkop
      simp only [Op.lookups, List.mem_cons] at hv
      rcases hv with hv | hv
      · rw [hv]
        exact hreg k hk
      · exact hall k hk v hv
  · intro done todo hsplit
    rw [hsplit] at hrun
    obtain ⟨t, ht, ht3⟩ := exec_append_ok h s1 s3 done todo hrun
    have hnoins : ∀ (l : List Op), (∀ op ∈ l, op ∈ linkOps ks) →
        ∀ k off q, Op.insertNewKeyFrame k off q ∈ l → ∀ key : Ptr, key ≠ some k :=
      fun l hl k off q hmem => absurd (hl _ hmem) (linkOps_not_insert ks k off q)
    have hdone := (exec_dictionaries h done s1 t ht).2
    have htodo := (exec_dictionaries h todo t s3 ht3).2
    have hwft := exec_wellFormed h done s1 t hwf ht
    refine ⟨t, ht, ?_, hwft.2.1, fun p hp => ?_⟩
    · funext key
      cases hk1 : s1.keyFrameDictionary key with
      | some v =>
        exact hdone key v hk1 (fun k off q hmem =>
          hnoins done (fun op hop => (mem_of_append_eq hsplit).1 hop) k off q hmem key)
      | none =>
        cases hkt : t.keyFrameDictionary key with
        | none => rfl
        | some v =>
          have h3 := htodo key v hkt (fun k off q hmem =>
            hnoins todo (fun op hop => (mem_of_append_eq hsplit).2 hop) k off q hmem key)
          rw [hdict, hk1] at h3
          exact absurd h3 (by simp)
    · obtain ⟨a, ha, _⟩ := hwft.2.2.1 p none hp
      exact absurd ha (by simp)
  · intro k hk p hp
    have hne := c3 k hk (some p) hp
    rw [d2]
    cases hv : s2.mapPointDictionary (some p) with
    | none => exact absurd hv hne
    | some v =>
      obtain ⟨a, ha, _⟩ := (c5 hwf.2).2.1 p v hv
      exact ⟨a, by rw [ha]⟩

/-- The three passes over a closed sequence, started in a well-formed state, complete, and
every lookup of the second and third pass hits. -/
theorem insertSequence_hit (h : ClientHeap) (ks : List Nat) (off : Int) (q : Int)
    (s : Server) (hwf : s.WellFormed) (hclosed : SequenceClosed h ks) :
    ∃ s3, s.insertSequence h ks off q = .ok s3 ∧ s3.WellFormed ∧
      PassesHit h ks (ks.foldl (fun t k => t.InsertNewKeyFrame h k off q) s) s3 := by
  have hwf1 : (ks.foldl (fun t k => t.InsertNewKeyFrame h k off q) s).WellFormed :=
    exec_wellFormed h _ s _ hwf (exec_insertions h ks off q s)
  have hreg1 : ∀ k ∈ ks, ∃ g,
      (ks.foldl (fun t k => t.InsertNewKeyFrame h k off q) s).keyFrameDictionary (some k)
        = some (some g) := fun k hk => by
    obtain ⟨a, _, b2, _⟩ := (foldl_insert_spec h ks off q s).2.2.2 k hk
    exact ⟨a, b2⟩
  obtain ⟨s3, hp⟩ := passesHit_of_closed h ks _ hwf1 hreg1 hclosed
  have hrun : s.insertSequence h ks off q = .ok s3 := by
    obtain ⟨t, ht, ht3⟩ := exec_append_ok h _ s3 _ _ hp.1
    rw [exec_copyKeyFrameMappoints] at ht
    rw [exec_copyKeyFrameConnections] at ht3
    unfold Server.insertSequence
    simp only [ht]
    exact ht3
  refine ⟨s3, hrun, ?_, hp⟩
  rw [insertSequence_eq_exec] at hrun
  exact exec_wellFormed h _ s s3 hwf hrun

/-! ## The claims -/

/-- C1 (evaluation of the code at the second correlator scenario of the specification).
Sequence A holds one marker-flagged key frame at time 1.00, sequence B key frames at 0.95
and 1.08.  `Run` completes; the global copies are at addresses 0 (A), 1 (B, 0.95) and
2 (B, 1.08); and the correlated key frame recorded for the A key frame is the copy of the
1.08 key frame, not the copy of the 0.95 key frame that the claim names: `lower_bound` and
`upper_bound` both return an entry at or after the time stamp, so the entry before it is
never looked at. -/
theorem C1_near_scenario_takes_later_entry :
    translatedOf (scenarioServer.Run scenarioNearHeap) 1 = some (some 0) ∧
    translatedOf (scenarioServer.Run scenarioNearHeap) 2 = some (some 1) ∧
    translatedOf (scenarioServer.Run scenarioNearHeap) 3 = some (some 2) ∧
    correlatedOf (scenarioServer.Run scenarioNearHeap) 0 = some (some 2) ∧
    correlatedOf (scenarioServer.Run scenarioNearHeap) 0 ≠ some (some 1) := by
  with_unfolding_all decide

/-- C2 (evaluation of the code at the failing input).  The key-frame ids are unique within
each client map: sequence A has the ids 0 and 2, sequence B the id 0.  `Run` completes, the
global map holds three distinct key frames (addresses 0, 1, 2), the offset used for
sequence B is the number 2 of key frames of A, and the copy of the B key frame receives
the id 0 + 2 = 2, the id that the copy of the second A key frame already has. -/
theorem C2_offset_by_count_collides :
    (gapIdHeap.keyFrame 1).mnId ≠ (gapIdHeap.keyFrame 2).mnId ∧
    globalKeyFramesOf (gapIdServer.Run gapIdHeap) = some [0, 1, 2] ∧
    translatedOf (gapIdServer.Run gapIdHeap) 2 = some (some 1) ∧
    translatedOf (gapIdServer.Run gapIdHeap) 3 = some (some 2) ∧
    idOf (gapIdServer.Run gapIdHeap) 1 = some 2 ∧
    idOf (gapIdServer.Run gapIdHeap) 2 = some 2 := by
  with_unfolding_all decide

/-- C3 (counterexample).  The key frame at address 1 is registered; its covisibility set
and its ordered connections name the key frame at address 9, which has no translator
entry.  `CopyKeyFrameConnections` is not rejected: it completes, the global key frame
holds an edge and an ordered connection whose target is null, and the translator maps the
key frame at address 9 to null from then on. -/
theorem C3_dangling_neighbour_is_not_rejected :
    (danglingEdgeHeap.keyFrame 1).mConnectedKeyFrameWeights = [(some 9, 5)] ∧
    translatedOf (Server.init.seed.exec danglingEdgeHeap [.insertNewKeyFrame 1 0 SEQA]) 1
      = some (some 0) ∧
    translatedOf (Server.init.seed.exec danglingEdgeHeap [.insertNewKeyFrame 1 0 SEQA]) 9
      = none ∧
    connectionsOf (Server.init.seed.exec danglingEdgeHeap
      [.insertNewKeyFrame 1 0 SEQA, .copyKeyFrameConnections 1]) 0 = some [(none, 5)] ∧
    ((stateOf (Server.init.seed.exec danglingEdgeHeap
      [.insertNewKeyFrame 1 0 SEQA, .copyKeyFrameConnections 1])).keyFrames
        0).mvpOrderedConnectedKeyFrames = [none] ∧
    translatedOf (Server.init.seed.exec danglingEdgeHeap
      [.insertNewKeyFrame 1 0 SEQA, .copyKeyFrameConnections 1]) 9 = some none := by
  with_unfolding_all decide

/-- C3 (amended): for a key frame `u` that is registered with a global key frame `g`,
`CopyKeyFrameConnections` is never rejected.  When a field of `u` names a key frame `v`
without translator entry, the lookup of `v` yields null, the entry `v → null` is added to
the translator, and a null reference is stored in the corresponding field of the global
key frame: an edge with null target, a null ordered connection, a null parent, a null
child, a null loop edge. -/
theorem C3_unregistered_reference_becomes_null (h : ClientHeap) (s : Server) (u g : Nat)
    (v : Ptr) (hu : s.keyFrameDictionary (some u) = some (some g))
    (hv : s.keyFrameDictionary v = none) (hmem : v ∈ (h.keyFrame u).lookupKeys) :
    (s.keyFrameDictionary.index v).1 = none ∧
    ∃ s', s.CopyKeyFrameConnections h u = .ok s' ∧
      s'.keyFrameDictionary v = some none ∧
      (∀ w, (v, w) ∈ (h.keyFrame u).mConnectedKeyFrameWeights →
        ∃ w', (none, w') ∈ (s'.keyFrames g).mConnectedKeyFrameWeights) ∧
      (v ∈ (h.keyFrame u).mvpOrderedConnectedKeyFrames →
        none ∈ (s'.keyFrames g).mvpOrderedConnectedKeyFrames) ∧
      ((h.keyFrame u).mpParent = v → v ≠ none → (s'.keyFrames g).mpParent = none) ∧
      (v ∈ (h.keyFrame u).mspChildrens → none ∈ (s'.keyFrames g).mspChildrens) ∧
      (v ∈ (h.keyFrame u).mspLoopEdges → none ∈ (s'.keyFrames g).mspLoopEdges) := by
  have htr : s.keyFrameDictionary.translate v = none := by
    rw [dict_translate_eq, hv]; rfl
  refine ⟨htr, _, CopyKeyFrameConnections_of_registered h s hu, ?_, ?_, ?_, ?_, ?_, ?_⟩
  · simp only [copyConnections_eq]
    rw [Dict.afterLookups_of_mem _ _ hmem, htr]
  · intro w hw
    simp only [copyConnections_eq, if_true]
    have hkey := foldl_mapAssign_key_mem (fun p : Ptr × Int => s.keyFrameDictionary.translate p.1)
      (fun p => p.2) (h.keyFrame u).mConnectedKeyFrameWeights
      (s.keyFrames g).mConnectedKeyFrameWeights (x := none)
      (Or.inr (List.mem_map.mpr ⟨(v, w), hw, htr⟩))
    obtain ⟨e, he, hek⟩ := List.mem_map.mp hkey
    refine ⟨e.2, ?_⟩
    rw [← hek]
    exact he
  · intro hw
    simp only [copyConnections_eq, if_true]
    exact List.mem_append_right _ (List.mem_map.mpr ⟨v, hw, htr⟩)
  · intro hp hne
    simp only [copyConnections_eq, if_true]
    cases v with
    | none => exact absurd rfl hne
    | some p => rw [hp]; exact htr
  · intro hw
    simp only [copyConnections_eq, if_true]
    exact (foldl_setInsert_mem _ _ _ _).mpr (Or.inr (List.mem_map.mpr ⟨v, hw, htr⟩))
  · intro hw
    simp only [copyConnections_eq, if_true]
    exact (foldl_setInsert_mem _ _ _ _).mpr (Or.inr (List.mem_map.mpr ⟨v, hw, htr⟩))

/-- C3 (witness): the amended statement at the key frame at address 1 of the
dangling-edge heap, whose neighbour at address 9 has no translator entry. -/
theorem C3_unregistered_reference_becomes_null_witness :
    (stateOf (Server.init.seed.exec danglingEdgeHeap
        [.insertNewKeyFrame 1 0 SEQA])).keyFrameDictionary (some 1) = some (some 0) ∧
    ∃ s', (stateOf (Server.init.seed.exec danglingEdgeHeap
        [.insertNewKeyFrame 1 0 SEQA])).CopyKeyFrameConnections danglingEdgeHeap 1 = .ok s' ∧
      s'.keyFrameDictionary (some 9) = some none :=
  ⟨by with_unfolding_all decide,
    let ⟨s', h1, h2, _⟩ :=
      (C3_unregistered_reference_becomes_null danglingEdgeHeap
        (stateOf (Server.init.seed.exec danglingEdgeHeap [.insertNewKeyFrame 1 0 SEQA]))
        1 0 (some 9) (by with_unfolding_all decide) (by with_unfolding_all decide)
        (by with_unfolding_all decide)).2
    ⟨s', h1, h2⟩⟩

/-- C4: let the server be in a state of the merge (well formed, every allocated global map
point being the image of a client-local map point), let `ks` be the key frames of one
sequence, pairwise distinct and all registered, and let `p` be a non-null client-local map
point that has no translator entry yet and occupies a slot of at least one key frame of
`ks`.  Then the second pass over `ks` completes, and afterwards `p` is registered with one
global map point `a`, which
* was allocated during the pass and was added to the global map exactly once,
* is the image of `p` only, while every global map point allocated during the pass is the
  image of some client-local map point (no other point was created for `p`),
* has received exactly the observations `(translate k, j)` for the key frames `k` of `ks`
  and the slots `j` of `k` that hold `p`, in this order, each of them exactly once, and no
  other observation. -/
theorem C4_one_global_point_per_map_point (h : ClientHeap) (ks : List Nat) (s : Server)
    (p : Nat) (hwf : s.WellFormed) (hcov : s.MapPointsCovered) (hks : ks.Nodup)
    (hreg : ∀ k ∈ ks, ∃ g, s.keyFrameDictionary (some k) = some (some g))
    (hp : s.mapPointDictionary (some p) = none)
    (hocc : ∃ k ∈ ks, some p ∈ (h.keyFrame k).mvpMapPoints) :
    ∃ s', forEach (Server.CopyKeyFrameMappoints h) ks s = .ok s' ∧
      ∃ a, s'.mapPointDictionary (some p) = some (some a) ∧
        (s.nMapPoints ≤ a ∧ a < s'.nMapPoints) ∧
        (a ∉ s.globalMap.GetAllMapPoints ∧ s'.globalMap.GetAllMapPoints.count a = 1) ∧
        (∀ q, s'.mapPointDictionary (some q) = some (some a) → q = p) ∧
        (∀ b, s.nMapPoints ≤ b → b < s'.nMapPoints →
          ∃ q, s'.mapPointDictionary (some q) = some (some b)) ∧
        (s'.mapPoints a).mObservations =
          ks.flatMap (fun k =>
            (slotsOf (some p) (h.keyFrame k).mvpMapPoints 0).map
              (fun j => (s.keyFrameDictionary.translate (some k), j))) ∧
        (∀ k ∈ ks, ∀ j : Nat, (h.keyFrame k).mvpMapPoints[j]? = some (some p) →
          (s'.mapPoints a).mObservations.countP
            (fun e => decide (e = (s.keyFrameDictionary.translate (some k), j))) = 1) ∧
        (∀ e ∈ (s'.mapPoints a).mObservations, ∃ k ∈ ks, ∃ j : Nat,
          (h.keyFrame k).mvpMapPoints[j]? = some (some p) ∧
            e = (s.keyFrameDictionary.translate (some k), j)) := by
  obtain ⟨s', hrun, _, _, hent, hfresh, hwf', hcov', hobs⟩ :=
    forEach_CopyKeyFrameMappoints_spec h ks s hreg hwf.2.1
  obtain ⟨k0, hk0, hpk0⟩ := hocc
  obtain ⟨a, ha, hle, hlt⟩ := hfresh (some p) hp (hent k0 hk0 (some p) hpk0)
  have hwf2 := hwf' hwf.2
  have hobsa : (s'.mapPoints a).mObservations =
      ks.flatMap (fun k =>
        (slotsOf (some p) (h.keyFrame k).mvpMapPoints 0).map
          (fun j => (s.keyFrameDictionary.translate (some k), j))) := by
    have h1 := hobs hwf.2 p
    have h2 : s'.observationsOf p = (s'.mapPoints a).mObservations := by
      unfold Server.observationsOf
      rw [ha]
    have h3 : s.observationsOf p = [] := by
      unfold Server.observationsOf
      rw [hp]
    rw [h2, h3, List.nil_append] at h1
    exact h1
  have hinj : ∀ k1 ∈ ks, ∀ k2 ∈ ks,
      s.keyFrameDictionary.translate (some k1) = s.keyFrameDictionary.translate (some k2) →
        k1 = k2 := by
    intro k1 h1 k2 h2 e
    obtain ⟨g1, hg1⟩ := hreg k1 h1
    obtain ⟨g2, hg2⟩ := hreg k2 h2
    rw [Dict.translate_of_entry hg1, Dict.translate_of_entry hg2] at e
    have e' : g1 = g2 := by simpa using e
    subst e'
    exact hwf.1.2.2.1 k1 k2 g1 hg1 hg2
  have hnd := observations_nodup (fun k => s.keyFrameDictionary.translate (some k))
    (fun k => (h.keyFrame k).mvpMapPoints) (some p) ks hks hinj
  refine ⟨s', hrun, a, ha, ⟨hle, hlt⟩, ⟨?_, ?_⟩, ?_, ?_, hobsa, ?_, ?_⟩
  · intro hmem
    have hmem' : a ∈ List.range s.nMapPoints := by
      rw [← hwf.2.2.2.2]
      exact hmem
    have := List.mem_range.mp hmem'
    omega
  · have hmap : s'.globalMap.GetAllMapPoints = List.range s'.nMapPoints := hwf2.2.2.2
    rw [hmap]
    exact List.count_eq_one_of_mem (List.nodup_range _) (List.mem_range.mpr hlt)
  · intro q hq
    exact hwf2.2.2.1 q p a hq ha
  · intro b _ hb
    exact hcov' hcov b hb
  · intro k hk j hj
    rw [hobsa]
    refine (List.count_eq_one_of_mem hnd ?_ :)
    refine List.mem_flatMap.mpr ⟨k, hk, List.mem_map.mpr ⟨j, ?_, rfl⟩⟩
    exact (mem_slotsOf _ _ 0 j).mpr ⟨Nat.zero_le _, by simpa using hj⟩
  · intro e he
    rw [hobsa] at he
    obtain ⟨k, hk, hek⟩ := List.mem_flatMap.mp he
    obtain ⟨j, hj, hje⟩ := List.mem_map.mp hek
    refine ⟨k, hk, j, ?_, hje.symm⟩
    simpa using ((mem_slotsOf _ _ 0 j).mp hj).2

/-- C4 (witness): the statement for the map point at address 5 of the shared-points heap,
which occupies slot 0 of the key frame at address 1 and slot 1 of the key frame at
address 2. -/
theorem C4_one_global_point_per_map_point_witness :
    ∃ s', forEach (Server.CopyKeyFrameMappoints sharedPointsHeap) [1, 2]
        (stateOf ((Server.withClients []).seed.exec sharedPointsHeap
          [.insertNewKeyFrame 1 0 SEQA, .insertNewKeyFrame 2 0 SEQA])) = .ok s' ∧
      ∃ a, s'.mapPointDictionary (some 5) = some (some a) ∧
        (s'.mapPoints a).mObservations = [(some 0, 0), (some 1, 1)] :=
  let ⟨s', h1, a, h2, _, _, _, _, h7, _⟩ :=
    C4_one_global_point_per_map_point sharedPointsHeap [1, 2]
      (stateOf ((Server.withClients []).seed.exec sharedPointsHeap
        [.insertNewKeyFrame 1 0 SEQA, .insertNewKeyFrame 2 0 SEQA]))
      5
      (exec_wellFormed sharedPointsHeap
        [.insertNewKeyFrame 1 0 SEQA, .insertNewKeyFrame 2 0 SEQA] _ _
        (seed_withClients_wellFormed []) (by with_unfolding_all rfl))
      (exec_covered sharedPointsHeap
        [.insertNewKeyFrame 1 0 SEQA, .insertNewKeyFrame 2 0 SEQA] _ _
        (seed_withClients_wellFormed []) (seed_withClients_covered [])
        (by with_unfolding_all rfl))
      (by decide)
      (fun k hk => by
        rcases List.mem_cons.mp hk with e | hk1
        · exact ⟨0, by rw [e]; with_unfolding_all decide⟩
        · rcases List.mem_cons.mp hk1 with e | hk2
          · exact ⟨1, by rw [e]; with_unfolding_all decide⟩
          · exact absurd hk2 (by simp))
      (by with_unfolding_all decide)
      ⟨1, by decide, by with_unfolding_all decide⟩
  ⟨s', h1, a, h2, by rw [h7]; with_unfolding_all decide⟩

/-- C5: in every state that merge operations reach from the seeded server, let `u` be
registered with the global key frame `g`, let every covisibility neighbour of `u` have a
translator entry that registers it (with a global key frame, or null with null), and let
`g` start with empty connection data.  Then `CopyKeyFrameConnections(u)` completes, the
lookups leave the translator entries of the neighbours as they are, the edge map of `g`
contains the entry `translate(v) → w` for every source edge `(u, v, w)`, and the
ordered-connection list and the ordered-weight list of `g` are the source lists, in the
same order, each key frame translated and the weights unchanged.  The source edge set is a
`std::map`, so it holds one edge per neighbour. -/
theorem C5_connections_are_copied (h : ClientHeap) (clients : List System) (ops : List Op)
    (s : Server) (u g : Nat)
    (hreach : (Server.withClients clients).seed.exec h ops = .ok s)
    (hu : s.keyFrameDictionary (some u) = some (some g))
    (hentries : ∀ v ∈ (h.keyFrame u).mConnectedKeyFrameWeights.map Prod.fst,
      ∃ x, s.keyFrameDictionary v = some x ∧ (v ≠ none → x ≠ none))
    (hkeys : ((h.keyFrame u).mConnectedKeyFrameWeights.map Prod.fst).Nodup)
    (hempty : (s.keyFrames g).mConnectedKeyFrameWeights = [] ∧
      (s.keyFrames g).mvpOrderedConnectedKeyFrames = [] ∧
      (s.keyFrames g).mvOrderedWeights = []) :
    ∃ s', s.CopyKeyFrameConnections h u = .ok s' ∧
      (∀ v ∈ (h.keyFrame u).mConnectedKeyFrameWeights.map Prod.fst,
        s'.keyFrameDictionary v = s.keyFrameDictionary v) ∧
      (∀ v w, (v, w) ∈ (h.keyFrame u).mConnectedKeyFrameWeights →
        (s'.keyFrameDictionary.translate v, w) ∈ (s'.keyFrames g).mConnectedKeyFrameWeights) ∧
      (s'.keyFrames g).mvpOrderedConnectedKeyFrames =
        (h.keyFrame u).mvpOrderedConnectedKeyFrames.map s'.keyFrameDictionary.translate ∧
      (s'.keyFrames g).mvOrderedWeights = (h.keyFrame u).mvOrderedWeights := by
  have hwf := exec_wellFormed h ops _ s (seed_withClients_wellFormed clients) hreach
  obtain ⟨he1, he2, he3⟩ := hempty
  have hinj : ∀ v1 ∈ (h.keyFrame u).mConnectedKeyFrameWeights.map Prod.fst,
      ∀ v2 ∈ (h.keyFrame u).mConnectedKeyFrameWeights.map Prod.fst,
        s.keyFrameDictionary.translate v1 = s.keyFrameDictionary.translate v2 → v1 = v2 := by
    intro v1 hv1 v2 hv2 heq
    obtain ⟨x1, hx1, hn1⟩ := hentries v1 hv1
    obtain ⟨x2, hx2, hn2⟩ := hentries v2 hv2
    rw [Dict.translate_of_entry hx1, Dict.translate_of_entry hx2] at heq
    subst heq
    cases v1 with
    | none =>
      cases v2 with
      | none => rfl
      | some k2 =>
        rw [hwf.1.1] at hx1
        have hx : x1 = none := (Option.some.inj hx1).symm
        exact absurd hx (hn2 (by simp))
    | some k1 =>
      cases v2 with
      | none =>
        rw [hwf.1.1] at hx2
        have hx : x1 = none := (Option.some.inj hx2).symm
        exact absurd hx (hn1 (by simp))
      | some k2 =>
        cases x1 with
        | none => exact absurd rfl (hn1 (by simp))
        | some a => rw [hwf.1.2.2.1 k1 k2 a hx1 hx2]
  refine ⟨_, CopyKeyFrameConnections_of_registered h s hu, ?_, ?_, ?_, ?_⟩
  · intro v hv
    simp only [copyConnections_eq]
    obtain ⟨x, hx, _⟩ := hentries v hv
    exact (nullExtends_of_some (Dict.nullExtends_afterLookups _ _) hx).trans hx.symm
  · intro v w hvw
    simp only [copyConnections_eq, if_true, Dict.translate_afterLookups]
    have hnd : ((h.keyFrame u).mConnectedKeyFrameWeights.map
        (fun p : Ptr × Int => s.keyFrameDictionary.translate p.1)).Nodup := by
      have hmap : (h.keyFrame u).mConnectedKeyFrameWeights.map
          (fun p : Ptr × Int => s.keyFrameDictionary.translate p.1) =
          ((h.keyFrame u).mConnectedKeyFrameWeights.map Prod.fst).map
            s.keyFrameDictionary.translate := by
        rw [List.map_map]; rfl
      rw [hmap]
      exact List.Nodup.map_on (fun x hx y hy hxy => hinj x hx y hy hxy) hkeys
    exact foldl_mapAssign_mem (fun p : Ptr × Int => s.keyFrameDictionary.translate p.1)
      (fun p => p.2) _ _ hnd hvw
  · simp only [copyConnections_eq, if_true, Dict.translate_afterLookups, he2, List.nil_append]
  · simp only [copyConnections_eq, if_true, he3, List.nil_append]

/-- C5 (witness): the statement at the key frame at address 1 of the shared-neighbours heap
after it and its neighbours at addresses 8 and 9 have been registered. -/
theorem C5_connections_are_copied_witness :
    ∃ s', (stateOf ((Server.withClients []).seed.exec sharedNeighboursHeap
        [.insertNewKeyFrame 1 0 SEQA, .insertNewKeyFrame 8 0 SEQA,
          .insertNewKeyFrame 9 0 SEQA])).CopyKeyFrameConnections sharedNeighboursHeap 1
          = .ok s' ∧
      (s'.keyFrameDictionary.translate (some 8), 3) ∈
        (s'.keyFrames 0).mConnectedKeyFrameWeights ∧
      (s'.keyFrameDictionary.translate (some 9), 4) ∈
        (s'.keyFrames 0).mConnectedKeyFrameWeights ∧
      (s'.keyFrames 0).mvOrderedWeights = (sharedNeighboursHeap.keyFrame 1).mvOrderedWeights :=
  let ⟨s', h1, _, h3, _, h5⟩ :=
    C5_connections_are_copied sharedNeighboursHeap []
      [.insertNewKeyFrame 1 0 SEQA, .insertNewKeyFrame 8 0 SEQA, .insertNewKeyFrame 9 0 SEQA]
      (stateOf ((Server.withClients []).seed.exec sharedNeighboursHeap
        [.insertNewKeyFrame 1 0 SEQA, .insertNewKeyFrame 8 0 SEQA,
          .insertNewKeyFrame 9 0 SEQA]))
      1 0 (by with_unfolding_all rfl) (by with_unfolding_all decide)
      (by with_unfolding_all decide) (by with_unfolding_all decide)
      (by with_unfolding_all decide)
  ⟨s', h1, h3 (some 8) 3 (by with_unfolding_all decide),
    h3 (some 9) 4 (by with_unfolding_all decide), h5⟩

/-- C6: when the key frame `k` is registered with the global key frame `g` (and the null
entry of the map-point translator is seeded, as `Run` does before any pass),
`CopyKeyFrameMappoints(k)` completes; afterwards the observation list of `g` has the
length of the source list and holds, slot by slot, the translation of the source slot;
every source slot has a translator entry, which is the value the slot holds; null is
translated to null, so a null source slot gives a null global slot; in a state that
satisfies the invariant of the map points (as every state of the merge does) a non-null
source slot is translated to an allocated global map point; and the loop body for a null
slot leaves the translator, the arena of global map points and the global map as they
are: it creates no global map point and adds no observation. -/
theorem C6_slots_mirror_source (h : ClientHeap) (s : Server) (k g : Nat)
    (hk : s.keyFrameDictionary (some k) = some (some g))
    (hseed : s.mapPointDictionary none = some none) :
    ∃ s', s.CopyKeyFrameMappoints h k = .ok s' ∧
      (s'.keyFrames g).mvpMapPoints.length = (h.keyFrame k).mvpMapPoints.length ∧
      (s'.keyFrames g).mvpMapPoints =
        (h.keyFrame k).mvpMapPoints.map s'.mapPointDictionary.translate ∧
      (∀ x ∈ (h.keyFrame k).mvpMapPoints,
        s'.mapPointDictionary x = some (s'.mapPointDictionary.translate x)) ∧
      s'.mapPointDictionary.translate none = none ∧
      (∀ i : Nat, (h.keyFrame k).mvpMapPoints[i]? = some none →
        (s'.keyFrames g).mvpMapPoints[i]? = some none) ∧
      (s.MapPointsWF → ∀ p, some p ∈ (h.keyFrame k).mvpMapPoints →
        ∃ a, s'.mapPointDictionary.translate (some p) = some a ∧ a < s'.nMapPoints) ∧
      (∀ (t : Server) (i : Nat), t.mapPointDictionary none = some none →
        ∃ t', t.copyMapPoint h g i none = .ok t' ∧
          t'.mapPointDictionary = t.mapPointDictionary ∧ t'.mapPoints = t.mapPoints ∧
          t'.nMapPoints = t.nMapPoints ∧ t'.globalMap = t.globalMap) := by
  obtain ⟨s', hrun, pp⟩ := CopyKeyFrameMappoints_spec h s hk hseed
  have hslots : (s'.keyFrames g).mvpMapPoints =
      (h.keyFrame k).mvpMapPoints.map s'.mapPointDictionary.translate := by
    rw [pp.keyFrames g, if_pos rfl]
  have hnull : s'.mapPointDictionary.translate none = none :=
    Dict.translate_of_entry (pp.mono _ _ hseed)
  refine ⟨s', hrun, ?_, hslots, pp.entry, hnull, ?_, ?_, ?_⟩
  · rw [hslots, List.length_map]
  · intro i hi
    rw [hslots, List.getElem?_map, hi]
    simp [hnull]
  · intro hwf p hp
    obtain ⟨a, ha, hlt⟩ := (pp.wf hwf).2.1 p _ (pp.entry _ hp)
    exact ⟨a, ha, hlt⟩
  · intro t i ht
    obtain ⟨t', hrun', st⟩ := copyMapPoint_spec h g t i none ht
    obtain ⟨a1, a2, a3, a4⟩ := st.null rfl
    exact ⟨t', hrun', a1, a2, a3, a4⟩

/-- C6 (witness): the statement at the key frame at address 1 of the shared-points heap,
whose slots hold the map points at addresses 5, null and 6. -/
theorem C6_slots_mirror_source_witness :
    ∃ s', (stateOf (Server.init.seed.exec sharedPointsHeap
        [.insertNewKeyFrame 1 0 SEQA])).CopyKeyFrameMappoints sharedPointsHeap 1 = .ok s' ∧
      (s'.keyFrames 0).mvpMapPoints.length = 3 ∧
      (s'.keyFrames 0).mvpMapPoints =
        [s'.mapPointDictionary.translate (some 5), s'.mapPointDictionary.translate none,
          s'.mapPointDictionary.translate (some 6)] ∧
      s'.mapPointDictionary.translate none = none :=
  let ⟨s', h1, h2, h3, _, h5, _, _⟩ :=
    C6_slots_mirror_source sharedPointsHeap
      (stateOf (Server.init.seed.exec sharedPointsHeap [.insertNewKeyFrame 1 0 SEQA]))
      1 0 (by with_unfolding_all decide) (by with_unfolding_all decide)
  ⟨s', h1, h2, h3, h5⟩

/-- C7 (counterexample).  Sequence A is one key frame with id 0, so the offset used for
sequence B is 1; the key frame of sequence B has the id `2^64 - 1`.  `Run` completes and
the global copy of the B key frame (address 1) has the id 0: the sum wraps around in the
64-bit id, and the id is not the client-local id plus the offset, `2^64`. -/
theorem C7_id_wraps_around :
    globalKeyFramesOf ((Server.withClients [⟨⟨[1], []⟩⟩, ⟨⟨[2], []⟩⟩]).seed.insertSequence
      wrapIdHeap [1] 0 SEQA) = some [0] ∧
    translatedOf ((Server.withClients [⟨⟨[1], []⟩⟩, ⟨⟨[2], []⟩⟩]).Run wrapIdHeap) 2
      = some (some 1) ∧
    idOf ((Server.withClients [⟨⟨[1], []⟩⟩, ⟨⟨[2], []⟩⟩]).Run wrapIdHeap) 1 = some 0 ∧
    (wrapIdHeap.keyFrame 2).mnId + 1 = 2 ^ 64 := by
  with_unfolding_all decide

/-- C7 (amended): let the first two registered clients own the key frames `A` and `B`.  The
three passes over `A` complete in a state `sA` whose global map holds as many key frames
as `A` has; this number, converted to `int`, is the offset used for `B`.  `Run` completes,
and in its outcome every key frame of `B` is registered with a global key frame whose id
is its client-local id plus the offset modulo `2^64`; that is the client-local id plus the
number of key frames of `A` whenever this number is below `2^31` and the sum is below
`2^64`.  The global copy made for the key frame at position `i` of `A` (address `i`) has
the client-local id (an id is below `2^64`), and every key frame of `A` that is not also a
key frame of `B` is still registered with its copy. -/
theorem C7_id_offset_law (h : ClientHeap) (cA cB : System) (rest : List System) :
    ∃ (sA s' : Server),
      (Server.withClients (cA :: cB :: rest)).seed.insertSequence h
        cA.mpMap.GetAllKeyFrames 0 SEQA = .ok sA ∧
      sA.globalMap.GetAllKeyFrames.length = cA.mpMap.GetAllKeyFrames.length ∧
      (Server.withClients (cA :: cB :: rest)).Run h = .ok s' ∧
      (∀ b ∈ cB.mpMap.GetAllKeyFrames, ∃ g,
        s'.keyFrameDictionary (some b) = some (some g) ∧
        (s'.keyFrames g).mnId =
          addOffset (h.keyFrame b).mnId (toInt sA.globalMap.GetAllKeyFrames.length) ∧
        (sA.globalMap.GetAllKeyFrames.length < 2 ^ 31 →
          (h.keyFrame b).mnId + sA.globalMap.GetAllKeyFrames.length < 2 ^ 64 →
          (s'.keyFrames g).mnId
            = (h.keyFrame b).mnId + sA.globalMap.GetAllKeyFrames.length)) ∧
      (∀ i a, cA.mpMap.GetAllKeyFrames[i]? = some a →
        (s'.keyFrames i).mnId = (h.keyFrame a).mnId % 2 ^ 64 ∧
        ((h.keyFrame a).mnId < 2 ^ 64 → (s'.keyFrames i).mnId = (h.keyFrame a).mnId)) ∧
      (∀ a ∈ cA.mpMap.GetAllKeyFrames, a ∉ cB.mpMap.GetAllKeyFrames → ∃ g,
        s'.keyFrameDictionary (some a) = some (some g) ∧
        (s'.keyFrames g).mnId = (h.keyFrame a).mnId % 2 ^ 64) := by
  have hwf0 := seed_withClients_wellFormed (cA :: cB :: rest)
  obtain ⟨sA, hA, hwfA, hnA, hregA, _, hposA, _⟩ :=
    insertSequence_spec h cA.mpMap.GetAllKeyFrames 0 SEQA _ hwf0
  have hcount : sA.globalMap.GetAllKeyFrames.length = cA.mpMap.GetAllKeyFrames.length := by
    have hrange : sA.globalMap.GetAllKeyFrames = List.range sA.nKeyFrames := hwfA.1.2.2.2
    rw [hrange, List.length_range, hnA]
    exact Nat.zero_add _
  obtain ⟨sB, hB, _, _, hregB, hkeepB, _, holdB⟩ :=
    insertSequence_spec h cB.mpMap.GetAllKeyFrames
      (toInt sA.globalMap.GetAllKeyFrames.length) SEQB sA hwfA
  have hmerge : (Server.withClients (cA :: cB :: rest)).seed.merge h
      cA.mpMap.GetAllKeyFrames cB.mpMap.GetAllKeyFrames = .ok sB := by
    unfold Server.merge
    simp only [hA]
    exact hB
  have hrun : (Server.withClients (cA :: cB :: rest)).Run h = .ok sB.FindAprilTagConnections := by
    unfold Server.Run
    have h0 : (Server.withClients (cA :: cB :: rest)).seed.clients[0]? = some cA := by
      simp [Server.seed, Server.withClients, Server.init]
    have h1 : (Server.withClients (cA :: cB :: rest)).seed.clients[1]? = some cB := by
      simp [Server.seed, Server.withClients, Server.init]
    simp only [h0, h1, hmerge]
  have hframe := (foldl_correlate sB.globalMap.GetAllKeyFrames sB).1
  have hdict : sB.FindAprilTagConnections.keyFrameDictionary = sB.keyFrameDictionary :=
    hframe.2.1
  have hid : ∀ g, (sB.FindAprilTagConnections.keyFrames g).mnId = (sB.keyFrames g).mnId :=
    fun g => sameUpToCorrelation_mnId hframe g
  refine ⟨sA, sB.FindAprilTagConnections, hA, hcount, hrun, ?_, ?_, ?_⟩
  · intro b hb
    obtain ⟨g, hg, hgid, _⟩ := hregB b hb
    refine ⟨g, by rw [hdict]; exact hg, by rw [hid, hgid], fun hc hfit => ?_⟩
    rw [hid, hgid]
    exact addOffset_of_fits _ _ hc hfit
  · intro i a hia
    have hi : i < sA.nKeyFrames := by
      rw [hnA]
      have := (List.getElem?_eq_some_iff.mp hia).1
      exact Nat.lt_of_lt_of_le this (Nat.le_add_left _ _)
    have hpos := hposA i a hia
    have hzero : (Server.withClients (cA :: cB :: rest)).seed.nKeyFrames + i = i :=
      Nat.zero_add i
    rw [hzero, addOffset_zero] at hpos
    have hfin : (sB.FindAprilTagConnections.keyFrames i).mnId
        = (h.keyFrame a).mnId % 2 ^ 64 := by
      rw [hid, core_mnId (holdB i hi), hpos]
    exact ⟨hfin, fun hlt => by rw [hfin, Nat.mod_eq_of_lt hlt]⟩
  · intro a ha hab
    obtain ⟨g, hg, hgid, _⟩ := hregA a ha
    obtain ⟨hg', hcore⟩ := hkeepB a g hab hg
    refine ⟨g, by rw [hdict]; exact hg', ?_⟩
    rw [hid, core_mnId hcore, hgid, addOffset_zero]

/-- C7 (witness): the statement for the id scenario: the key frame at address 3 of sequence
B gets its id plus the offset, the number 2 of key frames of sequence A, and the copy of
the key frame at position 0 of sequence A keeps its id. -/
theorem C7_id_offset_law_witness :
    ∃ (sA s' : Server),
      (Server.withClients [⟨⟨[1, 2], []⟩⟩, ⟨⟨[3], []⟩⟩]).Run gapIdHeap = .ok s' ∧
      sA.globalMap.GetAllKeyFrames.length = 2 ∧
      (∃ g, s'.keyFrameDictionary (some 3) = some (some g) ∧
        (s'.keyFrames g).mnId = (gapIdHeap.keyFrame 3).mnId
          + sA.globalMap.GetAllKeyFrames.length) ∧
      (s'.keyFrames 0).mnId = (gapIdHeap.keyFrame 1).mnId :=
  let ⟨sA, s', _, h2, h3, h4, h5, _⟩ :=
    C7_id_offset_law gapIdHeap ⟨⟨[1, 2], []⟩⟩ ⟨⟨[3], []⟩⟩ []
  let ⟨g, hg, _, hfit⟩ := h4 3 (by decide)
  ⟨sA, s', h3, h2, ⟨g, hg, hfit (by rw [h2]; decide) (by rw [h2]; decide)⟩,
    (h5 0 1 (by decide)).2 (by decide)⟩

/-- C8: for a marker-flagged global key frame `k`, `FindAprilTagConnections` either leaves
the correlated key frame of `k` as it was or sets it to the key frame of an entry `e` of
the other sequence's time index whose time stamp differs from that of `k` by strictly
less than the tolerance 0.1; when no candidate exists (`closest_it` is `end()`) or the
difference of the selected candidate is at least 0.1, the field is left as it was.  The
function is total: no error is raised.  In the first correlator scenario of the
specification (A at 1.00, B at 0.80 and 1.15) `Run` completes and the A key frame stays
unmatched. -/
theorem C8_correlated_only_within_tolerance :
    (∀ (s : Server) (k : Nat), (s.keyFrames k).detectedAprilTag = true →
      (((s.FindAprilTagConnections.keyFrames k).aprilTagKeyFrame =
            (s.keyFrames k).aprilTagKeyFrame ∨
          ∃ e, e ∈ (if (s.keyFrames k).sequence = SEQA then s.timeDictionaryB
                    else s.timeDictionaryA) ∧
            (s.closest (s.keyFrames k).mTimeStamp (s.keyFrames k).sequence).1 = some e ∧
            (s.FindAprilTagConnections.keyFrames k).aprilTagKeyFrame = some e.2 ∧
            |(s.keyFrames e.2).mTimeStamp - (s.keyFrames k).mTimeStamp| < tolerance) ∧
        (((s.closest (s.keyFrames k).mTimeStamp (s.keyFrames k).sequence).1 = none ∨
            ∃ e, (s.closest (s.keyFrames k).mTimeStamp (s.keyFrames k).sequence).1 = some e ∧
              tolerance ≤ |(s.keyFrames e.2).mTimeStamp - (s.keyFrames k).mTimeStamp|) →
          (s.FindAprilTagConnections.keyFrames k).aprilTagKeyFrame =
            (s.keyFrames k).aprilTagKeyFrame))) ∧
    correlatedOf (scenarioServer.Run scenarioFarHeap) 0 = some none := by
  refine ⟨fun s k _ => ⟨?_, fun h => ?_⟩, by with_unfolding_all decide⟩
  · have h2 := (foldl_correlate s.globalMap.GetAllKeyFrames s).2 k
    by_cases hk : k ∈ s.globalMap.GetAllKeyFrames
    · cases hacc : s.accepted k with
      | none =>
        left
        simpa [Server.FindAprilTagConnections, hk, hacc] using h2
      | some c =>
        right
        obtain ⟨_, e, he, hec, hlt⟩ := accepted_eq_some s k c hacc
        refine ⟨e, closest_mem s _ _ e he, he, ?_, hlt⟩
        rw [hec]
        simpa [Server.FindAprilTagConnections, hk, hacc] using h2
    · left
      simpa [Server.FindAprilTagConnections, hk] using h2
  · have h2 := (foldl_correlate s.globalMap.GetAllKeyFrames s).2 k
    rw [accepted_eq_none s k h] at h2
    simpa [Server.FindAprilTagConnections] using h2

/-- C8 (witness): in the first correlator scenario the A key frame carries the marker flag,
the selected candidate is the entry at 1.15, whose difference 0.15 reaches the tolerance,
and the correlated key frame is left as it was. -/
theorem C8_correlated_only_within_tolerance_witness :
    (scenarioFarMerged.keyFrames 0).detectedAprilTag = true ∧
    (scenarioFarMerged.FindAprilTagConnections.keyFrames 0).aprilTagKeyFrame =
      (scenarioFarMerged.keyFrames 0).aprilTagKeyFrame :=
  ⟨by with_unfolding_all decide,
    (C8_correlated_only_within_tolerance.1 scenarioFarMerged 0
      (by with_unfolding_all decide)).2
      (Or.inr ⟨(115 / 100, 2), by with_unfolding_all decide, by with_unfolding_all decide⟩)⟩

/-- C9: let `s` be a state that a sequence of merge operations reaches from the seeded
server.  In both translators, translating null gives null; translating a key that has an
entry gives the value of the entry; translating a key without entry gives null instead of
failing (`Dict.translate` is a total function).  A key frame registered by
`InsertNewKeyFrame` is translated to the global key frame created by that call (the
address `s.nKeyFrames` returned by `new`), also after any further operations that do not
register the same key frame again.  A map point registered by the loop body of
`CopyKeyFrameMappoints` is translated to the global map point created there, and the
image of a map point that has an entry stays the same under any further operations. -/
theorem C9_translators_are_total (h : ClientHeap) (clients : List System) (ops : List Op)
    (s : Server) (hrun : (Server.withClients clients).seed.exec h ops = .ok s) :
    (s.keyFrameDictionary.translate none = none ∧
      s.mapPointDictionary.translate none = none) ∧
    (∀ k v, s.keyFrameDictionary k = some v → s.keyFrameDictionary.translate k = v) ∧
    (∀ p v, s.mapPointDictionary p = some v → s.mapPointDictionary.translate p = v) ∧
    (∀ k, s.keyFrameDictionary k = none → s.keyFrameDictionary.translate k = none) ∧
    (∀ p, s.mapPointDictionary p = none → s.mapPointDictionary.translate p = none) ∧
    (∀ k off q ops2 s2, (∀ off2 q2, Op.insertNewKeyFrame k off2 q2 ∉ ops2) →
      (s.InsertNewKeyFrame h k off q).exec h ops2 = .ok s2 →
      s2.keyFrameDictionary.translate (some k) = some s.nKeyFrames) ∧
    (∀ g i p, s.mapPointDictionary (some p) = none →
      ∃ t, s.copyMapPoint h g i (some p) = .ok t ∧
        t.mapPointDictionary.translate (some p) = some s.nMapPoints) ∧
    (∀ p v ops2 s2, s.mapPointDictionary p = some v → s.exec h ops2 = .ok s2 →
      s2.mapPointDictionary.translate p = v) := by
  have hwf := exec_wellFormed h ops _ s (seed_withClients_wellFormed clients) hrun
  refine ⟨⟨Dict.translate_of_entry hwf.1.1, Dict.translate_of_entry hwf.2.1⟩,
    fun k v hk => Dict.translate_of_entry hk, fun p v hp => Dict.translate_of_entry hp,
    fun k hk => by rw [dict_translate_eq, hk]; rfl,
    fun p hp => by rw [dict_translate_eq, hp]; rfl, ?_, ?_, ?_⟩
  · intro k off q ops2 s2 hno hrun2
    have hwf1 : (s.InsertNewKeyFrame h k off q).WellFormed :=
      ⟨insert_keyFramesWF h s k off q hwf.1, insert_mapPointsWF h s k off q hwf.2⟩
    have hentry : (s.InsertNewKeyFrame h k off q).keyFrameDictionary (some k)
        = some (some s.nKeyFrames) := by
      rw [insert_keyFrameDictionary, Dict.assign_self]
    apply Dict.translate_of_entry
    refine exec_keyFrameDictionary_keep h ops2 _ s2 hwf1 hrun2 hentry ?_
    intro k' off' q' hmem hkk
    have hk' : k = k' := by simpa using hkk
    subst hk'
    exact hno off' q' hmem
  · intro g i p hp
    obtain ⟨t, ht, st⟩ := copyMapPoint_spec h g s i (some p) hwf.2.1
    refine ⟨t, ht, ?_⟩
    have ht' := copyMapPoint_of_new h g s i hp
    rw [ht] at ht'
    have hteq := Except.ok.inj ht'
    rw [hteq]
    exact Dict.translate_of_entry (Dict.assign_self _ _ _)
  · intro p v ops2 s2 hp hrun2
    exact Dict.translate_of_entry (exec_mapPointDictionary_mono h ops2 s s2 hwf hrun2 hp)

/-- C9 (witness): after the first and second pass over the two key frames of the
shared-points heap both translators map null to null. -/
theorem C9_translators_are_total_witness :
    ∃ s, (Server.withClients []).seed.exec sharedPointsHeap (sequenceOps [1, 2] 0 SEQA)
        = .ok s ∧
      s.keyFrameDictionary.translate none = none ∧
      s.mapPointDictionary.translate none = none :=
  ⟨stateOf ((Server.withClients []).seed.exec sharedPointsHeap (sequenceOps [1, 2] 0 SEQA)),
    by with_unfolding_all rfl,
    (C9_translators_are_total sharedPointsHeap [] (sequenceOps [1, 2] 0 SEQA)
      (stateOf ((Server.withClients []).seed.exec sharedPointsHeap
        (sequenceOps [1, 2] 0 SEQA)))
      (by with_unfolding_all rfl)).1⟩

/-- C10: in every state that a sequence of merge operations (`InsertNewKeyFrame`,
`CopyKeyFrameMappoints`, `CopyKeyFrameConnections`, with any arguments, in any order)
reaches from the seeded server, and hence in every state of the merge performed by `Run`
and in the outcome of `Run`, the map-point translator is injective on non-null keys: two
distinct non-null client-local map points have distinct, non-null global images. -/
theorem C10_map_point_translator_injective (h : ClientHeap) (clients : List System) :
    (∀ ops s, (Server.withClients clients).seed.exec h ops = .ok s →
      s.MapPointTranslatorInjective) ∧
    (∀ A B s, (Server.withClients clients).seed.merge h A B = .ok s →
      s.MapPointTranslatorInjective) ∧
    (∀ s, (Server.withClients clients).Run h = .ok s → s.MapPointTranslatorInjective) := by
  have hexec : ∀ ops s, (Server.withClients clients).seed.exec h ops = .ok s →
      s.MapPointTranslatorInjective := fun ops s hrun =>
    mapPointsWF_injective
      (exec_wellFormed h ops _ s (seed_withClients_wellFormed clients) hrun).2
  have hmerge : ∀ A B s, (Server.withClients clients).seed.merge h A B = .ok s →
      s.MapPointTranslatorInjective := by
    intro A B s hrun
    obtain ⟨ops, hops⟩ := merge_eq_exec h (Server.withClients clients).seed A B
    rw [hops] at hrun
    exact hexec ops s hrun
  refine ⟨hexec, hmerge, ?_⟩
  intro s hrun
  obtain ⟨c0, c1, s1, _, _, hm, hs⟩ := Run_ok h _ s hrun
  have hinj := hmerge _ _ s1 hm
  have hframe := (foldl_correlate s1.globalMap.GetAllKeyFrames s1).1
  have hdict : s.mapPointDictionary = s1.mapPointDictionary := by
    rw [hs]
    exact hframe.2.2.1
  intro p q gp gq hpq hp hq
  rw [hdict] at hp hq
  exact hinj p q gp gq hpq hp hq

/-- C10 (witness): after the first and second pass over the two key frames of the
shared-points heap, the map points at addresses 5 and 6 have distinct non-null images. -/
theorem C10_map_point_translator_injective_witness :
    ∃ s, (Server.withClients []).seed.exec sharedPointsHeap
        (sequenceOps [1, 2] 0 SEQA) = .ok s ∧
      s.mapPointDictionary (some 5) = some (some 0) ∧
      s.mapPointDictionary (some 6) = some (some 1) ∧
      ((some 0 : Ptr) ≠ none ∧ (some 1 : Ptr) ≠ none ∧ (some 0 : Ptr) ≠ some 1) :=
  ⟨stateOf ((Server.withClients []).seed.exec sharedPointsHeap (sequenceOps [1, 2] 0 SEQA)),
    by with_unfolding_all rfl, by with_unfolding_all decide, by with_unfolding_all decide,
    (C10_map_point_translator_injective sharedPointsHeap []).1 (sequenceOps [1, 2] 0 SEQA)
      (stateOf ((Server.withClients []).seed.exec sharedPointsHeap
        (sequenceOps [1, 2] 0 SEQA)))
      (by with_unfolding_all rfl) 5 6 (some 0) (some 1) (by decide)
      (by with_unfolding_all decide) (by with_unfolding_all decide)⟩

/-- C11 (counterexample): with no client registered, and with a single client registered,
`Run` reads the client registry out of range; no precondition failure is reported. -/
theorem C11_single_client_is_read_out_of_range :
    Server.init.Run gapIdHeap = .error .outOfRange ∧
      (Server.init.RegisterClient ⟨⟨[1], []⟩⟩).Run gapIdHeap = .error .outOfRange :=
  ⟨rfl, rfl⟩

/-- C11 (amended): `Run` does not check the client registry.  `RegisterClient` appends one
client to it; when it holds fewer than two clients, `Run` reads entry 0 or entry 1 out of
range, which is undefined behaviour; when it holds at least two clients, `Run` does not
read the registry out of range, and what it merges are the key frames of entries 0 and
1. -/
theorem C11_registry_is_read_unchecked (h : ClientHeap) (s : Server) :
    (∀ c, (s.RegisterClient c).clients.length = s.clients.length + 1) ∧
      (s.clients.length < 2 → s.Run h = .error .outOfRange) ∧
      (2 ≤ s.clients.length →
        s.Run h ≠ .error .outOfRange ∧
          ∃ c0 c1, s.clients[0]? = some c0 ∧ s.clients[1]? = some c1 ∧
            s.Run h =
              (s.seed.merge h c0.mpMap.GetAllKeyFrames c1.mpMap.GetAllKeyFrames).map
                Server.FindAprilTagConnections) := by
  refine ⟨fun c => by simp [Server.RegisterClient], fun hlen => ?_, fun hlen => ?_⟩
  · have h1 : s.clients[1]? = none := List.getElem?_eq_none (by omega)
    have hc : s.seed.clients = s.clients := rfl
    unfold Server.Run
    simp only [hc, h1]
    cases s.clients[0]? <;> rfl
  · have hc : s.seed.clients = s.clients := rfl
    obtain ⟨c0, h0⟩ : ∃ c0, s.clients[0]? = some c0 :=
      ⟨s.clients[0], List.getElem?_eq_getElem (by omega)⟩
    obtain ⟨c1, h1⟩ : ∃ c1, s.clients[1]? = some c1 :=
      ⟨s.clients[1], List.getElem?_eq_getElem (by omega)⟩
    have hrun : s.Run h =
        (s.seed.merge h c0.mpMap.GetAllKeyFrames c1.mpMap.GetAllKeyFrames).map
          Server.FindAprilTagConnections := by
      unfold Server.Run
      simp only [hc, h0, h1]
      cases s.seed.merge h c0.mpMap.GetAllKeyFrames c1.mpMap.GetAllKeyFrames <;> rfl
    refine ⟨?_, c0, c1, h0, h1, hrun⟩
    rw [hrun]
    cases hm : s.seed.merge h c0.mpMap.GetAllKeyFrames c1.mpMap.GetAllKeyFrames with
    | ok s1 => simp [Except.map]
    | error e =>
      rw [merge_fault h _ _ _ e hm]
      simp [Except.map]

/-- C11 (witness): the amended statement at the server with a single registered client,
where the registry is read out of range, and at the server of the gap scenario, which has
two clients. -/
theorem C11_registry_is_read_unchecked_witness :
    (Server.init.RegisterClient ⟨⟨[1], []⟩⟩).clients.length < 2 ∧
      (Server.init.RegisterClient ⟨⟨[1], []⟩⟩).Run gapIdHeap = .error .outOfRange ∧
      2 ≤ gapIdServer.clients.length ∧
      gapIdServer.Run gapIdHeap ≠ .error .outOfRange :=
  ⟨by decide,
    (C11_registry_is_read_unchecked gapIdHeap (Server.init.RegisterClient ⟨⟨[1], []⟩⟩)).2.1
      (by decide),
    by decide,
    ((C11_registry_is_read_unchecked gapIdHeap gapIdServer).2.2 (by decide)).1⟩

/-- C12: for every vocabulary path (a string shorter than `2^64` characters) the
constructor calls the text loader if and only if the path ends with `.txt`, and the binary
loader otherwise.  For a path shorter than four characters the start position
`size - 4` of the search wraps around to `2^64 - 4 + size`, which lies behind the end of
the path, and the binary loader is called. -/
theorem C12_loader_chosen_by_suffix (strVocFile : List Char)
    (hlen : strVocFile.length < 2 ^ 64) :
    (Server.vocabularyLoader strVocFile = .loadFromTextFile ↔
        ∃ stem, strVocFile = stem ++ txt_suffix) ∧
      (Server.vocabularyLoader strVocFile = .loadFromBinaryFile ↔
        ¬ ∃ stem, strVocFile = stem ++ txt_suffix) ∧
      (strVocFile.length < 4 →
        (strVocFile.length + 2 ^ 64 - txt_suffix.length) % 2 ^ 64 =
            2 ^ 64 - 4 + strVocFile.length ∧
          strVocFile.length < (strVocFile.length + 2 ^ 64 - txt_suffix.length) % 2 ^ 64 ∧
          Server.vocabularyLoader strVocFile = .loadFromBinaryFile) := by
  have htext := vocabularyLoader_text_iff strVocFile hlen
  have hbin : Server.vocabularyLoader strVocFile = .loadFromBinaryFile ↔
      ¬ ∃ stem, strVocFile = stem ++ txt_suffix := by
    rw [← htext]
    cases Server.vocabularyLoader strVocFile <;> simp
  refine ⟨htext, hbin, fun hshort => ?_⟩
  have h4 : txt_suffix.length = 4 := rfl
  have h64 : (2 : Nat) ^ 64 = 18446744073709551616 := by norm_num
  refine ⟨?_, ?_, ?_⟩
  · rw [h4, h64]
    omega
  · rw [h4, h64]
    omega
  · rw [hbin]
    rintro ⟨stem, hstem⟩
    have hl := congrArg List.length hstem
    rw [List.length_append, h4] at hl
    omega

/-- C12 (witness): the path `a.txt` is loaded with the text loader, and the path `ab`,
shorter than the suffix, with the binary loader. -/
theorem C12_loader_chosen_by_suffix_witness :
    ['a', '.', 't', 'x', 't'].length < 2 ^ 64 ∧
      Server.vocabularyLoader ['a', '.', 't', 'x', 't'] = .loadFromTextFile ∧
      Server.vocabularyLoader ['a', 'b'] = .loadFromBinaryFile :=
  ⟨by decide,
    (C12_loader_chosen_by_suffix ['a', '.', 't', 'x', 't'] (by decide)).1.mpr ⟨['a'], rfl⟩,
    ((C12_loader_chosen_by_suffix ['a', 'b'] (by decide)).2.2 (by decide)).2.2⟩

/-- C13: let every covisibility neighbour, ordered connection, parent, child and loop-edge
target of every key frame of sequence A be a key frame of sequence A, and likewise for
sequence B.  Then the merge of `Run` on a fresh server (the three passes over A, then the
three passes over B) completes, and in the second and third pass over each sequence every
translator lookup hits an entry that exists: each key-frame key looked up was registered
with a non-null global key frame by the first pass, no lookup inserts an entry into the
key-frame dictionary, the null entry of the map-point dictionary is present, no map point
has a null entry, and every map point of a slot ends up registered with a non-null global
map point. -/
theorem C13_no_forward_references (h : ClientHeap) (clients : List System) (A B : List Nat)
    (hA : SequenceClosed h A) (hB : SequenceClosed h B) :
    ∃ sA sB,
      (Server.withClients clients).seed.insertSequence h A 0 SEQA = .ok sA ∧
      sA.insertSequence h B (toInt sA.globalMap.GetAllKeyFrames.length) SEQB = .ok sB ∧
      (Server.withClients clients).seed.merge h A B = .ok sB ∧
      PassesHit h A
        (A.foldl (fun t k => t.InsertNewKeyFrame h k 0 SEQA) (Server.withClients clients).seed)
        sA ∧
      PassesHit h B
        (B.foldl
          (fun t k => t.InsertNewKeyFrame h k (toInt sA.globalMap.GetAllKeyFrames.length) SEQB)
          sA)
        sB := by
  obtain ⟨sA, hrunA, hwfA, hpA⟩ := insertSequence_hit h A 0 SEQA _
    (seed_withClients_wellFormed clients) hA
  obtain ⟨sB, hrunB, _, hpB⟩ :=
    insertSequence_hit h B (toInt sA.globalMap.GetAllKeyFrames.length) SEQB sA hwfA hB
  refine ⟨sA, sB, hrunA, hrunB, ?_, hpA, hpB⟩
  unfold Server.merge
  rw [hrunA]
  exact hrunB

/-- C13 (witness): in the closed-sequence scenario, where the key frames at addresses 1
and 2 refer to each other only, and the bare key frame at address 3 forms sequence B, the
merge completes. -/
theorem C13_no_forward_references_witness :
    SequenceClosed closedPairHeap [1, 2] ∧ SequenceClosed closedPairHeap [3] ∧
      ∃ s, (Server.withClients []).seed.merge closedPairHeap [1, 2] [3] = .ok s :=
  have hA : SequenceClosed closedPairHeap [1, 2] := by
    unfold SequenceClosed
    with_unfolding_all decide
  have hB : SequenceClosed closedPairHeap [3] := by
    unfold SequenceClosed
    with_unfolding_all decide
  let ⟨_, sB, _, _, hm, _, _⟩ := C13_no_forward_references closedPairHeap [] [1, 2] [3] hA hB
  ⟨hA, hB, sB, hm⟩

/-- C14: let `u` be registered with the global key frame `g` and let the parent, the
children and the loop-edge targets of `u` all have translator entries.  Then
`CopyKeyFrameConnections(u)` completes and leaves those entries as they are; the parent of
`g` is `translate(parent)` when the source has a parent and is left untouched when it has
none; the child set of `g` consists of its previous elements and of `translate(c)` for
every source child `c`; the loop-edge set of `g` consists of its previous elements and of
`translate(l)` for every source loop edge `l`.  In particular nothing is removed from the
two sets. -/
theorem C14_spanning_tree_is_copied (h : ClientHeap) (s : Server) (u g : Nat)
    (hu : s.keyFrameDictionary (some u) = some (some g))
    (hentries : ∀ v,
      v ∈ (match (h.keyFrame u).mpParent with
          | none => []
          | some p => [some p]) ++ (h.keyFrame u).mspChildrens ++ (h.keyFrame u).mspLoopEdges →
        s.keyFrameDictionary v ≠ none) :
    ∃ s', s.CopyKeyFrameConnections h u = .ok s' ∧
      (∀ v,
        v ∈ (match (h.keyFrame u).mpParent with
            | none => []
            | some p => [some p]) ++ (h.keyFrame u).mspChildrens ++ (h.keyFrame u).mspLoopEdges →
          s'.keyFrameDictionary v = s.keyFrameDictionary v) ∧
      (∀ p, (h.keyFrame u).mpParent = some p →
        (s'.keyFrames g).mpParent = s'.keyFrameDictionary.translate (some p)) ∧
      ((h.keyFrame u).mpParent = none → (s'.keyFrames g).mpParent = (s.keyFrames g).mpParent) ∧
      (∀ x, x ∈ (s'.keyFrames g).mspChildrens ↔
        x ∈ (s.keyFrames g).mspChildrens ∨
          x ∈ (h.keyFrame u).mspChildrens.map s'.keyFrameDictionary.translate) ∧
      (∀ x, x ∈ (s'.keyFrames g).mspLoopEdges ↔
        x ∈ (s.keyFrames g).mspLoopEdges ∨
          x ∈ (h.keyFrame u).mspLoopEdges.map s'.keyFrameDictionary.translate) ∧
      (∀ c ∈ (h.keyFrame u).mspChildrens,
        s'.keyFrameDictionary.translate c ∈ (s'.keyFrames g).mspChildrens) ∧
      (∀ l ∈ (h.keyFrame u).mspLoopEdges,
        s'.keyFrameDictionary.translate l ∈ (s'.keyFrames g).mspLoopEdges) ∧
      (∀ x ∈ (s.keyFrames g).mspChildrens, x ∈ (s'.keyFrames g).mspChildrens) ∧
      (∀ x ∈ (s.keyFrames g).mspLoopEdges, x ∈ (s'.keyFrames g).mspLoopEdges) := by
  have hchildren : ∀ x : Ptr,
      x ∈ (h.keyFrame u).mspChildrens.foldl
          (fun acc c => setInsert acc (s.keyFrameDictionary.translate c))
          (s.keyFrames g).mspChildrens ↔
        x ∈ (s.keyFrames g).mspChildrens ∨
          x ∈ (h.keyFrame u).mspChildrens.map s.keyFrameDictionary.translate :=
    fun x => foldl_setInsert_mem _ _ _ x
  have hloops : ∀ x : Ptr,
      x ∈ (h.keyFrame u).mspLoopEdges.foldl
          (fun acc c => setInsert acc (s.keyFrameDictionary.translate c))
          (s.keyFrames g).mspLoopEdges ↔
        x ∈ (s.keyFrames g).mspLoopEdges ∨
          x ∈ (h.keyFrame u).mspLoopEdges.map s.keyFrameDictionary.translate :=
    fun x => foldl_setInsert_mem _ _ _ x
  refine ⟨_, CopyKeyFrameConnections_of_registered h s hu, ?_, ?_, ?_, ?_, ?_, ?_, ?_, ?_, ?_⟩
  · intro v hv
    simp only [copyConnections_eq]
    cases hsv : s.keyFrameDictionary v with
    | none => exact absurd hsv (hentries v hv)
    | some x => exact nullExtends_of_some (Dict.nullExtends_afterLookups _ _) hsv
  · intro p hp
    simp only [copyConnections_eq, if_true, Dict.translate_afterLookups, hp]
  · intro hp
    simp only [copyConnections_eq, if_true, hp]
  · intro x
    simp only [copyConnections_eq, if_true, Dict.translate_afterLookups]
    exact hchildren x
  · intro x
    simp only [copyConnections_eq, if_true, Dict.translate_afterLookups]
    exact hloops x
  · intro c hc
    simp only [copyConnections_eq, if_true, Dict.translate_afterLookups]
    exact (hchildren _).mpr (Or.inr (List.mem_map.mpr ⟨c, hc, rfl⟩))
  · intro l hl
    simp only [copyConnections_eq, if_true, Dict.translate_afterLookups]
    exact (hloops _).mpr (Or.inr (List.mem_map.mpr ⟨l, hl, rfl⟩))
  · intro x hx
    simp only [copyConnections_eq, if_true]
    exact (hchildren x).mpr (Or.inl hx)
  · intro x hx
    simp only [copyConnections_eq, if_true]
    exact (hloops x).mpr (Or.inl hx)

/-- C14 (witness): the statement at the key frame at address 1 of the spanning-tree heap
after its parent, its child and its loop-edge target have been registered: the global copy
is re-parented under the copy of the parent. -/
theorem C14_spanning_tree_is_copied_witness :
    ∃ s', (stateOf (Server.init.seed.exec spanningTreeHeap
        [.insertNewKeyFrame 1 0 SEQA, .insertNewKeyFrame 2 0 SEQA, .insertNewKeyFrame 3 0 SEQA,
          .insertNewKeyFrame 4 0 SEQA])).CopyKeyFrameConnections spanningTreeHeap 1 = .ok s' ∧
      (s'.keyFrames 0).mpParent = s'.keyFrameDictionary.translate (some 2) ∧
      s'.keyFrameDictionary.translate (some 3) ∈ (s'.keyFrames 0).mspChildrens ∧
      s'.keyFrameDictionary.translate (some 4) ∈ (s'.keyFrames 0).mspLoopEdges :=
  let ⟨s', h1, _, h3, _, _, _, h7, h8, _⟩ :=
    C14_spanning_tree_is_copied spanningTreeHeap
      (stateOf (Server.init.seed.exec spanningTreeHeap
        [.insertNewKeyFrame 1 0 SEQA, .insertNewKeyFrame 2 0 SEQA, .insertNewKeyFrame 3 0 SEQA,
          .insertNewKeyFrame 4 0 SEQA]))
      1 0 (by with_unfolding_all decide) (by with_unfolding_all decide)
  ⟨s', h1, h3 2 (by with_unfolding_all decide), h7 (some 3) (by with_unfolding_all decide),
    h8 (some 4) (by with_unfolding_all decide)⟩

/-- C15: `FindAprilTagConnections` changes nothing but correlated-key-frame fields.  The
client registry, both translator dictionaries, both time indices, the global map (its
key-frame set and its map-point set), the arena of global map points (hence every
observation of a map point) and the allocation counters are unchanged; every global key
frame keeps its id, time stamp, sequence tag, marker flag, observation slots, covisibility
edges, ordered connections and weights, parent, children and loop edges; and a key frame
without the marker flag is left entirely unchanged. -/
theorem C15_correlation_pass_frame (s : Server) :
    s.FindAprilTagConnections.clients = s.clients ∧
    s.FindAprilTagConnections.keyFrameDictionary = s.keyFrameDictionary ∧
    s.FindAprilTagConnections.mapPointDictionary = s.mapPointDictionary ∧
    s.FindAprilTagConnections.timeDictionaryA = s.timeDictionaryA ∧
    s.FindAprilTagConnections.timeDictionaryB = s.timeDictionaryB ∧
    s.FindAprilTagConnections.globalMap.mspKeyFrames = s.globalMap.mspKeyFrames ∧
    s.FindAprilTagConnections.globalMap.mspMapPoints = s.globalMap.mspMapPoints ∧
    s.FindAprilTagConnections.mapPoints = s.mapPoints ∧
    s.FindAprilTagConnections.nKeyFrames = s.nKeyFrames ∧
    s.FindAprilTagConnections.nMapPoints = s.nMapPoints ∧
    (∀ g, (s.FindAprilTagConnections.keyFrames g).mnId = (s.keyFrames g).mnId ∧
      (s.FindAprilTagConnections.keyFrames g).mTimeStamp = (s.keyFrames g).mTimeStamp ∧
      (s.FindAprilTagConnections.keyFrames g).sequence = (s.keyFrames g).sequence ∧
      (s.FindAprilTagConnections.keyFrames g).detectedAprilTag
        = (s.keyFrames g).detectedAprilTag ∧
      (s.FindAprilTagConnections.keyFrames g).mvpMapPoints = (s.keyFrames g).mvpMapPoints ∧
      (s.FindAprilTagConnections.keyFrames g).mConnectedKeyFrameWeights
        = (s.keyFrames g).mConnectedKeyFrameWeights ∧
      (s.FindAprilTagConnections.keyFrames g).mvpOrderedConnectedKeyFrames
        = (s.keyFrames g).mvpOrderedConnectedKeyFrames ∧
      (s.FindAprilTagConnections.keyFrames g).mvOrderedWeights
        = (s.keyFrames g).mvOrderedWeights ∧
      (s.FindAprilTagConnections.keyFrames g).mpParent = (s.keyFrames g).mpParent ∧
      (s.FindAprilTagConnections.keyFrames g).mspChildrens = (s.keyFrames g).mspChildrens ∧
      (s.FindAprilTagConnections.keyFrames g).mspLoopEdges = (s.keyFrames g).mspLoopEdges) ∧
    (∀ g, (s.keyFrames g).detectedAprilTag = false →
      s.FindAprilTagConnections.keyFrames g = s.keyFrames g) := by
  obtain ⟨⟨a1, a2, a3, a4, a5, a6, a7, a8, a9, a10⟩, hapril⟩ :=
    foldl_correlate s.globalMap.GetAllKeyFrames s
  refine ⟨a1, a2, a3, a4, a5, congrArg Map.mspKeyFrames a6, congrArg Map.mspMapPoints a6, a8,
    a7, a9, fun g => ?_, fun g hd => ?_⟩
  · have hg := a10 g
    simp only [KeyFrame.withoutCorrelation, KeyFrame.mk.injEq] at hg
    obtain ⟨b1, b2, b3, b4, _, b6, b7, b8, b9, b10, b11, b12⟩ := hg
    exact ⟨b1, b2, b3, b4, b6, b7, b8, b9, b10, b11, b12⟩
  · apply keyFrame_eq_of_withoutCorrelation (a10 g)
    have h2 := hapril g
    rw [accepted_of_not_detected s g hd] at h2
    simpa using h2

/-- C15 (witness): in the first correlator scenario the global copy at address 1, a key
frame of sequence B without the marker flag, is left entirely unchanged. -/
theorem C15_correlation_pass_frame_witness :
    (scenarioFarMerged.keyFrames 1).detectedAprilTag = false ∧
    scenarioFarMerged.FindAprilTagConnections.keyFrames 1 = scenarioFarMerged.keyFrames 1 :=
  ⟨by with_unfolding_all decide,
    (C15_correlation_pass_frame scenarioFarMerged).2.2.2.2.2.2.2.2.2.2.2 1
      (by with_unfolding_all decide)⟩

/-- C16: in any state, each of the three merge operations only grows the translator.
`InsertNewKeyFrame` always completes, and whenever `CopyKeyFrameMappoints` or
`CopyKeyFrameConnections` completes, every key present in the key-frame or map-point
dictionary before the operation is present after it and every registered map point keeps
its global image; the only entry of the key-frame dictionary whose image an operation
changes is the one of the key frame that `InsertNewKeyFrame` registers.  The same holds for
every sequence of merge operations that completes. -/
theorem C16_translators_only_grow (h : ClientHeap) (s : Server) :
    (∀ k off q, s.TranslatorGrows (s.InsertNewKeyFrame h k off q) ∧
        (s.InsertNewKeyFrame h k off q).keyFrameDictionary (some k) = some (some s.nKeyFrames) ∧
        ∀ key, key ≠ some k →
          (s.InsertNewKeyFrame h k off q).keyFrameDictionary key = s.keyFrameDictionary key) ∧
      (∀ k s', s.CopyKeyFrameMappoints h k = .ok s' →
        s.TranslatorGrows s' ∧
          ∀ key v, s.keyFrameDictionary key = some v → s'.keyFrameDictionary key = some v) ∧
      (∀ k s', s.CopyKeyFrameConnections h k = .ok s' →
        s.TranslatorGrows s' ∧
          ∀ key v, s.keyFrameDictionary key = some v → s'.keyFrameDictionary key = some v) ∧
      ∀ ops s', s.exec h ops = .ok s' →
        s.TranslatorGrows s' ∧
          ∀ key v, s.keyFrameDictionary key = some v →
            (∀ k off q, Op.insertNewKeyFrame k off q ∈ ops → key ≠ some k) →
            s'.keyFrameDictionary key = some v := by
  refine ⟨fun k off q => ⟨?_, ?_, fun key hkey => ?_⟩, fun k s' hrun => ⟨?_, ?_⟩,
    fun k s' hrun => ⟨?_, ?_⟩, fun ops s' hrun => exec_dictionaries h ops s s' hrun⟩
  · exact translatorGrows_of_step h s _ (Op.insertNewKeyFrame k off q) rfl
  · rw [insert_keyFrameDictionary, Dict.assign_self]
  · rw [insert_keyFrameDictionary, Dict.assign_of_ne _ _ hkey]
  · exact translatorGrows_of_step h s s' (Op.copyKeyFrameMappoints k) hrun
  · intro key v hv
    exact (step_dictionaries h s s' (Op.copyKeyFrameMappoints k) hrun).1 key v hv
      (fun _ _ _ hop => by simp at hop)
  · exact translatorGrows_of_step h s s' (Op.copyKeyFrameConnections k) hrun
  · intro key v hv
    exact (step_dictionaries h s s' (Op.copyKeyFrameConnections k) hrun).1 key v hv
      (fun _ _ _ hop => by simp at hop)

/-- C16 (witness): in the shared-points scenario the second pass over the first key frame
completes from the state in which both key frames are registered, and the entry of the
second key frame is still the one that its registration made. -/
theorem C16_translators_only_grow_witness :
    ∃ s', (stateOf (Server.init.seed.exec sharedPointsHeap
        [.insertNewKeyFrame 1 0 SEQA, .insertNewKeyFrame 2 0 SEQA])).CopyKeyFrameMappoints
          sharedPointsHeap 1 = .ok s' ∧
      s'.keyFrameDictionary (some 2) = some (some 1) :=
  have hrun : ∃ s', (stateOf (Server.init.seed.exec sharedPointsHeap
      [.insertNewKeyFrame 1 0 SEQA, .insertNewKeyFrame 2 0 SEQA])).CopyKeyFrameMappoints
        sharedPointsHeap 1 = .ok s' := by
    have hk : (stateOf (Server.init.seed.exec sharedPointsHeap
        [.insertNewKeyFrame 1 0 SEQA, .insertNewKeyFrame 2 0 SEQA])).keyFrameDictionary
          (some 1) = some (some 0) := by with_unfolding_all decide
    have hseed : (stateOf (Server.init.seed.exec sharedPointsHeap
        [.insertNewKeyFrame 1 0 SEQA, .insertNewKeyFrame 2 0 SEQA])).mapPointDictionary
          none = some none := by with_unfolding_all decide
    obtain ⟨t, ht, _⟩ := CopyKeyFrameMappoints_spec sharedPointsHeap _ hk hseed
    exact ⟨t, ht⟩
  let ⟨s', hs'⟩ := hrun
  ⟨s', hs', ((C16_translators_only_grow sharedPointsHeap _).2.1 1 s' hs').2 (some 2) (some 1)
    (by with_unfolding_all decide)⟩

/-- C17: when `Run` completes on a freshly constructed server, time index A holds only
global key frames tagged `SEQA` and time index B only global key frames tagged `SEQB`, each
stored under its own time stamp; and every global key frame that carries a correlated key
frame carries one whose sequence tag differs from its own. -/
theorem C17_time_indices_hold_own_sequence (h : ClientHeap) (clients : List System)
    (s' : Server) (hrun : (Server.withClients clients).Run h = .ok s') :
    (∀ e ∈ s'.timeDictionaryA,
        (s'.keyFrames e.2).sequence = SEQA ∧ (s'.keyFrames e.2).mTimeStamp = e.1) ∧
      (∀ e ∈ s'.timeDictionaryB,
        (s'.keyFrames e.2).sequence = SEQB ∧ (s'.keyFrames e.2).mTimeStamp = e.1) ∧
      ∀ g c, (s'.keyFrames g).aprilTagKeyFrame = some c →
        (s'.keyFrames c).sequence ≠ (s'.keyFrames g).sequence := by
  obtain ⟨c0, c1, s1, _, _, hm, hs⟩ := Run_ok h _ s' hrun
  obtain ⟨_, ht, hu⟩ := merge_withClients_invariants h clients _ _ s1 hm
  obtain ⟨hframe, hfield⟩ := foldl_correlate s1.globalMap.GetAllKeyFrames s1
  have hs1 : s' = s1.globalMap.GetAllKeyFrames.foldl Server.correlate s1 := hs
  rw [← hs1] at hframe hfield
  have ht' := sameUpToCorrelation_timeIndexWF hframe ht
  refine ⟨fun e he => ?_, fun e he => ?_, fun g c hgc => ?_⟩
  · obtain ⟨_, a2, a3⟩ := ht'.2.2.1 e he
    exact ⟨a3, a2⟩
  · obtain ⟨a1, a2, a3⟩ := ht'.2.2.2 e he
    refine ⟨?_, a2⟩
    rw [hframe.2.2.2.2.2.2.1] at a1
    rw [sameUpToCorrelation_sequence hframe] at a3 ⊢
    rcases hu.2 e.2 a1 with h3 | h3
    · exact absurd h3 a3
    · exact h3
  · rw [hfield g] at hgc
    rw [sameUpToCorrelation_sequence hframe, sameUpToCorrelation_sequence hframe]
    by_cases hg : g ∈ s1.globalMap.GetAllKeyFrames
    · rw [if_pos hg] at hgc
      cases hacc : s1.accepted g with
      | none =>
        rw [hacc] at hgc
        simp only [hu.1 g] at hgc
        exact absurd hgc (by simp)
      | some c' =>
        rw [hacc] at hgc
        simp only [Option.some.injEq] at hgc
        rw [← hgc]
        exact accepted_other_sequence s1 ht g c' hacc
    · rw [if_neg hg] at hgc
      simp only [hu.1 g] at hgc
      exact absurd hgc (by simp)

/-- C17 (witness): in the second correlator scenario `Run` completes, the key frame of
sequence A is correlated with the global key frame at address 2, and that key frame carries
another sequence tag. -/
theorem C17_time_indices_hold_own_sequence_witness :
    ∃ s', (Server.withClients [⟨⟨[1], []⟩⟩, ⟨⟨[2, 3], []⟩⟩]).Run scenarioNearHeap = .ok s' ∧
      (s'.keyFrames 0).aprilTagKeyFrame = some 2 ∧
      (s'.keyFrames 2).sequence ≠ (s'.keyFrames 0).sequence :=
  ⟨stateOf ((Server.withClients [⟨⟨[1], []⟩⟩, ⟨⟨[2, 3], []⟩⟩]).Run scenarioNearHeap),
    by with_unfolding_all rfl, by with_unfolding_all decide,
    (C17_time_indices_hold_own_sequence scenarioNearHeap [⟨⟨[1], []⟩⟩, ⟨⟨[2, 3], []⟩⟩]
      (stateOf ((Server.withClients [⟨⟨[1], []⟩⟩, ⟨⟨[2, 3], []⟩⟩]).Run scenarioNearHeap))
      (by with_unfolding_all rfl)).2.2 0 2 (by with_unfolding_all decide)⟩

/-- C18 (counterexample).  The key frame of sequence A carries the marker flag and the time
stamp `t = 7 * 2^-60`; sequence B has one key frame, at the double nearest to 0.1.  That
entry is `lower_it`, its time stamp is not earlier than `t`, and its time stamp minus `t`
is below one tenth.  The double nearest to this difference is the double `0.1` itself, the
test `closestDiff < 0.1` fails, and `Run` leaves the correlated key frame null. -/
theorem C18_difference_rounds_up_to_tolerance :
    (roundingMerged.keyFrames 0).detectedAprilTag = true ∧
    (roundingMerged.keyFrames 0).mTimeStamp = 7 / 1152921504606846976 ∧
    roundingMerged.lower_it 0 = some (toleranceDouble, 1) ∧
    toleranceDouble - 7 / 1152921504606846976 < tolerance ∧
    absDifference toleranceDouble (7 / 1152921504606846976) = some toleranceDouble ∧
    correlatedOf ((Server.withClients [⟨⟨[1], []⟩⟩, ⟨⟨[2], []⟩⟩]).Run roundingHeap) 0
      = some none :=
  ⟨by with_unfolding_all decide, by with_unfolding_all rfl, by with_unfolding_all rfl,
    by with_unfolding_all decide,
    by set_option maxRecDepth 4000 in with_unfolding_all rfl,
    by set_option maxRecDepth 4000 in with_unfolding_all decide⟩

/-- C18 (amended): the merge of `Run` on a fresh server leaves the time indices well formed
(sorted, each entry stored under the time stamp of its key frame), and the correlation
pass keeps them so at every iteration.  In every such state, for a marker-flagged global
key frame `k` with time stamp `t`: `lowerTimeDiff <= upperTimeDiff` holds, so `closest_it`
is `lower_it` and the second branch is never taken; `lower_it` is the entry of the other
sequence's index with the smallest key that is not less than `t`, and it is `end()` only
when every key is less than `t`; a candidate is accepted exactly when `lower_it` is an
entry for which the test `std::abs(key - t) < 0.1` holds in double arithmetic, that is,
when the double nearest to its key minus `t` is below the double `0.1`, and then it is the
key frame of that entry; in that case the key minus `t` is below one tenth, and the time
stamp of the candidate is not earlier than `t`; for a key frame of the global map the pass
sets the correlated key frame to that candidate, and leaves the field as it was when there
is none. -/
theorem C18_lower_bound_is_always_selected :
    (∀ h clients A B s1, (Server.withClients clients).seed.merge h A B = .ok s1 →
        s1.TimeIndexWF) ∧
      ∀ s : Server, s.TimeIndexWF →
        (∀ l : List Nat, (l.foldl Server.correlate s).TimeIndexWF) ∧
        ∀ k, (s.keyFrames k).detectedAprilTag = true →
          leInf (s.timeDiff (s.lower_it k) (s.keyFrames k).mTimeStamp)
              (s.timeDiff (s.upper_it k) (s.keyFrames k).mTimeStamp) = true ∧
            (s.closest (s.keyFrames k).mTimeStamp (s.keyFrames k).sequence).1 = s.lower_it k ∧
            (∀ e, s.lower_it k = some e →
              e ∈ s.otherTimeIndex (s.keyFrames k).sequence ∧
                (s.keyFrames k).mTimeStamp ≤ e.1 ∧
                ∀ e' ∈ s.otherTimeIndex (s.keyFrames k).sequence,
                  (s.keyFrames k).mTimeStamp ≤ e'.1 → e.1 ≤ e'.1) ∧
            (s.lower_it k = none →
              ∀ e' ∈ s.otherTimeIndex (s.keyFrames k).sequence,
                e'.1 < (s.keyFrames k).mTimeStamp) ∧
            (∀ c, s.accepted k = some c ↔
              ∃ e, s.lower_it k = some e ∧
                ltInf (absDifference e.1 (s.keyFrames k).mTimeStamp) (some toleranceDouble)
                  = true ∧
                e.2 = c) ∧
            (∀ e, s.lower_it k = some e →
              (ltInf (absDifference e.1 (s.keyFrames k).mTimeStamp) (some toleranceDouble)
                  = true ↔
                roundNonneg (e.1 - (s.keyFrames k).mTimeStamp) < toleranceDouble) ∧
              (roundNonneg (e.1 - (s.keyFrames k).mTimeStamp) < toleranceDouble →
                e.1 - (s.keyFrames k).mTimeStamp < tolerance)) ∧
            (∀ c, s.accepted k = some c →
              (s.keyFrames k).mTimeStamp ≤ (s.keyFrames c).mTimeStamp) ∧
            (k ∈ s.globalMap.GetAllKeyFrames →
              (s.FindAprilTagConnections.keyFrames k).aprilTagKeyFrame =
                match s.accepted k with
                | some c => some c
                | none => (s.keyFrames k).aprilTagKeyFrame) := by
  refine ⟨fun h clients A B s1 hm => (merge_withClients_invariants h clients A B s1 hm).2.1,
    fun s hwf => ⟨fun l => sameUpToCorrelation_timeIndexWF (foldl_correlate l s).1 hwf,
      fun k hflag => ?_⟩⟩
  obtain ⟨hsorted, hkey⟩ := otherTimeIndex_wf s hwf (s.keyFrames k).sequence
  obtain ⟨hle, hclosest⟩ :=
    closest_of_timeIndexWF s hwf (s.keyFrames k).mTimeStamp (s.keyFrames k).sequence
  have hacc := accepted_of_timeIndexWF s hwf k hflag
  have hround : ∀ e, s.lower_it k = some e →
      (ltInf (absDifference e.1 (s.keyFrames k).mTimeStamp) (some toleranceDouble) = true ↔
        roundNonneg (e.1 - (s.keyFrames k).mTimeStamp) < toleranceDouble) := by
    intro e he
    obtain ⟨_, a2, _⟩ := lower_bound_some _ hsorted _ e he
    have hiff := ltInf_absDifference e.1 (s.keyFrames k).mTimeStamp
    rw [abs_of_nonneg (sub_nonneg.mpr a2)] at hiff
    exact hiff
  have hiff : ∀ c, s.accepted k = some c ↔
      ∃ e, s.lower_it k = some e ∧
        ltInf (absDifference e.1 (s.keyFrames k).mTimeStamp) (some toleranceDouble) = true ∧
        e.2 = c := by
    intro c
    rw [hacc]
    cases hl : lower_bound (s.otherTimeIndex (s.keyFrames k).sequence)
        (s.keyFrames k).mTimeStamp with
    | none =>
      have hl' : s.lower_it k = none := hl
      simp [hl']
    | some e =>
      have hl' : s.lower_it k = some e := hl
      have hr := hround e hl'
      simp only [hl', Option.some.injEq]
      by_cases hlt : roundNonneg (e.1 - (s.keyFrames k).mTimeStamp) < toleranceDouble
      · rw [if_pos hlt]
        constructor
        · intro hc
          exact ⟨e, rfl, hr.mpr hlt, Option.some.inj hc⟩
        · rintro ⟨e', he', _, hc⟩
          rw [he']
          exact congrArg some hc
      · rw [if_neg hlt]
        constructor
        · intro hc
          exact absurd hc (by simp)
        · rintro ⟨e', he', hlt', _⟩
          rw [← he'] at hlt'
          exact absurd (hr.mp hlt') hlt
  refine ⟨hle, ?_, fun e he => lower_bound_some _ hsorted _ e he,
    fun hn => lower_bound_none _ _ hn, hiff, fun e he => ⟨hround e he, fun hlt => ?_⟩,
    fun c hc => ?_, fun hk => ?_⟩
  · rw [hclosest]
    rfl
  · obtain ⟨_, a2, _⟩ := lower_bound_some _ hsorted _ e he
    have := lt_tolerance_of_rounded (e.1 - (s.keyFrames k).mTimeStamp)
      (by rw [abs_of_nonneg (sub_nonneg.mpr a2)]; exact hlt)
    rw [abs_of_nonneg (sub_nonneg.mpr a2)] at this
    exact this
  · obtain ⟨e, he, _, hec⟩ := (hiff c).mp hc
    obtain ⟨a1, a2, _⟩ := lower_bound_some _ hsorted _ e he
    rw [← hec, hkey e a1]
    exact a2
  · have h2 := (foldl_correlate s.globalMap.GetAllKeyFrames s).2 k
    rw [if_pos hk] at h2
    exact h2

/-- C18 (witness): in the second correlator scenario the key frame of sequence A, at
1.00, carries the marker flag; `lower_it` is the entry at 1.08, not the nearer entry at
0.95, and the pass sets the correlated key frame to the key frame of that entry. -/
theorem C18_lower_bound_is_always_selected_witness :
    scenarioNearMerged.lower_it 0 = some (108 / 100, 2) ∧
      (scenarioNearMerged.closest (scenarioNearMerged.keyFrames 0).mTimeStamp
        (scenarioNearMerged.keyFrames 0).sequence).1 = scenarioNearMerged.lower_it 0 ∧
      (scenarioNearMerged.FindAprilTagConnections.keyFrames 0).aprilTagKeyFrame = some 2 :=
  have hwf : scenarioNearMerged.TimeIndexWF :=
    C18_lower_bound_is_always_selected.1 scenarioNearHeap [⟨⟨[1], []⟩⟩, ⟨⟨[2, 3], []⟩⟩]
      [1] [2, 3] scenarioNearMerged (by with_unfolding_all rfl)
  have hk := (C18_lower_bound_is_always_selected.2 scenarioNearMerged hwf).2 0
    (by with_unfolding_all decide)
  ⟨by with_unfolding_all decide, hk.2.1,
    (hk.2.2.2.2.2.2.2 (by with_unfolding_all decide)).trans (by with_unfolding_all decide)⟩

/-- C19: let the time indices be well formed.  When `InsertNewKeyFrame` is called for two
distinct key frames of the same sequence that carry the same time stamp `t`, the time index
of that sequence holds the second global copy under `t` and no other entry under `t`, the
first copy is in no entry of the index, and both copies are in the global map and in the
translator.  In general, after the first pass over a list of key frames the keys of the
index of their sequence are pairwise distinct, they are the keys it had before and the
time stamps of the inserted key frames, the other index is not touched, and the entry under
the time stamp of a key frame that is not followed by a key frame with the same time stamp
is the global copy of that key frame. -/
theorem C19_time_index_keeps_last_copy (h : ClientHeap) (s : Server) (hwf : s.TimeIndexWF)
    (off : Int) (q : Int) :
    (∀ k1 k2, k1 ≠ k2 → (h.keyFrame k1).mTimeStamp = (h.keyFrame k2).mTimeStamp →
        ((h.keyFrame k2).mTimeStamp, s.nKeyFrames + 1) ∈
            ((s.InsertNewKeyFrame h k1 off q).InsertNewKeyFrame h k2 off q).timeIndex q ∧
          (∀ e ∈ ((s.InsertNewKeyFrame h k1 off q).InsertNewKeyFrame h k2 off q).timeIndex q,
            e.1 = (h.keyFrame k2).mTimeStamp → e.2 = s.nKeyFrames + 1) ∧
          (∀ e ∈ ((s.InsertNewKeyFrame h k1 off q).InsertNewKeyFrame h k2 off q).timeIndex q,
            e.2 ≠ s.nKeyFrames) ∧
          s.nKeyFrames ∈
            ((s.InsertNewKeyFrame h k1 off q).InsertNewKeyFrame h k2 off
              q).globalMap.GetAllKeyFrames ∧
          s.nKeyFrames + 1 ∈
            ((s.InsertNewKeyFrame h k1 off q).InsertNewKeyFrame h k2 off
              q).globalMap.GetAllKeyFrames ∧
          ((s.InsertNewKeyFrame h k1 off q).InsertNewKeyFrame h k2 off q).keyFrameDictionary
              (some k1) = some (some s.nKeyFrames) ∧
          ((s.InsertNewKeyFrame h k1 off q).InsertNewKeyFrame h k2 off q).keyFrameDictionary
              (some k2) = some (some (s.nKeyFrames + 1)) ∧
          (((s.InsertNewKeyFrame h k1 off q).InsertNewKeyFrame h k2 off q).keyFrames
              s.nKeyFrames).mTimeStamp = (h.keyFrame k1).mTimeStamp ∧
          (((s.InsertNewKeyFrame h k1 off q).InsertNewKeyFrame h k2 off q).keyFrames
              (s.nKeyFrames + 1)).mTimeStamp = (h.keyFrame k2).mTimeStamp) ∧
      ∀ ks : List Nat,
        (((ks.foldl (fun t k => t.InsertNewKeyFrame h k off q) s).timeIndex q).map
            Prod.fst).Nodup ∧
          (∀ x, x ∈ ((ks.foldl (fun t k => t.InsertNewKeyFrame h k off q) s).timeIndex q).map
                Prod.fst ↔
              x ∈ (s.timeIndex q).map Prod.fst ∨ ∃ k ∈ ks, (h.keyFrame k).mTimeStamp = x) ∧
          (ks.foldl (fun t k => t.InsertNewKeyFrame h k off q) s).otherTimeIndex q
            = s.otherTimeIndex q ∧
          ∀ front k back, ks = front ++ k :: back →
            (∀ k' ∈ back, (h.keyFrame k').mTimeStamp ≠ (h.keyFrame k).mTimeStamp) →
            ((h.keyFrame k).mTimeStamp, s.nKeyFrames + front.length) ∈
                (ks.foldl (fun t k => t.InsertNewKeyFrame h k off q) s).timeIndex q ∧
              ∀ e ∈ (ks.foldl (fun t k => t.InsertNewKeyFrame h k off q) s).timeIndex q,
                e.1 = (h.keyFrame k).mTimeStamp → e.2 = s.nKeyFrames + front.length := by
  obtain ⟨hs, hlt⟩ := timeIndex_wf s hwf q
  refine ⟨fun k1 k2 hne hts => ?_, fun ks => ?_⟩
  · have hmem := insert_twice_timeIndex h s hwf off q k1 k2 hts
    refine ⟨(hmem _).mpr (Or.inl rfl), fun e he hkey => ?_, fun e he => ?_, ?_, ?_, ?_, ?_,
      ?_, ?_⟩
    · rcases (hmem e).mp he with h1 | ⟨_, h1⟩
      · rw [h1]
      · exact absurd hkey h1
    · rcases (hmem e).mp he with h1 | ⟨h1, _⟩
      · rw [h1]
        exact Nat.succ_ne_self _
      · exact Nat.ne_of_lt (hlt e h1)
    · show s.nKeyFrames ∈ _
      unfold Map.GetAllKeyFrames
      rw [insert_mspKeyFrames, insert_mspKeyFrames]
      exact (mem_setInsert _ _ _).mpr (Or.inl ((mem_setInsert _ _ _).mpr (Or.inr rfl)))
    · unfold Map.GetAllKeyFrames
      rw [insert_mspKeyFrames, insert_nKeyFrames]
      exact (mem_setInsert _ _ _).mpr (Or.inr rfl)
    · rw [insert_keyFrameDictionary, insert_keyFrameDictionary,
        Dict.assign_of_ne _ _ (show (some k1 : Ptr) ≠ some k2 by simpa using hne),
        Dict.assign_self]
    · rw [insert_keyFrameDictionary, Dict.assign_self, insert_nKeyFrames]
    · rw [insert_keyFrames_old h _ k2 off q (by rw [insert_nKeyFrames]; omega)]
      exact (insert_keyFrames_new h s k1 off q).1
    · have := (insert_keyFrames_new h (s.InsertNewKeyFrame h k1 off q) k2 off q).1
      rw [insert_nKeyFrames] at this
      exact this
  · obtain ⟨a1, a2, a3, _⟩ := foldl_insert_timeIndex h ks off q s hs
    refine ⟨timeSorted_keys_nodup _ a1, a3, a2, fun front k back hks hback => ?_⟩
    have hin : ((h.keyFrame k).mTimeStamp, s.nKeyFrames + front.length) ∈
        (ks.foldl (fun t k => t.InsertNewKeyFrame h k off q) s).timeIndex q := by
      rw [hks, List.foldl_append, List.foldl_cons]
      obtain ⟨b1, _, _, _⟩ := foldl_insert_timeIndex h front off q s hs
      have hn := (foldl_insert_spec h front off q s).1
      obtain ⟨i1, _⟩ := insert_timeIndex h
        (front.foldl (fun t k => t.InsertNewKeyFrame h k off q) s) k off q
      have hs1 : TimeSorted
          (((front.foldl (fun t k => t.InsertNewKeyFrame h k off q) s).InsertNewKeyFrame h k
            off q).timeIndex q) := by
        rw [i1]
        exact timeAssign_sorted _ _ _ b1
      refine (foldl_insert_timeIndex h back off q _ hs1).2.2.2 _ ?_ hback
      rw [i1, hn]
      exact (mem_timeAssign _ _ _ b1 _).mpr (Or.inl rfl)
    refine ⟨hin, fun e he hkey => ?_⟩
    rw [timeSorted_unique _ a1 e _ he hin hkey]

/-- C19 (witness): in the equal-time-stamp scenario the key frames at addresses 1 and 2 are
inserted for sequence A into a fresh server; time index A holds the second copy under 0.5
and the first copy nowhere. -/
theorem C19_time_index_keeps_last_copy_witness :
    ((1 / 2 : ℚ), 1) ∈
        ((Server.init.seed.InsertNewKeyFrame equalStampHeap 1 0 SEQA).InsertNewKeyFrame
          equalStampHeap 2 0 SEQA).timeIndex SEQA ∧
      ∀ e ∈ ((Server.init.seed.InsertNewKeyFrame equalStampHeap 1 0 SEQA).InsertNewKeyFrame
          equalStampHeap 2 0 SEQA).timeIndex SEQA, e.2 ≠ 0 :=
  have hk := (C19_time_index_keeps_last_copy equalStampHeap Server.init.seed
    (seed_withClients_timeIndexWF []).1 0 SEQA).1 1 2 (by decide)
    (by with_unfolding_all decide)
  ⟨hk.1, hk.2.2.1⟩

end ORB_SLAM2
